import Mathlib

/-!
ALIZE feature-file readers: the windowed single-file reader and the SPro4 codec.

The repository declares `FeatureFileReaderSingle` and `FeatureFileReaderSPro4`
in `FeatureFileReaderSingle.h` and `FeatureFileReaderSPro4.h`; the bodies of
their member functions are not part of the sources.  The declarations fix the
names, the parameters and the fields; the behaviour is modelled from the
specification (sections 3, 4, 6 and 7), and every such definition says so in
its doc comment.

Conventions of the embedding:
* a byte is a `Nat` (below 256 when produced by the encoder), a file is a list
  of bytes;
* a stored coefficient is the 32-bit pattern of a 4-byte floating value, a
  `Nat` below `2 ^ 32`; no floating-point arithmetic is involved anywhere;
* `unsigned long` quantities are `Nat`;
* a member function that mutates the reader returns the new reader together
  with its result; a raised exception is `Except.error`.
-/

namespace alize

deriving instance DecidableEq for Except

/-! ## Error kinds and configuration values -/

/-- Modelled from the spec: the error kinds of section 7 (the exception classes
are not in the sources). -/
inductive ErrorKind where
  | notFound
  | invalidData
  | ioFailure
  | outOfBounds
deriving DecidableEq, Repr

/-- Modelled from the spec: the byte-order hint of the constructor
(`BIGENDIAN_AUTO`, `BIGENDIAN_TRUE`, `BIGENDIAN_FALSE` in the header). -/
inductive BigEndian where
  | BIGENDIAN_AUTO
  | BIGENDIAN_TRUE
  | BIGENDIAN_FALSE
deriving DecidableEq, Repr

/-- Modelled from the spec: the buffer size policy, `AUTO`, `USER`, or an
externally supplied storage (only `BUFFER_AUTO` is named in the sources). -/
inductive BufferUsage where
  | BUFFER_AUTO
  | BUFFER_USER
  | BUFFER_EXTERNAL
deriving DecidableEq, Repr

/-- Modelled from the spec: the historic policy, `ALL_FEATURES`, a fixed
retention size, or disabled (only `ALL_FEATURES` is named in the sources). -/
inductive HistoricUsage where
  | ALL_FEATURES
  | FIXED_SIZE
  | DISABLED
deriving DecidableEq, Repr

/-! ## Feature record and format descriptor -/

/-- Modelled from the spec: the descriptor flags of a stream, which channel
groups (static coefficients, energy, deltas) are present. -/
structure FeatureFlags where
  useS : Bool
  useE : Bool
  useD : Bool
deriving DecidableEq, Repr

/-- Modelled from the spec: a Feature Record, the coefficients of one frame
(as 32-bit patterns) and the flags of the stream it belongs to. -/
structure Feature where
  data : List Nat
  flags : FeatureFlags
deriving DecidableEq, Repr

/-- Modelled from the spec: one triple `(name, firstFrameIndex, frameCount)` of
the source table. -/
structure SourceEntry where
  name : String
  firstFrameIndex : Nat
  frameCount : Nat
deriving DecidableEq, Repr

/-- Modelled from the spec: the Format Descriptor (vector width, flag set,
sample rate, total frame count, header byte length, byte order, source
table).  The fields are those the header file declares as `_vectSize`,
`_flags`, `_sampleRate`, `_featureCount`, `_headerLength`. -/
structure FormatDescriptor where
  vectSize : Nat
  flags : FeatureFlags
  sampleRate : Nat
  featureCount : Nat
  headerLength : Nat
  bigEndian : Bool
  sources : List SourceEntry
deriving DecidableEq, Repr

/-! ## Source table -/

/-- Modelled from the spec: the source table built while scanning the named
recordings of a stream; the recordings are concatenated, so each one starts
where the previous one ends. -/
def buildSourceTable : Nat → List (String × Nat) → List SourceEntry
  | _, [] => []
  | first, (nm, n) :: rest => ⟨nm, first, n⟩ :: buildSourceTable (first + n) rest

/-- Modelled from the spec: lookup of a source by index; an index outside the
table is an out-of-bounds lookup error. -/
def sourceByIndex (t : List SourceEntry) (srcIdx : Nat) : Except ErrorKind SourceEntry :=
  match t.get? srcIdx with
  | some e => .ok e
  | none => .error .outOfBounds

/-- Modelled from the spec: lookup of a source by name; the table is scanned
in order and a name that no entry bears is a not-found lookup error. -/
def sourceByName (t : List SourceEntry) (srcName : String) : Except ErrorKind SourceEntry :=
  match t.find? (fun e => e.name == srcName) with
  | some e => .ok e
  | none => .error .notFound

/-- Modelled from the spec: the sum of the frame counts of a source table,
which a consistent table has equal to the total frame count. -/
def totalOfSources : List SourceEntry → Nat
  | [] => 0
  | e :: t => e.frameCount + totalOfSources t

/-- Modelled from the spec: when a write extends the stream, the appended
frames belong to the last source, which keeps the ranges contiguous and
covering. -/
def extendLastSource : List SourceEntry → Nat → List SourceEntry
  | [], _ => []
  | [e], extra => [{ e with frameCount := e.frameCount + extra }]
  | e :: e2 :: t, extra => e :: extendLastSource (e2 :: t) extra

/-! ## Byte layout -/

/-- Modelled from the spec: a frame is stored as `vectSize` 4-byte values. -/
def frameByteSize (d : FormatDescriptor) : Nat := 4 * d.vectSize

/-- Modelled from the spec: all frame offsets are
`headerLength + frameIndex * frameByteSize`. -/
def frameOffset (d : FormatDescriptor) (i : Nat) : Nat :=
  d.headerLength + i * frameByteSize d

/-- Modelled from the spec: the four bytes of a 32-bit value in the given byte
order. -/
def encodeWord (bigEndian : Bool) (w : Nat) : List Nat :=
  if bigEndian then [w / 16777216 % 256, w / 65536 % 256, w / 256 % 256, w % 256]
  else [w % 256, w / 256 % 256, w / 65536 % 256, w / 16777216 % 256]

/-- Modelled from the spec: the 32-bit value held by four bytes in the given
byte order. -/
def decodeWord (bigEndian : Bool) (b0 b1 b2 b3 : Nat) : Nat :=
  if bigEndian then b0 * 16777216 + b1 * 65536 + b2 * 256 + b3
  else b3 * 16777216 + b2 * 65536 + b1 * 256 + b0

/-- Modelled from the spec: frame encoding, the coefficients one after the
other, four bytes each. -/
def encodeFrame (bigEndian : Bool) : List Nat → List Nat
  | [] => []
  | w :: ws => encodeWord bigEndian w ++ encodeFrame bigEndian ws

/-- Modelled from the spec: frame decoding, coefficient `k` is held by the
bytes `4k .. 4k+3` of the chunk. -/
def decodeFrame (bigEndian : Bool) (vectSize : Nat) (chunk : List Nat) : List Nat :=
  (List.range vectSize).map (fun k =>
    decodeWord bigEndian (chunk.getD (4 * k) 0) (chunk.getD (4 * k + 1) 0)
      (chunk.getD (4 * k + 2) 0) (chunk.getD (4 * k + 3) 0))

/-- Modelled from the spec: encoding of the flag set in the flags field of the
header, one bit per channel group. -/
def FeatureFlags.toWord (f : FeatureFlags) : Nat :=
  (if f.useS then 1 else 0) + (if f.useE then 2 else 0) + (if f.useD then 4 else 0)

/-- Modelled from the spec: decoding of the flags field. -/
def FeatureFlags.ofWord (w : Nat) : FeatureFlags :=
  ⟨decide (w % 2 = 1), decide (w / 2 % 2 = 1), decide (w / 4 % 2 = 1)⟩

/-- Modelled from the spec: the SPro4 header length; the header is the fixed
region holding the vector width, flags, sample-rate and total-frame-count
fields, each taken as a 4-byte value. -/
def getHeaderLength : Nat := 16

/-- Modelled from the spec: the byte offset of the total-frame-count field,
the fourth 4-byte field of the header. -/
def featureCountOffset : Nat := 12

/-- Modelled from the spec: header encoding, the fields in the order vector
width, flags, sample rate, total frame count. -/
def encodeHeader (bigEndian : Bool) (d : FormatDescriptor) : List Nat :=
  encodeWord bigEndian d.vectSize ++ encodeWord bigEndian d.flags.toWord ++
    encodeWord bigEndian d.sampleRate ++ encodeWord bigEndian d.featureCount

/-! ## The byte-oriented reader (external collaborator) -/

/-- Modelled from the spec: what the byte-oriented reader raises, an
end-of-stream signal distinct from an I/O error. -/
inductive ReadSignal where
  | endOfStream
  | ioError
deriving DecidableEq, Repr

/-- Modelled from the spec: the storage medium behind a file name: the bytes
of the file (header region, then the frames), the source table a multi-source
variant appends (empty for a single-source file), and the byte offsets at
which the medium fails. -/
structure Medium where
  bytes : List Nat
  trailer : List (String × Nat)
  faulty : List Nat
deriving DecidableEq, Repr

/-- Modelled from the spec: one call to the underlying reader, recorded in
the order the calls are made. -/
inductive FileEvent where
  | open
  | read (offset length : Nat)
  | write (offset length : Nat)
  | close
deriving DecidableEq, Repr

/-- Modelled from the spec: an I/O failure of the medium, the byte range
`[off, off + n)` holds a failing offset. -/
def Medium.touchesFault (m : Medium) (off n : Nat) : Bool :=
  m.faulty.any (fun o => decide (off ≤ o ∧ o < off + n))

/-- Modelled from the spec: the chunk of `n` bytes of a file from offset `off`
on. -/
def readBytes (bytes : List Nat) (off n : Nat) : List Nat :=
  (List.range n).map (fun k => bytes.getD (off + k) 0)

/-- Modelled from the spec: `seek` to `off` followed by `readRaw(n)`: an
end-of-stream signal when the file ends before `n` bytes are read, an I/O
error when the medium fails, the chunk otherwise. -/
def Medium.readRaw (m : Medium) (off n : Nat) : Except ReadSignal (List Nat) :=
  if m.bytes.length < off + n then .error .endOfStream
  else if m.touchesFault off n then .error .ioError
  else .ok (readBytes m.bytes off n)

/-- Modelled from the spec: the bytes of a file after `data` is stored from
offset `off` on; a store beyond the end fills the gap with zero bytes. -/
def patchBytes (bytes : List Nat) (off : Nat) (data : List Nat) : List Nat :=
  (List.range (max bytes.length (off + data.length))).map (fun j =>
    if off ≤ j ∧ j < off + data.length then data.getD (j - off) 0 else bytes.getD j 0)

/-- Modelled from the spec: `seek` to `off` followed by a write of `data`: an
I/O error when the medium fails, the updated medium otherwise. -/
def Medium.writeRaw (m : Medium) (off : Nat) (data : List Nat) : Except ReadSignal Medium :=
  if m.touchesFault off data.length then .error .ioError
  else .ok { m with bytes := patchBytes m.bytes off data }

/-! ## Header parsing -/

/-- Modelled from the spec: the 4-byte field number `k` of a header chunk. -/
def decodeField (bigEndian : Bool) (hb : List Nat) (k : Nat) : Nat :=
  decodeWord bigEndian (hb.getD (4 * k) 0) (hb.getD (4 * k + 1) 0)
    (hb.getD (4 * k + 2) 0) (hb.getD (4 * k + 3) 0)

/-- Modelled from the spec: the descriptor read from a header chunk in a given
byte order.  A single-source file gets a one-entry table named after the file;
a multi-source file gets the table built from its named recordings, which is
structurally inconsistent (invalid data) when it does not cover the frames. -/
def parseFields (bigEndian : Bool) (hb : List Nat) (fileName : String)
    (trailer : List (String × Nat)) : Except ErrorKind FormatDescriptor :=
  let count := decodeField bigEndian hb 3
  let d : FormatDescriptor :=
    { vectSize := decodeField bigEndian hb 0
      flags := FeatureFlags.ofWord (decodeField bigEndian hb 1)
      sampleRate := decodeField bigEndian hb 2
      featureCount := count
      headerLength := getHeaderLength
      bigEndian := bigEndian
      sources := [⟨fileName, 0, count⟩] }
  match trailer with
  | [] => .ok d
  | s :: rest =>
    if totalOfSources (buildSourceTable 0 (s :: rest)) = count then
      .ok { d with sources := buildSourceTable 0 (s :: rest) }
    else .error .invalidData

/-- Modelled from the spec: the test the byte-order heuristic applies
to a header: the vector width and the frame count are not zero, not negative
when reinterpreted as signed 32-bit values, and consistent with the length of
the file. -/
def credibleHeader (d : FormatDescriptor) (fileLength : Nat) : Bool :=
  decide (d.vectSize ≠ 0) && decide (d.featureCount ≠ 0) &&
    decide (d.vectSize < 2147483648) && decide (d.featureCount < 2147483648) &&
    decide (d.headerLength + d.featureCount * frameByteSize d = fileLength)

/-- Modelled from the spec: `readHeader`.  With an explicit byte order the
header is read in that order; with `BIGENDIAN_AUTO` the native order is tried
first and, when the result is not credible, the opposite order; when both fail
the header is invalid data. -/
def readHeader (nativeBigEndian : Bool) (be : BigEndian) (hb : List Nat) (fileLength : Nat)
    (fileName : String) (trailer : List (String × Nat)) : Except ErrorKind FormatDescriptor :=
  match be with
  | .BIGENDIAN_TRUE => parseFields true hb fileName trailer
  | .BIGENDIAN_FALSE => parseFields false hb fileName trailer
  | .BIGENDIAN_AUTO =>
    match parseFields nativeBigEndian hb fileName trailer with
    | .ok d =>
      if credibleHeader d fileLength then .ok d
      else
        match parseFields (!nativeBigEndian) hb fileName trailer with
        | .ok d2 => if credibleHeader d2 fileLength then .ok d2 else .error .invalidData
        | .error e => .error e
    | .error _ =>
      match parseFields (!nativeBigEndian) hb fileName trailer with
      | .ok d2 => if credibleHeader d2 fileLength then .ok d2 else .error .invalidData
      | .error e => .error e

/-! ## The reader -/

/-- Modelled from the spec: the lazy header state as the explicit state
machine `Unopened → HeaderParsed → Positioned` of the design notes;
`featureIndex` is the last index returned. -/
inductive Lifecycle where
  | Unopened
  | HeaderParsed (d : FormatDescriptor)
  | Positioned (d : FormatDescriptor) (featureIndex : Nat)
deriving DecidableEq, Repr

/-- Modelled from the spec: the buffer window, a contiguous run of decoded
frames indexed by `[featureIndexOfBuffer, featureIndexOfBuffer + count)`
(`_featureIndexOfBuffer`, `_nbStored`, `_pBuffer` in the header file). -/
structure Window where
  featureIndexOfBuffer : Nat
  frames : List (List Nat)
deriving DecidableEq, Repr

/-- Modelled from the spec: `_nbStored`, the number of frames stored in the
buffer window. -/
def Window.nbStored (w : Window) : Nat := w.frames.length

/-- Modelled from the spec: the state of a `FeatureFileReaderSPro4` (with the
fields it inherits from `FeatureFileReaderSingle`): the construction
parameters, the file its name designates (`none` when absent), the handle,
the lazy header state with the cursor, the two windows, and the record of the
calls made to the underlying reader. -/
structure FeatureFileReaderSPro4 where
  fileName : String
  file : Option Medium
  nativeBigEndian : Bool
  bigEndian : BigEndian
  bufferUsage : BufferUsage
  bufferSize : Nat
  autoBufferSize : Nat
  historicUsage : HistoricUsage
  historicSize : Nat
  isOpen : Bool
  state : Lifecycle
  buffer : Window
  historic : List (Nat × List Nat)
  ioLog : List FileEvent
deriving DecidableEq, Repr

/-- Modelled from the spec: the constructor; it records its parameters and
performs no I/O. -/
def FeatureFileReaderSPro4.create (f : String) (file : Option Medium) (nativeBigEndian : Bool)
    (be : BigEndian) (b : BufferUsage) (bufferSize autoBufferSize : Nat)
    (h : HistoricUsage) (historicSize : Nat) : FeatureFileReaderSPro4 :=
  { fileName := f, file := file, nativeBigEndian := nativeBigEndian, bigEndian := be
    bufferUsage := b, bufferSize := bufferSize, autoBufferSize := autoBufferSize
    historicUsage := h, historicSize := historicSize
    isOpen := false, state := .Unopened, buffer := ⟨0, []⟩, historic := [], ioLog := [] }

/-- Modelled from the spec: the descriptor of a reader whose header is
parsed. -/
def Lifecycle.descriptor? : Lifecycle → Option FormatDescriptor
  | .Unopened => none
  | .HeaderParsed d => some d
  | .Positioned d _ => some d

/-- Modelled from the spec: the cursor `_featureIndex`, the last index
returned, if any. -/
def Lifecycle.featureIndex? : Lifecycle → Option Nat
  | .Positioned _ i => some i
  | _ => none

/-- Modelled from the spec: `_paramDefined`, the header has been parsed. -/
def FeatureFileReaderSPro4.paramDefined (r : FeatureFileReaderSPro4) : Bool :=
  r.state.descriptor?.isSome

/-- Modelled from the spec: `readParams`, the lazy open.  On first need the
file is opened and its header read; a failure is terminal for that attempt and
exposes no descriptor.  Once the header is parsed nothing is read again. -/
def readParams (r : FeatureFileReaderSPro4) :
    FeatureFileReaderSPro4 × Except ErrorKind FormatDescriptor :=
  match r.state with
  | .HeaderParsed d => (r, .ok d)
  | .Positioned d _ => (r, .ok d)
  | .Unopened =>
    match r.file with
    | none => ({ r with ioLog := r.ioLog ++ [.open] }, .error .notFound)
    | some m =>
      match m.readRaw 0 getHeaderLength with
      | .error .endOfStream =>
        ({ r with ioLog := r.ioLog ++ [.open, .read 0 getHeaderLength, .close] },
          .error .invalidData)
      | .error .ioError =>
        ({ r with ioLog := r.ioLog ++ [.open, .read 0 getHeaderLength, .close] },
          .error .ioFailure)
      | .ok hb =>
        match readHeader r.nativeBigEndian r.bigEndian hb m.bytes.length r.fileName
            m.trailer with
        | .error e =>
          ({ r with ioLog := r.ioLog ++ [.open, .read 0 getHeaderLength, .close] }, .error e)
        | .ok d =>
          ({ r with isOpen := true, state := .HeaderParsed d
                    ioLog := r.ioLog ++ [.open, .read 0 getHeaderLength] }, .ok d)

/-- Modelled from the spec: a metadata access parses the header if needed,
then answers from the descriptor. -/
def withParams {α : Type} (r : FeatureFileReaderSPro4)
    (k : FormatDescriptor → Except ErrorKind α) : FeatureFileReaderSPro4 × Except ErrorKind α :=
  match readParams r with
  | (r1, .ok d) => (r1, k d)
  | (r1, .error e) => (r1, .error e)

/-- Modelled from the spec: `getFeatureCount`. -/
def getFeatureCount (r : FeatureFileReaderSPro4) :=
  withParams r (fun d => .ok d.featureCount)

/-- Modelled from the spec: `getVectSize`. -/
def getVectSize (r : FeatureFileReaderSPro4) :=
  withParams r (fun d => .ok d.vectSize)

/-- Modelled from the spec: `getFeatureFlags`. -/
def getFeatureFlags (r : FeatureFileReaderSPro4) :=
  withParams r (fun d => .ok d.flags)

/-- Modelled from the spec: `getSampleRate`. -/
def getSampleRate (r : FeatureFileReaderSPro4) :=
  withParams r (fun d => .ok d.sampleRate)

/-- Modelled from the spec: `getSourceCount`. -/
def getSourceCount (r : FeatureFileReaderSPro4) :=
  withParams r (fun d => .ok d.sources.length)

/-- Modelled from the spec: `getFeatureCountOfASource(unsigned long)`. -/
def getFeatureCountOfASource (r : FeatureFileReaderSPro4) (srcIdx : Nat) :=
  withParams r (fun d => (sourceByIndex d.sources srcIdx).map (fun e => e.frameCount))

/-- Modelled from the spec: `getFeatureCountOfASource(const String&)`. -/
def getFeatureCountOfASourceByName (r : FeatureFileReaderSPro4) (srcName : String) :=
  withParams r (fun d => (sourceByName d.sources srcName).map (fun e => e.frameCount))

/-- Modelled from the spec: `getFirstFeatureIndexOfASource(unsigned long)`. -/
def getFirstFeatureIndexOfASource (r : FeatureFileReaderSPro4) (srcIdx : Nat) :=
  withParams r (fun d => (sourceByIndex d.sources srcIdx).map (fun e => e.firstFrameIndex))

/-- Modelled from the spec: `getFirstFeatureIndexOfASource(const String&)`. -/
def getFirstFeatureIndexOfASourceByName (r : FeatureFileReaderSPro4) (srcName : String) :=
  withParams r (fun d => (sourceByName d.sources srcName).map (fun e => e.firstFrameIndex))

/-- Modelled from the spec: `getNameOfASource`. -/
def getNameOfASource (r : FeatureFileReaderSPro4) (srcIdx : Nat) :=
  withParams r (fun d => (sourceByIndex d.sources srcIdx).map (fun e => e.name))

/-! ## Cursor and windows -/

/-- Modelled from the spec: `lastFeatureIndex`, the index of the final frame
available, `totalFrameCount - 1`; there is none in a stream without frames. -/
def lastFeatureIndex (d : FormatDescriptor) : Option Nat :=
  if d.featureCount = 0 then none else some (d.featureCount - 1)

/-- Modelled from the spec: the advance runs past `lastFeatureIndex`. -/
def runsPast (d : FormatDescriptor) (i : Nat) : Bool :=
  match lastFeatureIndex d with
  | none => true
  | some l => decide (l < i)

/-- Modelled from the spec: the index addressed when the cursor advances by
`step`: `step` frames after the last index returned, and frame `step - 1` when
nothing was returned yet. -/
def addressedIndex (st : Lifecycle) (step : Nat) : Nat :=
  match st with
  | .Positioned _ i => i + step
  | _ => step - 1

/-- Modelled from the spec: probe of the buffer window, a hit when the index
falls within `[featureIndexOfBuffer, featureIndexOfBuffer + count)`. -/
def bufferLookup (w : Window) (i : Nat) : Option (List Nat) :=
  if w.featureIndexOfBuffer ≤ i then w.frames.get? (i - w.featureIndexOfBuffer) else none

/-- Modelled from the spec: probe of the historic window, a hit when the
historic policy is active and the index is retained. -/
def historicLookup (r : FeatureFileReaderSPro4) (i : Nat) : Option (List Nat) :=
  if r.historicUsage = .DISABLED then none else r.historic.lookup i

/-- Modelled from the spec: `featureWantedIsInHistoric`. -/
def featureWantedIsInHistoric (r : FeatureFileReaderSPro4) (i : Nat) : Bool :=
  (historicLookup r i).isSome

/-- Modelled from the spec: the single lookup function over the two caches,
historic probed before buffer. -/
def lookupWindows (r : FeatureFileReaderSPro4) (i : Nat) : Option (List Nat) :=
  match historicLookup r i with
  | some fr => some fr
  | none => bufferLookup r.buffer i

/-- Modelled from the spec: the capacity of the buffer window in frames, per
the buffer policy (an external storage holds `bufferSize` values). -/
def bufferCapacity (r : FeatureFileReaderSPro4) (d : FormatDescriptor) : Nat :=
  match r.bufferUsage with
  | .BUFFER_AUTO => r.autoBufferSize
  | .BUFFER_USER => r.bufferSize
  | .BUFFER_EXTERNAL => r.bufferSize / d.vectSize

/-- Modelled from the spec: the size of a fresh window starting at `i`: the
capacity, cut at the end of the stream, and never less than the addressed
frame itself. -/
def windowLength (r : FeatureFileReaderSPro4) (d : FormatDescriptor) (i : Nat) : Nat :=
  max 1 (min (bufferCapacity r d) (d.featureCount - i))

/-- Modelled from the spec: decoding of `n` consecutive frames from frame `i`
on, each one read at its byte offset.  An I/O error fails the whole refill; an
end-of-stream signal ends the window at the frames already decoded. -/
def decodeFrames (m : Medium) (d : FormatDescriptor) :
    Nat → Nat → List FileEvent × Except ErrorKind (List (List Nat))
  | _, 0 => ([], .ok [])
  | i, n + 1 =>
    match m.readRaw (frameOffset d i) (frameByteSize d) with
    | .error .ioError => ([.read (frameOffset d i) (frameByteSize d)], .error .ioFailure)
    | .error .endOfStream => ([.read (frameOffset d i) (frameByteSize d)], .ok [])
    | .ok chunk =>
      match decodeFrames m d (i + 1) n with
      | (evs, .error e) => (.read (frameOffset d i) (frameByteSize d) :: evs, .error e)
      | (evs, .ok frs) =>
        (.read (frameOffset d i) (frameByteSize d) :: evs,
          .ok (decodeFrame d.bigEndian d.vectSize chunk :: frs))

/-- Modelled from the spec: one frame enters the historic window, replacing a
retained copy of the same index. -/
def insertHistoric (h : List (Nat × List Nat)) (i : Nat) (fr : List Nat) :
    List (Nat × List Nat) :=
  (i, fr) :: h.filter (fun e => e.1 != i)

/-- Modelled from the spec: the frames of a decoded window enter the historic
window in order. -/
def insertFrames (h : List (Nat × List Nat)) : Nat → List (List Nat) → List (Nat × List Nat)
  | _, [] => h
  | i, fr :: frs => insertFrames (insertHistoric h i fr) (i + 1) frs

/-- Modelled from the spec: update of the historic window after a refill, per
its policy: everything decoded is retained, or the most recent `size` frames,
or nothing. -/
def retain (usage : HistoricUsage) (size : Nat) (h : List (Nat × List Nat)) (first : Nat)
    (frs : List (List Nat)) : List (Nat × List Nat) :=
  match usage with
  | .ALL_FEATURES => insertFrames h first frs
  | .FIXED_SIZE => (insertFrames h first frs).take size
  | .DISABLED => []

/-- Modelled from the spec: a written frame is mirrored into the buffer
window: it replaces the frame of that index when the window holds it, and
otherwise becomes the window. -/
def mirrorBuffer (w : Window) (p : Nat) (fr : List Nat) : Window :=
  if w.featureIndexOfBuffer ≤ p ∧ p < w.featureIndexOfBuffer + w.frames.length then
    ⟨w.featureIndexOfBuffer, w.frames.set (p - w.featureIndexOfBuffer) fr⟩
  else ⟨p, [fr]⟩

/-- Modelled from the spec: a written frame replaces the copy of that index
the historic window retains, so that a read after the write is consistent. -/
def mirrorHistoric (h : List (Nat × List Nat)) (p : Nat) (fr : List Nat) :
    List (Nat × List Nat) :=
  h.map (fun e => if e.1 = p then (p, fr) else e)

/-! ## Operations of the windowed reader -/

/-- Modelled from the spec: the lookup algorithm of `readFeature` once the
descriptor `d` is available.  The cursor advances by `step`; the result is
`false` (`none`) when the advance runs past `lastFeatureIndex`; otherwise the
addressed frame is served from the historic window, else from the buffer
window, else from a fresh window decoded from the stream, which starts at the
addressed index (also when the miss is adjacent to the current window),
replaces the buffer window and enters the historic window.  A step of zero is
rejected.  A failed refill leaves cursor and windows as they were. -/
def serveFeature (r : FeatureFileReaderSPro4) (d : FormatDescriptor) (step : Nat) :
    FeatureFileReaderSPro4 × Except ErrorKind (Option Feature) :=
  if step = 0 then (r, .error .outOfBounds)
  else if runsPast d (addressedIndex r.state step) then (r, .ok none)
  else
    match lookupWindows r (addressedIndex r.state step) with
    | some fr =>
      ({ r with state := .Positioned d (addressedIndex r.state step) },
        .ok (some ⟨fr, d.flags⟩))
    | none =>
      match r.file with
      | none => (r, .error .notFound)
      | some m =>
        match decodeFrames m d (addressedIndex r.state step)
            (windowLength r d (addressedIndex r.state step)) with
        | (evs, .error e) => ({ r with ioLog := r.ioLog ++ evs }, .error e)
        | (evs, .ok []) => ({ r with ioLog := r.ioLog ++ evs }, .ok none)
        | (evs, .ok (fr :: frs)) =>
          ({ r with
              ioLog := r.ioLog ++ evs
              buffer := ⟨addressedIndex r.state step, fr :: frs⟩
              historic := retain r.historicUsage r.historicSize r.historic
                (addressedIndex r.state step) (fr :: frs)
              state := .Positioned d (addressedIndex r.state step) },
            .ok (some ⟨fr, d.flags⟩))

/-- Modelled from the spec: `readFeature(out, step)`: the header is parsed on
first need, then the addressed frame is looked up. -/
def readFeature (r : FeatureFileReaderSPro4) (step : Nat) :
    FeatureFileReaderSPro4 × Except ErrorKind (Option Feature) :=
  match readParams r with
  | (r1, .error e) => (r1, .error e)
  | (r1, .ok d) => serveFeature r1 d step

/-- Modelled from the spec: `writeFeature` once the descriptor `d` is
available.  The frame is stored at the stepped position and mirrored into the
windows; a write past the current end extends the total frame count, in the
descriptor and in the header.  A step of zero and a record of another width
are rejected.  A failed write leaves cursor and windows as they were. -/
def storeFeature (r : FeatureFileReaderSPro4) (d : FormatDescriptor) (f : Feature)
    (step : Nat) : FeatureFileReaderSPro4 × Except ErrorKind Bool :=
  if step = 0 then (r, .error .outOfBounds)
  else if f.data.length ≠ d.vectSize then (r, .error .invalidData)
  else
    match r.file with
    | none => (r, .error .notFound)
    | some m =>
      match m.writeRaw (frameOffset d (addressedIndex r.state step))
          (encodeFrame d.bigEndian f.data) with
      | .error _ =>
        ({ r with
            ioLog := r.ioLog ++
              [.write (frameOffset d (addressedIndex r.state step)) (frameByteSize d)] },
          .error .ioFailure)
      | .ok m1 =>
        if addressedIndex r.state step < d.featureCount then
          ({ r with
              file := some m1
              ioLog := r.ioLog ++
                [.write (frameOffset d (addressedIndex r.state step)) (frameByteSize d)]
              buffer := mirrorBuffer r.buffer (addressedIndex r.state step) f.data
              historic := mirrorHistoric r.historic (addressedIndex r.state step) f.data
              state := .Positioned d (addressedIndex r.state step) },
            .ok true)
        else
          match m1.writeRaw featureCountOffset
              (encodeWord d.bigEndian (addressedIndex r.state step + 1)) with
          | .error _ =>
            ({ r with
                file := some m1
                ioLog := r.ioLog ++
                  [.write (frameOffset d (addressedIndex r.state step)) (frameByteSize d),
                   .write featureCountOffset 4] },
              .error .ioFailure)
          | .ok m2 =>
            ({ r with
                file := some m2
                ioLog := r.ioLog ++
                  [.write (frameOffset d (addressedIndex r.state step)) (frameByteSize d),
                   .write featureCountOffset 4]
                buffer := mirrorBuffer r.buffer (addressedIndex r.state step) f.data
                historic := mirrorHistoric r.historic (addressedIndex r.state step) f.data
                state := .Positioned
                  { d with
                    featureCount := addressedIndex r.state step + 1
                    sources := extendLastSource d.sources
                      (addressedIndex r.state step + 1 - d.featureCount) }
                  (addressedIndex r.state step) },
              .ok true)

/-- Modelled from the spec: `writeFeature(feature, step)`: the header is
parsed on first need, then the frame is stored. -/
def writeFeature (r : FeatureFileReaderSPro4) (f : Feature) (step : Nat) :
    FeatureFileReaderSPro4 × Except ErrorKind Bool :=
  match readParams r with
  | (r1, .error e) => (r1, .error e)
  | (r1, .ok d) => storeFeature r1 d f step

/-- Modelled from the spec: `close()`: the file handle is released when one is
held, both windows are dropped, and no cached header state survives. -/
def close (r : FeatureFileReaderSPro4) : FeatureFileReaderSPro4 :=
  { r with
    isOpen := false
    state := .Unopened
    buffer := ⟨0, []⟩
    historic := []
    ioLog := if r.isOpen then r.ioLog ++ [.close] else r.ioLog }

/-- Modelled from the spec: `setExternalBufferToUse(storage)`: the reader is
handed a caller-owned storage of `size` values and the previously active
window is invalidated. -/
def setExternalBufferToUse (r : FeatureFileReaderSPro4) (size : Nat) : FeatureFileReaderSPro4 :=
  { r with bufferUsage := .BUFFER_EXTERNAL, bufferSize := size, buffer := ⟨0, []⟩ }

/-- The reader with both windows emptied (a forced cache miss). -/
def clearWindows (r : FeatureFileReaderSPro4) : FeatureFileReaderSPro4 :=
  { r with buffer := ⟨0, []⟩, historic := [] }

/-- The reader after `n` sequential calls of `readFeature` with step 1, with
the results of the calls in call order. -/
def readSeq : Nat → FeatureFileReaderSPro4 →
    FeatureFileReaderSPro4 × List (Except ErrorKind (Option Feature))
  | 0, r => (r, [])
  | n + 1, r =>
    ((readSeq n (readFeature r 1).1).1, (readFeature r 1).2 :: (readSeq n (readFeature r 1).1).2)

/-- The reader after sequential calls of `writeFeature` with step 1, one per
record, with the results of the calls in call order. -/
def writeSeq : List Feature → FeatureFileReaderSPro4 →
    FeatureFileReaderSPro4 × List (Except ErrorKind Bool)
  | [], r => (r, [])
  | f :: fs, r =>
    ((writeSeq fs (writeFeature r f 1).1).1,
      (writeFeature r f 1).2 :: (writeSeq fs (writeFeature r f 1).1).2)

/-! ## Reachable reader states -/

/-- A call on the public interface of the reader. -/
inductive Op where
  | read (step : Nat)
  | write (f : Feature) (step : Nat)
  | close
  | setExternalBuffer (size : Nat)
  | metadata
deriving DecidableEq, Repr

/-- The reader after a call (the metadata accessors all act on the reader as
`readParams` does). -/
def Op.apply : Op → FeatureFileReaderSPro4 → FeatureFileReaderSPro4
  | .read step, r => (readFeature r step).1
  | .write f step, r => (writeFeature r f step).1
  | .close, r => alize.close r
  | .setExternalBuffer size, r => setExternalBufferToUse r size
  | .metadata, r => (readParams r).1

/-- A record whose coefficients are 4-byte values. -/
def Feature.wellFormed (f : Feature) : Prop := ∀ w ∈ f.data, w < 4294967296

/-- A call whose arguments are well-formed. -/
def Op.wellFormed : Op → Prop
  | .write f _ => f.wellFormed
  | _ => True

/-- The reader states reachable from a constructed reader by calls on its
public interface. -/
inductive Reachable : FeatureFileReaderSPro4 → Prop where
  | create (f : String) (file : Option Medium) (nativeBigEndian : Bool) (be : BigEndian)
      (b : BufferUsage) (bufferSize autoBufferSize : Nat) (h : HistoricUsage)
      (historicSize : Nat) :
      Reachable (FeatureFileReaderSPro4.create f file nativeBigEndian be b bufferSize
        autoBufferSize h historicSize)
  | call (r : FeatureFileReaderSPro4) (op : Op) :
      Reachable r → op.wellFormed → Reachable (op.apply r)

/-! ## Coherence of the windows with the stream -/

/-- The frame of index `i` as a decode from the stream yields it; there is
none when the file ends before the frame does. -/
def frameAt (bytes : List Nat) (d : FormatDescriptor) (i : Nat) : Option (List Nat) :=
  if bytes.length < frameOffset d i + frameByteSize d then none
  else some (decodeFrame d.bigEndian d.vectSize
    (readBytes bytes (frameOffset d i) (frameByteSize d)))

/-- Every frame the buffer window stores is the frame the stream holds at
that index. -/
def BufferCoherent (bytes : List Nat) (d : FormatDescriptor) (w : Window) : Prop :=
  ∀ k fr, w.frames.get? k = some fr → frameAt bytes d (w.featureIndexOfBuffer + k) = some fr

/-- Every frame the historic window retains is the frame the stream holds at
that index. -/
def HistoricCoherent (bytes : List Nat) (d : FormatDescriptor) (h : List (Nat × List Nat)) :
    Prop :=
  ∀ i fr, (i, fr) ∈ h → frameAt bytes d i = some fr

/-- The entries of a source table are contiguous ranges that start at `a` and
end at `b`. -/
def SourcesPartition : List SourceEntry → Nat → Nat → Prop
  | [], a, b => a = b
  | e :: t, a, b => e.firstFrameIndex = a ∧ SourcesPartition t (a + e.frameCount) b

/-- Every index the buffer window stores is below the total frame count. -/
def BufferBounded (d : FormatDescriptor) (w : Window) : Prop :=
  ∀ k, k < w.frames.length → w.featureIndexOfBuffer + k < d.featureCount

/-- Every index the historic window retains is below the total frame count. -/
def HistoricBounded (d : FormatDescriptor) (h : List (Nat × List Nat)) : Prop :=
  ∀ i fr, (i, fr) ∈ h → i < d.featureCount

/-- What the invariant of the reader says of a descriptor `d` over the file
`m`: the header length is the one of the format, the source table partitions
the frame indices, and both windows are coherent with the stream. -/
def InvAt (r : FeatureFileReaderSPro4) (d : FormatDescriptor) (m : Medium) : Prop :=
  d.headerLength = getHeaderLength ∧ d.sources ≠ [] ∧
    SourcesPartition d.sources 0 d.featureCount ∧
    BufferCoherent m.bytes d r.buffer ∧ HistoricCoherent m.bytes d r.historic ∧
    BufferBounded d r.buffer ∧ HistoricBounded d r.historic

/-- The invariant of the reader: without a descriptor both windows are empty;
with one, the file is there and `InvAt` holds. -/
def Inv (r : FeatureFileReaderSPro4) : Prop :=
  match r.state.descriptor? with
  | none => r.buffer.frames = [] ∧ r.historic = []
  | some d => ∃ m, r.file = some m ∧ InvAt r d m

/-- The stream after frame `p` is stored: frame `p` is `data`, the other
frames are as before. -/
def Updated (b0 b1 : List Nat) (d : FormatDescriptor) (p : Nat) (data : List Nat) : Prop :=
  (∀ j fr, j ≠ p → frameAt b0 d j = some fr → frameAt b1 d j = some fr) ∧
    frameAt b1 d p = some data

/-- Example data: a two-source stream, source A with 3 frames of width 2 and
source B with 5 frames of width 2. -/
def exampleFramesA : List (List Nat) := [[1, 2], [3, 4], [5, 6]]

/-- Example data: the frames of source B. -/
def exampleFramesB : List (List Nat) := [[7, 8], [9, 10], [11, 12], [13, 14], [15, 16]]

/-- The frames of a list, encoded one after the other. -/
def encodeFrames (bigEndian : Bool) : List (List Nat) → List Nat
  | [] => []
  | fr :: frs => encodeFrame bigEndian fr ++ encodeFrames bigEndian frs

/-- Example data: the descriptor of the two-source stream. -/
def exampleDescriptor : FormatDescriptor :=
  { vectSize := 2, flags := ⟨true, false, false⟩, sampleRate := 100, featureCount := 8
    headerLength := getHeaderLength, bigEndian := true
    sources := [⟨"A", 0, 3⟩, ⟨"B", 3, 5⟩] }

/-- Example data: the file of the two-source stream, big endian. -/
def exampleMedium : Medium :=
  { bytes := encodeHeader true exampleDescriptor ++
      encodeFrames true (exampleFramesA ++ exampleFramesB)
    trailer := [("A", 3), ("B", 5)]
    faulty := [] }

/-- Example data: a reader constructed on the two-source stream, with a
user-sized buffer of 3 frames and a historic window that retains everything. -/
def exampleReader : FeatureFileReaderSPro4 :=
  FeatureFileReaderSPro4.create "ab.prm" (some exampleMedium) false .BIGENDIAN_TRUE
    .BUFFER_USER 3 4 .ALL_FEATURES 0

/-- The sum of `getFeatureCountOfASource(s)` over the sources `s < n`. -/
def sourceCountsSum (r : FeatureFileReaderSPro4) : Nat → Nat
  | 0 => 0
  | n + 1 =>
    sourceCountsSum r n +
      (match (getFeatureCountOfASource r n).2 with
       | .ok c => c
       | .error _ => 0)

/-- The file holds the frames `fs`: as many as the total frame count, each one
decodable from the stream at its index. -/
def FileHolds (bytes : List Nat) (d : FormatDescriptor) (fs : List (List Nat)) : Prop :=
  fs.length = d.featureCount ∧ ∀ i, i < fs.length → frameAt bytes d i = fs.get? i

instance (bytes : List Nat) (d : FormatDescriptor) (fs : List (List Nat)) :
    Decidable (FileHolds bytes d fs) :=
  inferInstanceAs (Decidable (fs.length = d.featureCount ∧
    ∀ i, i < fs.length → frameAt bytes d i = fs.get? i))

/-- The frames of a stream made of consecutive named sources. -/
def allFrames : List (String × List (List Nat)) → List (List Nat)
  | [] => []
  | s :: rest => s.2 ++ allFrames rest

/-- The names and frame counts of the sources of a stream, as its source
table lists them. -/
def sourceSizes (srcs : List (String × List (List Nat))) : List (String × Nat) :=
  srcs.map (fun s => (s.1, s.2.length))

/-- The sum `n_0 + ... + n_(j-1)` of the frame counts of the first `j`
sources. -/
def countBefore : List (String × Nat) → Nat → Nat
  | [], _ => 0
  | _ :: _, 0 => 0
  | s :: rest, j + 1 => s.2 + countBefore rest j

/-- Example data: the two-source stream as named sources. -/
def exampleSources : List (String × List (List Nat)) :=
  [("A", exampleFramesA), ("B", exampleFramesB)]

/-- Example data: a stream whose two sources bear the same name. -/
def duplicateMedium : Medium :=
  { exampleMedium with trailer := [("A", 3), ("A", 5)] }

/-- Example data: a reader constructed on the stream with a duplicated source
name. -/
def duplicateReader : FeatureFileReaderSPro4 :=
  FeatureFileReaderSPro4.create "aa.prm" (some duplicateMedium) false .BIGENDIAN_TRUE
    .BUFFER_USER 3 4 .ALL_FEATURES 0

/-- The explicit byte-order hint for a byte order. -/
def explicitOrder (bigEndian : Bool) : BigEndian :=
  if bigEndian then .BIGENDIAN_TRUE else .BIGENDIAN_FALSE

/-- A single-source stream of this codec that holds no frame yet: the header
alone, in the given byte order. -/
def emptyStream (bigEndian : Bool) (vectSize : Nat) (flags : FeatureFlags) (sampleRate : Nat) :
    Medium :=
  { bytes := encodeHeader bigEndian
      { vectSize := vectSize, flags := flags, sampleRate := sampleRate, featureCount := 0
        headerLength := getHeaderLength, bigEndian := bigEndian, sources := [] }
    trailer := []
    faulty := [] }

/-- The layout parameters of a stream: vector width and byte order. -/
def layoutOf (bigEndian : Bool) (vectSize : Nat) : FormatDescriptor :=
  { vectSize := vectSize, flags := ⟨false, false, false⟩, sampleRate := 0, featureCount := 0
    headerLength := getHeaderLength, bigEndian := bigEndian, sources := [] }

/-- What the file is after the frames `written` are stored in a stream of
width `v`, flags `fl` and sample rate `sr`: a sound single-source medium whose
header fields hold `v`, `fl`, `sr` and the number of frames, and which holds
the frames at their indices. -/
def Written (be : Bool) (v : Nat) (fl : FeatureFlags) (sr : Nat) (written : List (List Nat))
    (m : Medium) : Prop :=
  m.faulty = [] ∧ m.trailer = [] ∧ getHeaderLength ≤ m.bytes.length ∧
    decodeField be m.bytes 0 = v ∧ decodeField be m.bytes 1 = fl.toWord ∧
    decodeField be m.bytes 2 = sr ∧ decodeField be m.bytes 3 = written.length ∧
    ∀ i, i < written.length → frameAt m.bytes (layoutOf be v) i = written.get? i

/-- The descriptor parsed from the header of a single-source stream. -/
def parsedDescriptor (be : Bool) (v : Nat) (fl : FeatureFlags) (sr n : Nat) (fileName : String) :
    FormatDescriptor :=
  { vectSize := v, flags := fl, sampleRate := sr, featureCount := n
    headerLength := getHeaderLength, bigEndian := be, sources := [⟨fileName, 0, n⟩] }

/-- The state of a reader while the frames `ws` are being written one after
the other: its file holds them, and either nothing was written and the header
is not parsed yet, or the descriptor counts them and the cursor is on the last
one. -/
def WritePhase (be : Bool) (v : Nat) (fl : FeatureFlags) (sr : Nat) (ws : List (List Nat))
    (r : FeatureFileReaderSPro4) : Prop :=
  ∃ m, r.file = some m ∧ Written be v fl sr ws m ∧ r.bigEndian = explicitOrder be ∧
    ((r.state = .Unopened ∧ ws = []) ∨
      ∃ d, r.state.descriptor? = some d ∧ d.vectSize = v ∧
        d.headerLength = getHeaderLength ∧ d.bigEndian = be ∧
        d.featureCount = ws.length ∧ addressedIndex r.state 1 = ws.length)

instance (f : Feature) : Decidable f.wellFormed :=
  inferInstanceAs (Decidable (∀ w ∈ f.data, w < 4294967296))

/-- Example data: two records of width 2. -/
def exampleRecords : List Feature :=
  [⟨[1, 2], ⟨true, false, true⟩⟩, ⟨[70000, 4000000000], ⟨true, false, true⟩⟩]

/-- Example data: the two-source stream on a medium that fails at byte offset
50, inside frame 4. -/
def faultyMedium : Medium := { exampleMedium with faulty := [50] }

/-- Example data: a reader on the failing medium after frame 0 was read: the
cursor is on frame 0 and the buffer window holds frames 0 to 2. -/
def faultyReader : FeatureFileReaderSPro4 :=
  (readFeature (FeatureFileReaderSPro4.create "ab.prm" (some faultyMedium) false
    .BIGENDIAN_TRUE .BUFFER_USER 3 4 .ALL_FEATURES 0) 1).1

/-- The read calls a refill makes for `k` consecutive frames from frame `i`
on: one per frame, at the offset of the frame, of the byte size of a frame. -/
def frameReads (d : FormatDescriptor) : Nat → Nat → List FileEvent
  | _, 0 => []
  | i, k + 1 => .read (frameOffset d i) (frameByteSize d) :: frameReads d (i + 1) k

/-! ## Dense matrices (`Matrix.h`) -/

/-- Modelled from the spec: the exception classes (`Exception.h` is not in the
sources): what a member function of `Matrix`, `XList` or `XListFileReader`
throws. -/
inductive Thrown where
  | Exception
  | IndexOutOfBoundsException
  | IOException
  | EOFException
  | FileNotFoundException
deriving DecidableEq, Repr

/-- The class `Matrix<T>`: `_cols`, `_rows` and the single-dimension array
`_array` in which the matrix is stored (`RealVector<T>`, a list here). -/
structure Matrix (T : Type) where
  cols : Nat
  rows : Nat
  array : List T
deriving DecidableEq, Repr

/-- The array of a matrix holds `rows * cols` elements. -/
def Matrix.wf {T : Type} (m : Matrix T) : Prop := m.array.length = m.rows * m.cols

instance {T : Type} (m : Matrix T) : Decidable m.wf :=
  inferInstanceAs (Decidable (m.array.length = m.rows * m.cols))

/-- Modelled from the spec: `assertIsInBounds` of `Object` (not in the
sources): raises `IndexOutOfBoundsException` unless the index is below the
size. -/
def assertIsInBounds (i size : Nat) : Except Thrown Unit :=
  if i < size then .ok () else .error .IndexOutOfBoundsException

/-- Modelled from the spec: `RealVector<T>::operator[]` (not in the sources):
the element of that index, `IndexOutOfBoundsException` outside the vector. -/
def vectorAt {T : Type} (a : List T) (i : Nat) : Except Thrown T :=
  match a.get? i with
  | some v => .ok v
  | none => .error .IndexOutOfBoundsException

/-- The read through a raw pointer obtained from `getArray()`: the element of
that index (the default value stands for what lies outside the array, which
no loop reads when the arrays hold `rows * cols` elements). -/
def rawAt {T : Type} [Inhabited T] (a : List T) (i : Nat) : T := a.getD i default

/-- `Matrix::operator()(row, col) const`: both indices are checked, column
first, then the element at `row * _cols + col` of the array is returned. -/
def Matrix.get {T : Type} (m : Matrix T) (row col : Nat) : Except Thrown T :=
  match assertIsInBounds col m.cols with
  | .error e => .error e
  | .ok _ =>
    match assertIsInBounds row m.rows with
    | .error e => .error e
    | .ok _ => vectorAt m.array (row * m.cols + col)

/-- `Matrix::operator()(row, col)` used as an assignment target: both indices
are checked, column first, then the element at `row * _cols + col` of the
array is replaced. -/
def Matrix.assign {T : Type} (m : Matrix T) (row col : Nat) (v : T) :
    Except Thrown (Matrix T) :=
  match assertIsInBounds col m.cols with
  | .error e => .error e
  | .ok _ =>
    match assertIsInBounds row m.rows with
    | .error e => .error e
    | .ok _ =>
      if row * m.cols + col < m.array.length then
        .ok { m with array := m.array.set (row * m.cols + col) v }
      else .error .IndexOutOfBoundsException

/-- A counted `for` loop: `body` runs for the index values `lo`, `lo + 1`, ...,
`lo + n - 1` in that order, threading the state. -/
def loop {σ : Type} (body : Nat → σ → σ) : Nat → Nat → σ → σ
  | _, 0, s => s
  | lo, n + 1, s => loop body (lo + 1) n (body lo s)

/-- A counted descending `for` loop: `body` runs for the index values `hi`,
`hi - 1`, ..., `hi - n + 1` in that order, threading the state. -/
def loopDown {σ : Type} (body : Nat → σ → σ) : Nat → Nat → σ → σ
  | _, 0, s => s
  | hi, n + 1, s => loopDown body (hi - 1) n (body hi s)

/-- `Matrix::transpose()`, in place.  The state of the outer loop is the
array `p` and `rr`, the state of the inner loop is `p` and `cc`; `t` is the
copy of the array made before the loops. -/
def Matrix.transpose {T : Type} [Inhabited T] (m : Matrix T) : Matrix T :=
  { cols := m.rows
    rows := m.cols
    array :=
      (loop (fun r (st : List T × Nat) =>
        ((loop (fun c (st2 : List T × Nat) =>
            (st2.1.set (r + st2.2) (rawAt m.array (c + st.2)), st2.2 + m.rows))
          0 m.cols (st.1, 0)).1, st.2 + m.cols))
        0 m.rows (m.array, 0)).1 }

/-- `Matrix::operator*(const Matrix&) const`.  The result `tmp(_rows, cols)` is
allocated with `_rows * cols` elements, a product computed on `unsigned long`
(64 bits), all set to 0.  The state of the loop on `i` is `pTmp`, `i_cols` and
`itmp_cols`; the state of the loop on `k` is `pTmp` and `kcols`. -/
def Matrix.mul {T : Type} [Inhabited T] [Zero T] [Add T] [Mul T] (a m : Matrix T) :
    Except Thrown (Matrix T) :=
  if a.cols ≠ m.rows then .error .Exception
  else
    .ok
      { cols := m.cols
        rows := a.rows
        array :=
          (loop (fun _ (st : List T × Nat × Nat) =>
            (loop (fun j (pTmp : List T) =>
              (loop (fun k (st3 : List T × Nat) =>
                (st3.1.set (st.2.2 + j)
                  (rawAt st3.1 (st.2.2 + j) + rawAt a.array (st.2.1 + k) * rawAt m.array (st3.2 + j)),
                  st3.2 + m.cols))
                0 a.cols (pTmp, 0)).1)
              0 m.cols st.1, st.2.1 + a.cols, st.2.2 + m.cols))
            0 a.rows (List.replicate ((a.rows * m.cols) % 2 ^ 64) 0, 0, 0)).1 }

/-- Modelled from the spec: `RealVector<T>::operator+=` (not in the sources):
the element-wise sum, for vectors of the same size. -/
def vectorAdd {T : Type} [Add T] (a b : List T) : List T := List.zipWith (fun x y => x + y) a b

/-- `Matrix::operator+=(const Matrix&)`: the matrix after the call and what
the call raises. -/
def Matrix.addAssign {T : Type} [Add T] (a m : Matrix T) : Matrix T × Except Thrown Unit :=
  if a.cols ≠ m.cols ∨ a.rows ≠ m.rows then (a, .error .Exception)
  else ({ a with array := vectorAdd a.array m.array }, .ok ())


/-- A `2 x 3` matrix of integers, used to instantiate the theorems. -/
def exampleMatrixA : Matrix Int := { cols := 3, rows := 2, array := [1, 2, 3, 4, 5, 6] }

/-- A `3 x 2` matrix of integers, used to instantiate the theorems. -/
def exampleMatrixB : Matrix Int := { cols := 2, rows := 3, array := [7, 8, 9, 10, 11, 12] }

/-- A second `2 x 3` matrix of integers, used to instantiate the theorems. -/
def exampleMatrixC : Matrix Int := { cols := 3, rows := 2, array := [10, 20, 30, 40, 50, 60] }

/-! ## Lists of lines (`XList.cpp`, `XListFileReader.cpp`) -/

/-- Modelled from the spec: the class `XLine` (not in the sources): the
elements of a line, in order, and the index of the current element. -/
structure XLine where
  elements : List String
  current : Nat
deriving DecidableEq, Repr

/-- Modelled from the spec: `XLine::create()` (not in the sources): a line
without element. -/
def XLine.create : XLine := { elements := [], current := 0 }

/-- Modelled from the spec: `XLine::addElement` (not in the sources): the
element is appended to the line. -/
def XLine.addElement (l : XLine) (e : String) : XLine := { l with elements := l.elements ++ [e] }

/-- Modelled from the spec: `XLine::rewind` (not in the sources): the first
element becomes the current one. -/
def XLine.rewind (l : XLine) : XLine := { l with current := 0 }

/-- Modelled from the spec: `XLine::getElementCount` (not in the sources). -/
def XLine.getElementCount (l : XLine) : Nat := l.elements.length

/-- Modelled from the spec: the argument-less `XLine::getElement()` (not in the
sources): `NULL` when the current element is past the last one, otherwise the
current element, and the next one becomes current. -/
def XLine.getElement (l : XLine) : XLine × Option String :=
  match l.elements.get? l.current with
  | none => (l, none)
  | some e => ({ l with current := l.current + 1 }, some e)

/-- Modelled from the spec: `XLine::getElement(idx)` (not in the sources): the
element of that index, `IndexOutOfBoundsException` when there is none. -/
def XLine.getElementAt (l : XLine) (idx : Nat) : Except Thrown String :=
  match l.elements.get? idx with
  | none => .error .IndexOutOfBoundsException
  | some e => .ok e

/-- The class `XList`: the vector of lines `_vector` and the cursor
`_current`. -/
structure XList where
  vector : List XLine
  current : Nat
deriving DecidableEq, Repr

/-- `XList::reset()`: all the lines are deleted and the cursor is set to 0. -/
def XList.reset (_l : XList) : XList := { vector := [], current := 0 }

/-- `XList::rewind()`. -/
def XList.rewind (l : XList) : XList := { l with current := 0 }

/-- `XList::getLineCount()`. -/
def XList.getLineCount (l : XList) : Nat := l.vector.length

/-- `XList::addLine()`: a new empty line is added at the end of the vector and
the cursor is set to its index, which `addObject` returns.  The reference to
the new line that the method returns is that index here. -/
def XList.addLine (l : XList) : XList × Nat :=
  ({ vector := l.vector ++ [XLine.create], current := l.vector.length }, l.vector.length)

/-- A change made to a line of the list through a reference to it. -/
def XList.updateLine (l : XList) (idx : Nat) (f : XLine → XLine) : XList :=
  match l.vector.get? idx with
  | none => l
  | some line => { l with vector := l.vector.set idx (f line) }

/-- `XList::getLine(i)`: `getObject(i)` raises `IndexOutOfBoundsException`
when there is no line `i`; otherwise the cursor is set to `i` and the line is
rewound and returned. -/
def XList.getLineAt (l : XList) (i : Nat) : Except Thrown (XList × XLine) :=
  match l.vector.get? i with
  | none => .error .IndexOutOfBoundsException
  | some line =>
    .ok ({ vector := l.vector.set i line.rewind, current := i }, line.rewind)

/-- The argument-less `XList::getLine()`: `NULL` when the cursor is at or
past the number of lines; otherwise the cursor advances and the line it was
on is rewound and returned. -/
def XList.getLine (l : XList) : XList × Option XLine :=
  if l.current ≥ l.vector.length then (l, none)
  else
    match l.vector.get? (l.current + 1 - 1) with
    | none => ({ l with current := l.current + 1 }, none)
    | some line =>
      ({ vector := l.vector.set (l.current + 1 - 1) line.rewind, current := l.current + 1 },
        some line.rewind)

/-- Modelled from the spec: the class `String` is not in the sources.  A line
of text returned by `readLine` is represented by the sequence of its
tokens. -/
abbrev TextLine := List String

/-- Modelled from the spec: `String::getToken(i)` (not in the sources): the
token of index `i` of the line, the empty string when there is no such
token. -/
def getToken (s : TextLine) (i : Nat) : String := s.getD i ""

/-- Modelled from the spec: the class `FileReader` (not in the sources), as
far as `readList` uses it: the outcomes of the calls of `readLine` still to
come, each a line or an exception, and whether `close` was called.  Once the
outcomes are used up the end of the file is reached. -/
structure FileReader where
  pending : List (Except Thrown TextLine)
  closed : Bool
deriving DecidableEq

/-- Modelled from the spec: `FileReader::readLine` (not in the sources): the
next outcome; `EOFException` at the end of the file. -/
def FileReader.readLine (r : FileReader) : FileReader × Except Thrown TextLine :=
  match r.pending with
  | [] => (r, .error .EOFException)
  | o :: rest => ({ r with pending := rest }, o)

/-- Modelled from the spec: `FileReader::close` (not in the sources). -/
def FileReader.close (r : FileReader) : FileReader := { r with closed := true }

/-- The loop `for (i = 1; (token = s.getToken(i)) != ""; i++)
line.addElement(token)` of `readList`, run for at most `fuel` tests of its
condition. -/
def readTokens (s : TextLine) : Nat → Nat → XLine → Option XLine
  | 0, _, _ => none
  | fuel + 1, i, line =>
    if getToken s i ≠ "" then readTokens s fuel (i + 1) (line.addElement (getToken s i))
    else some line

/-- The body of the `while (true)` loop of `readList` after the line `s` was
read (at most `fuel` tests of the condition of the loop on the tokens):
`line` is the line that `addLine` created, the changes made through the
reference are stored in the list at its index. -/
def readListStep (fuel : Nat) (list : XList) (s : TextLine) : Option XList :=
  if (getToken s 0).length ≠ 0 then
    match (list.addLine.1).vector.get? list.addLine.2 with
    | none => some list.addLine.1
    | some line =>
      match readTokens s fuel 1 (line.addElement (getToken s 0)) with
      | none => none
      | some line1 => some ((list.addLine.1).updateLine list.addLine.2 (fun _ => line1.rewind))
  else some list

/-- The `while (true)` loop of `readList`, which only an exception raised by
`readLine` ends: the reader and the list when it is raised, and the
exception. -/
def readLoop (fuel : Nat) : Nat → FileReader → XList → Option (FileReader × XList × Thrown)
  | 0, _, _ => none
  | n + 1, r, list =>
    match r.readLine with
    | (r1, .error e) => some (r1, list, e)
    | (r1, .ok s) =>
      match readListStep fuel list s with
      | none => none
      | some list1 => readLoop fuel n r1 list1

/-- `XListFileReader::readList(list)`, run with the given `fuel` for each of
its loops: the reader and the list after the call, and what the call
raises; `none` when the fuel does not suffice. -/
def readList (fuel : Nat) (r : FileReader) (list : XList) :
    Option (FileReader × XList × Except Thrown Unit) :=
  match readLoop fuel fuel r list.reset with
  | none => none
  | some (r1, list1, e) =>
    if e = .EOFException then some (r1.close, list1.rewind, .ok ())
    else some (r1, list1, .error e)

/-- A reader on a file of four lines, the second empty and the third with an
empty first token. -/
def exampleFileReader : FileReader :=
  { pending := [.ok ["a", "b"], .ok [], .ok ["", "x"], .ok ["c", "", "d"]], closed := false }

/-- A reader whose second call of `readLine` raises `IOException`. -/
def exampleFailingReader : FileReader :=
  { pending := [.ok ["a", "b"], .error .IOException, .ok ["c"]], closed := false }

/-- A list that already holds a line. -/
def exampleXList : XList := { vector := [{ elements := ["z"], current := 1 }], current := 1 }

/-! ## Dense text files of matrices (`saveDT`, `loadDT`) -/

/-- A counted `for` loop whose body can raise: the loop stops at the first
exception. -/
def loopE {σ : Type} (body : Nat → σ → Except Thrown σ) : Nat → Nat → σ → Except Thrown σ
  | _, 0, s => .ok s
  | lo, n + 1, s =>
    match body lo s with
    | .error e => .error e
    | .ok s1 => loopE body (lo + 1) n s1

/-- Modelled from the spec: `RealVector<T>::setSize` (not in the sources): the
vector gets that number of elements, the elements it keeps are unchanged and
the new ones hold the default value. -/
def vectorSetSize {T : Type} [Inhabited T] (a : List T) (n : Nat) : List T :=
  (a ++ List.replicate n default).take n

/-- `Matrix::setDimensions(rows, cols)`; the product `cols * rows` is computed
on `unsigned long` (64 bits). -/
def Matrix.setDimensions {T : Type} [Inhabited T] (m : Matrix T) (rows cols : Nat) : Matrix T :=
  { cols := cols, rows := rows, array := vectorSetSize m.array ((cols * rows) % 2 ^ 64) }

/-- The list that `Matrix::saveDT` builds before it saves it: a first line
with the texts of `_rows` and `_cols`, then one line for each row.
`valueOfLong` and `valueOf` stand for `String::valueOf` on `unsigned long` and
on `T` (the class `String` is not in the sources). -/
def saveDTList {T : Type} (valueOfLong : Nat → String) (valueOf : T → String) (m : Matrix T) :
    Except Thrown XList :=
  let l : XList := { vector := [], current := 0 }
  let l1 := (l.addLine.1).updateLine l.addLine.2
    (fun line => (line.addElement (valueOfLong m.rows)).addElement (valueOfLong m.cols))
  loopE (fun j (l : XList) =>
      loopE (fun i (l2 : XList) =>
          match m.get j i with
          | .error e => .error e
          | .ok v => .ok (l2.updateLine l.addLine.2 (fun li => li.addElement (valueOf v))))
        0 m.cols l.addLine.1)
    0 m.rows l1

/-- `XList::save`: the text file written, one line of text for each line of the
list.  Modelled from the spec: the class `String` is not in the sources; the
line of text made of the elements separated by a space is represented by the
sequence of these elements, which are its tokens as long as no element is
empty or contains a separator. -/
def XList.save (l : XList) : List TextLine :=
  loop (fun i (ff : List TextLine) =>
      ff ++ [loop (fun j (text : TextLine) =>
          text ++ [((l.vector.getD i XLine.create).elements).getD j ""])
        0 (l.vector.getD i XLine.create).getElementCount []])
    0 l.getLineCount []

/-- The constructor `XList(f, c)`: an empty list with the cursor at 0, into
which `load` reads the file through an `XListFileReader` (a `FileReader` on
the lines of the file `f`). -/
def XList.load (fuel : Nat) (file : List TextLine) : Option (Except Thrown XList) :=
  match readList fuel { pending := file.map .ok, closed := false } { vector := [], current := 0 } with
  | none => none
  | some (_, _, .error e) => some (.error e)
  | some (_, l, .ok _) => some (.ok l)

/-- The inner loop of `Matrix::loadDT`, `while ((s = p->getElement()))`, for at
most `fuel` calls of `getElement`: the row `j`, the line `p`, the column `i` and
the matrix. -/
def loadDTElements {T : Type} (toDouble : String → T) (j : Nat) :
    Nat → XLine → Nat → Matrix T → Option (Except Thrown (Matrix T))
  | 0, _, _, _ => none
  | fuel + 1, p, i, m =>
    match p.getElement with
    | (_, none) => some (.ok m)
    | (p1, some s) =>
      match m.assign j i (toDouble s) with
      | .error e => some (.error e)
      | .ok m1 => loadDTElements toDouble j fuel p1 (i + 1) m1

/-- The outer loop of `Matrix::loadDT`, `while ((p = l.getLine()))`, for at
most `n` calls of `getLine` (and `fuel` for each inner loop): the list `l`,
the row `j` and the matrix. -/
def loadDTLines {T : Type} (toDouble : String → T) (fuel : Nat) :
    Nat → XList → Nat → Matrix T → Option (Except Thrown (Matrix T))
  | 0, _, _, _ => none
  | n + 1, l, j, m =>
    match l.getLine with
    | (_, none) => some (.ok m)
    | (l1, some p) =>
      match loadDTElements toDouble j fuel p 0 m with
      | none => none
      | some (.error e) => some (.error e)
      | some (.ok m1) => loadDTLines toDouble fuel n l1 (j + 1) m1

/-- `Matrix::loadDT` once the list `l` is constructed from the file: the
dimensions are read from the first line, the matrix is resized, then the
lines after the first are read one by one.  `toLong` and `toDouble` stand for
the members of `String` of these names (not in the sources). -/
def loadDTList {T : Type} [Inhabited T] (toLong : String → Nat) (toDouble : String → T)
    (fuel : Nat) (l : XList) (m : Matrix T) : Option (Except Thrown (Matrix T)) :=
  match l.getLineAt 0 with
  | .error e => some (.error e)
  | .ok (l1, line1) =>
    match line1.getElementAt 0 with
    | .error e => some (.error e)
    | .ok sr =>
      match l1.getLineAt 0 with
      | .error e => some (.error e)
      | .ok (l2, line2) =>
        match line2.getElementAt 1 with
        | .error e => some (.error e)
        | .ok sc =>
          loadDTLines toDouble fuel fuel ((l2.rewind).getLine.1) 0
            (m.setDimensions (toLong sr) (toLong sc))

/-- `Matrix::loadDT(f, c)` on the text file `file`. -/
def loadDT {T : Type} [Inhabited T] (toLong : String → Nat) (toDouble : String → T)
    (fuel : Nat) (file : List TextLine) (m : Matrix T) : Option (Except Thrown (Matrix T)) :=
  match XList.load fuel file with
  | none => none
  | some (.error e) => some (.error e)
  | some (.ok l) => loadDTList toLong toDouble fuel l m

/-- `Matrix::saveDT(f, c)`: the text file written. -/
def saveDT {T : Type} (valueOfLong : Nat → String) (valueOf : T → String) (m : Matrix T) :
    Except Thrown (List TextLine) :=
  match saveDTList valueOfLong valueOf m with
  | .error e => .error e
  | .ok l => .ok l.save

/-- A conversion of integers to text, to instantiate the theorems: the number
`n` is written as `n + 1` strokes. -/
def strokesOf (n : Nat) : String := String.mk (List.replicate (n + 1) '1')

/-- The number that a text of strokes stands for. -/
def strokesValue (s : String) : Nat := s.length - 1

/-- A `2 x 3` matrix of natural numbers, used to instantiate the theorems. -/
def exampleMatrixN : Matrix Nat := { cols := 3, rows := 2, array := [1, 2, 3, 4, 5, 6] }

/-! ## The constructor `Matrix(const DoubleSquareMatrix&)` -/

/-- Modelled from the spec: the class `DoubleSquareMatrix` (not in the
sources): its size and its elements, stored row after row. -/
structure DoubleSquareMatrix (T : Type) where
  size : Nat
  array : List T
deriving DecidableEq, Repr

/-- Modelled from the spec: `DoubleSquareMatrix::operator()(i, j)` (not in the
sources): the element of these indices, `IndexOutOfBoundsException` when an
index is not below the size. -/
def DoubleSquareMatrix.get {T : Type} (M : DoubleSquareMatrix T) (i j : Nat) : Except Thrown T :=
  match assertIsInBounds i M.size with
  | .error e => .error e
  | .ok _ =>
    match assertIsInBounds j M.size with
    | .error e => .error e
    | .ok _ => vectorAt M.array (i * M.size + j)

/-- Modelled from the spec: `RealVector<T>::operator[]` used as an assignment
target (not in the sources): the element of that index is replaced,
`IndexOutOfBoundsException` outside the vector. -/
def vectorStore {T : Type} (a : List T) (i : Nat) (v : T) : Except Thrown (List T) :=
  if i < a.length then .ok (a.set i v) else .error .IndexOutOfBoundsException

/-- The inner loop of the constructor, `for (j = 0; j < _cols; i++)
_array[i * _rows + j] = M(i, j)`, for at most `fuel` tests of its condition:
its increment is `i++`, so `j` keeps the value it has and `i`, the variable of
the outer loop, advances.  The result is `i` and the array when the loop is
left. -/
def ofDoubleSquareMatrixInner {T : Type} (M : DoubleSquareMatrix T) (rows cols j : Nat) :
    Nat → Nat → List T → Option (Except Thrown (Nat × List T))
  | 0, _, _ => none
  | fuel + 1, i, array =>
    if j < cols then
      match M.get i j with
      | .error e => some (.error e)
      | .ok v =>
        match vectorStore array (i * rows + j) v with
        | .error e => some (.error e)
        | .ok array1 => ofDoubleSquareMatrixInner M rows cols j fuel (i + 1) array1
    else some (.ok (i, array))

/-- The outer loop of the constructor, `for (i = 0; i < _rows; i++)`, for at
most `n` tests of its condition (and `fuel` for each inner loop). -/
def ofDoubleSquareMatrixOuter {T : Type} (M : DoubleSquareMatrix T) (rows cols fuel : Nat) :
    Nat → Nat → List T → Option (Except Thrown (List T))
  | 0, _, _ => none
  | n + 1, i, array =>
    if i < rows then
      match ofDoubleSquareMatrixInner M rows cols 0 fuel i array with
      | none => none
      | some (.error e) => some (.error e)
      | some (.ok (i1, array1)) => ofDoubleSquareMatrixOuter M rows cols fuel n (i1 + 1) array1
    else some (.ok array)

/-- The constructor `Matrix(const DoubleSquareMatrix& M)`: `_cols` and `_rows`
are set to `M.size()`, then the loops run on the array `array0` that the
default constructor of `RealVector` made (the constructor does not size it).
The result is `none` when the fuel does not suffice. -/
def Matrix.ofDoubleSquareMatrix {T : Type} (fuel : Nat) (M : DoubleSquareMatrix T)
    (array0 : List T) : Option (Except Thrown (Matrix T)) :=
  match ofDoubleSquareMatrixOuter M M.size M.size fuel fuel 0 array0 with
  | none => none
  | some (.error e) => some (.error e)
  | some (.ok array) => some (.ok { cols := M.size, rows := M.size, array := array })

/-- The square matrix of size 1 that holds 5. -/
def exampleSquareMatrix : DoubleSquareMatrix Int := { size := 1, array := [5] }

/-! ## Inversion of a matrix (`invert`, `ludcmp`, `lubksb`) -/

/-- The constant `TINY` of `Matrix.h`, `1.0e-20`. -/
def TINY {T : Type} [LinearOrderedField T] : T := 1 / 10 ^ 20

/-- An assignment `b[i] = v` to an array indexed from 1 (a C array reached
through a pointer, a function of the index here). -/
def set1 {α : Type} (b : Nat → α) (i : Nat) (v : α) : Nat → α :=
  fun k => if k = i then v else b k

/-- An assignment `a[i][j] = v` to a two-dimensional array. -/
def set2 {α : Type} (a : Nat → Nat → α) (i j : Nat) (v : α) : Nat → Nat → α :=
  fun r c => if r = i ∧ c = j then v else a r c

/-- The variables of `ludcmp` that live across its loops: the array `a`, the
permutation `indx`, the sign `d`, the scaling `vv`, and `imax` and `big`. -/
structure LUState (T : Type) where
  a : Nat → Nat → T
  indx : Nat → Nat
  d : T
  vv : Nat → T
  imax : Nat
  big : T

/-- The first loop of `ludcmp`: `vv[i]` becomes the inverse of the largest
absolute value of row `i` (`vv` is set to 0 before). -/
def ludcmpScaling {T : Type} [LinearOrderedField T] (a : Nat → Nat → T) (n : Nat) : Nat → T :=
  loop (fun i (vv : Nat → T) =>
      set1 vv i (1 / loop (fun j (big : T) => if |a i j| > big then |a i j| else big) 1 n 0))
    1 n (fun _ => 0)

/-- The loop `for (i = 1; i < j; i++)` of the column `j` of `ludcmp`. -/
def ludcmpUpper {T : Type} [LinearOrderedField T] (j : Nat) (a : Nat → Nat → T) :
    Nat → Nat → T :=
  loop (fun i (a : Nat → Nat → T) =>
      set2 a i j (loop (fun k (sum : T) => sum - a i k * a k j) 1 (i - 1) (a i j)))
    1 (j - 1) a

/-- The loop `for (i = j; i <= n; i++)` of the column `j` of `ludcmp`, which
also searches the pivot. -/
def ludcmpLower {T : Type} [LinearOrderedField T] (n j : Nat) (st : LUState T) : LUState T :=
  loop (fun i (s : LUState T) =>
      if s.vv i * |loop (fun k (sum : T) => sum - s.a i k * s.a k j) 1 (j - 1) (s.a i j)| ≥ s.big
      then
        { s with
          a := set2 s.a i j (loop (fun k (sum : T) => sum - s.a i k * s.a k j) 1 (j - 1) (s.a i j)),
          big := s.vv i * |loop (fun k (sum : T) => sum - s.a i k * s.a k j) 1 (j - 1) (s.a i j)|,
          imax := i }
      else
        { s with
          a := set2 s.a i j
            (loop (fun k (sum : T) => sum - s.a i k * s.a k j) 1 (j - 1) (s.a i j)) })
    j (n + 1 - j) st

/-- The interchange of the rows `j` and `imax` in the column `j` of `ludcmp`
(`if (j != imax)`). -/
def ludcmpSwap {T : Type} [LinearOrderedField T] (n j : Nat) (st : LUState T) : LUState T :=
  if j ≠ st.imax then
    { st with
      a := loop (fun k (a : Nat → Nat → T) =>
          set2 (set2 a st.imax k (a j k)) j k (a st.imax k)) 1 n st.a,
      d := - st.d,
      vv := set1 st.vv st.imax (st.vv j) }
  else st

/-- The end of the column `j` of `ludcmp`: `indx[j] = imax`, a pivot equal to 0
is replaced by `TINY`, and the column is divided by the pivot (`if (j != n)`). -/
def ludcmpDivide {T : Type} [LinearOrderedField T] (n j : Nat) (st : LUState T) : LUState T :=
  if j ≠ n then
    { st with
      indx := set1 st.indx j st.imax,
      a := loop (fun i (a : Nat → Nat → T) =>
          set2 a i j (a i j *
            (1 / (if st.a j j = 0 then set2 st.a j j TINY else st.a) j j)))
        (j + 1) (n - j) (if st.a j j = 0 then set2 st.a j j TINY else st.a) }
  else
    { st with
      indx := set1 st.indx j st.imax,
      a := if st.a j j = 0 then set2 st.a j j TINY else st.a }

/-- The body of the loop `for (j = 1; j <= n; j++)` of `ludcmp`. -/
def ludcmpColumn {T : Type} [LinearOrderedField T] (n j : Nat) (st : LUState T) : LUState T :=
  ludcmpDivide n j (ludcmpSwap n j (ludcmpLower n j { st with a := ludcmpUpper j st.a, big := 0 }))

/-- `Matrix::ludcmp(a, n, indx, d)`: the decomposition of the rows and columns
`1 .. n` of `a`, in place.  `imax` is not initialised by the code: it holds 0
here before its first assignment. -/
def ludcmp {T : Type} [LinearOrderedField T] (a : Nat → Nat → T) (n : Nat)
    (indx : Nat → Nat) : LUState T :=
  loop (ludcmpColumn n) 1 n
    { a := a, indx := indx, d := 1, vv := ludcmpScaling a n, imax := 0, big := 0 }

/-- The first loop of `lubksb`, the forward substitution, which also
unscrambles the permutation: the array `b` and `ii`, the index of the first
element of `b` that is not zero (0 as long as there is none). -/
def lubksbForward {T : Type} [LinearOrderedField T] (a : Nat → Nat → T) (n : Nat)
    (indx : Nat → Nat) (b : Nat → T) : (Nat → T) × Nat :=
  loop (fun i (s : (Nat → T) × Nat) =>
      if s.2 ≠ 0 then
        (set1 (set1 s.1 (indx i) (s.1 i)) i
          (loop (fun j (sum : T) => sum - a i j * (set1 s.1 (indx i) (s.1 i)) j)
            s.2 (i - s.2) (s.1 (indx i))), s.2)
      else if s.1 (indx i) ≠ 0 then (set1 (set1 s.1 (indx i) (s.1 i)) i (s.1 (indx i)), i)
      else (set1 (set1 s.1 (indx i) (s.1 i)) i (s.1 (indx i)), s.2))
    1 n (b, 0)

/-- `Matrix::lubksb(a, n, indx, b)`: the forward substitution, then the
backsubstitution `for (i = n; i >= 1; i--)`. -/
def lubksb {T : Type} [LinearOrderedField T] (a : Nat → Nat → T) (n : Nat)
    (indx : Nat → Nat) (b : Nat → T) : Nat → T :=
  loopDown (fun i (b : Nat → T) =>
      set1 b i (loop (fun j (sum : T) => sum - a i j * b j) (i + 1) (n - i) (b i) / a i i))
    n n (lubksbForward a n indx b).1

/-- The loop of `invert` that solves for the columns of the identity: the
arrays `col` and `y`. -/
def invertColumns {T : Type} [LinearOrderedField T] (a : Nat → Nat → T) (n : Nat)
    (indx : Nat → Nat) : (Nat → T) × (Nat → Nat → T) :=
  loop (fun j (s : (Nat → T) × (Nat → Nat → T)) =>
      (lubksb a n indx (set1 (loop (fun i (col : Nat → T) => set1 col i 0) 1 n s.1) j 1),
        loop (fun i (y : Nat → Nat → T) =>
            set2 y i j
              (lubksb a n indx (set1 (loop (fun i (col : Nat → T) => set1 col i 0) 1 n s.1) j 1) i))
          1 n s.2))
    1 n (fun _ => 0, fun _ _ => 0)

/-- `Matrix::invert()`, in place: the matrix after the call and what the call
raises.  The dimension `n`, an `int` in the code, is the number of columns
(which is taken to be below `2 ^ 31`).  The arrays obtained from `malloc` hold
0 here before they are assigned.  The stores of the result cannot raise, since
the reads of the same positions did not. -/
def Matrix.invert {T : Type} [LinearOrderedField T] (m : Matrix T) :
    Matrix T × Except Thrown Unit :=
  if m.cols ≠ m.rows then (m, .error .Exception)
  else
    match loopE (fun j (a : Nat → Nat → T) =>
        loopE (fun i (a : Nat → Nat → T) =>
            (m.get (i - 1) (j - 1)).map (fun v => set2 a i j v))
          1 m.cols a)
      1 m.cols (fun _ _ => 0) with
    | .error e => (m, .error e)
    | .ok a =>
      match loopE (fun j (m1 : Matrix T) =>
          loopE (fun i (m1 : Matrix T) =>
              m1.assign (i - 1) (j - 1)
                ((invertColumns (ludcmp a m.cols (fun _ => 0)).a m.cols
                  (ludcmp a m.cols (fun _ => 0)).indx).2 i j))
            1 m.cols m1)
        1 m.cols m with
      | .error e => (m, .error e)
      | .ok m1 => (m1, .ok ())

/-- A `2 x 3` matrix of rationals, used to instantiate the theorems. -/
def exampleMatrixQ : Matrix ℚ := { cols := 3, rows := 2, array := [1, 2, 3, 4, 5, 6] }

/-- A nonsingular `2 x 2` matrix of rationals whose inversion needs an
interchange of rows. -/
def exampleSquareQ : Matrix ℚ := { cols := 2, rows := 2, array := [1, 2, 3, 4] }

/-! ## Cursor of a list of lines (`XList::getLine`, `XList::findLine`) -/

/-- The results of `k` successive calls of the argument-less `getLine()`, and
the list after them. -/
def getLines : Nat → XList → XList × List (Option XLine)
  | 0, l => (l, [])
  | k + 1, l => ((getLines k l.getLine.1).1, l.getLine.2 :: (getLines k l.getLine.1).2)

/-- `XList::getLine(i)` with the list made explicit in both outcomes: when
`getObject(i)` raises, nothing else was executed and the list is as before. -/
def XList.getLineAtState (l : XList) (i : Nat) : XList × Except Thrown XLine :=
  match l.getLineAt i with
  | .error e => (l, .error e)
  | .ok (l1, line) => (l1, .ok line)

/-- The loop of `XList::findLine(key, idx)`, from the line `i` on, `n` lines
being left: the condition tests `idx < line.getElementCount()` before it reads
the element, which `getElement(idx)` raises for when there is none; the effect
of `getElement(idx)` on the current element of the line is not modelled
(`XLine` is not in the sources). -/
def findLineLoop (l : XList) (key : String) (idx : Nat) :
    Nat → Nat → Except Thrown (XList × Option XLine)
  | 0, _ => .ok (l, none)
  | n + 1, i =>
    match l.vector.get? i with
    | none => .error .IndexOutOfBoundsException
    | some line =>
      if idx < line.getElementCount then
        match line.getElementAt idx with
        | .error e => .error e
        | .ok s =>
          if s = key then .ok ({ l with current := i }, some line)
          else findLineLoop l key idx n (i + 1)
      else findLineLoop l key idx n (i + 1)

/-- `XList::findLine(key, idx)`: the list after the call and the line found,
`none` standing for `NULL`. -/
def XList.findLine (l : XList) (key : String) (idx : Nat) :
    Except Thrown (XList × Option XLine) :=
  findLineLoop l key idx l.vector.length 0

/-! ## Construction of matrices and the size of their array -/

/-- The constructor `Matrix(rows, cols)`: the array is made with
`rows * cols` elements, a product computed on `unsigned long` (64 bits).
Modelled from the spec: the constructor `RealVector(capacity, size)` is not
in the sources; the elements hold the default value. -/
def Matrix.create {T : Type} [Inhabited T] (rows cols : Nat) : Matrix T :=
  { cols := cols, rows := rows, array := List.replicate ((rows * cols) % 2 ^ 64) default }

/-- The constructor `Matrix(const RealVector<R>& v)`: one row, `v.size()`
columns, the array is a copy of `v`. -/
def Matrix.ofVector {T : Type} (v : List T) : Matrix T :=
  { cols := v.length, rows := 1, array := v }

/-- The constructor `Matrix(const Feature& f)`: the array, empty when
constructed, is resized to `f.getVectSize()`, then the values `f[i]` are
copied one by one.  The feature is represented by the list of its values (the
class `Feature` is not in the sources). -/
def Matrix.ofFeature {T : Type} [Inhabited T] (f : List T) : Matrix T :=
  { cols := f.length
    rows := 1
    array := loop (fun i (array : List T) => array.set i (rawAt f i)) 0 f.length
      (vectorSetSize [] f.length) }

/-- `Matrix::operator=(const Matrix&)`: the array and the dimensions of `m` are
copied into this matrix. -/
def Matrix.copy {T : Type} (_a m : Matrix T) : Matrix T :=
  { cols := m.cols, rows := m.rows, array := m.array }

/-- `Matrix::operator*=(const Matrix&)`, `(*this) = (*this) * m`: the matrix
after the call and what the call raises. -/
def Matrix.mulAssign {T : Type} [Inhabited T] [Zero T] [Add T] [Mul T] (a m : Matrix T) :
    Matrix T × Except Thrown Unit :=
  match a.mul m with
  | .error e => (a, .error e)
  | .ok r => (a.copy r, .ok ())

/-- Modelled from the spec: `RealVector<T>::operator-=` (not in the sources):
the element-wise difference, for vectors of the same size. -/
def vectorSub {T : Type} [Sub T] (a b : List T) : List T := List.zipWith (fun x y => x - y) a b

/-- `Matrix::operator-=(const Matrix&)`: the matrix after the call and what
the call raises. -/
def Matrix.subAssign {T : Type} [Sub T] (a m : Matrix T) : Matrix T × Except Thrown Unit :=
  if a.cols ≠ m.cols ∨ a.rows ≠ m.rows then (a, .error .Exception)
  else ({ a with array := vectorSub a.array m.array }, .ok ())

/-- Modelled from the spec: `RealVector<T>::operator*=(double)` (not in the
sources): every element is multiplied by the scalar. -/
def vectorScale {T : Type} [Mul T] (a : List T) (v : T) : List T := a.map (fun x => x * v)

/-- `Matrix::operator*=(double v)`. -/
def Matrix.scaleAssign {T : Type} [Mul T] (a : Matrix T) (v : T) : Matrix T :=
  { a with array := vectorScale a.array v }

/-- `Matrix::operator*(double v) const`: a copy of this matrix is scaled. -/
def Matrix.scale {T : Type} [Mul T] (a : Matrix T) (v : T) : Matrix T :=
  { cols := a.cols, rows := a.rows, array := vectorScale a.array v }

/-- `Matrix::operator+(const Matrix&) const`: a copy of this matrix whose
array has `m._array` added; the dimensions are not compared.  (What
`RealVector::operator+=` does with vectors of different sizes is not in the
sources; the sum stops at the shorter one here.) -/
def Matrix.add {T : Type} [Add T] (a m : Matrix T) : Except Thrown (Matrix T) :=
  .ok { cols := a.cols, rows := a.rows, array := vectorAdd a.array m.array }

/-- The matrices obtained from the constructors `Matrix(rows, cols)`,
`Matrix(RealVector)` and `Matrix(Feature)` (the size of a vector or of a
feature is an `unsigned long`) by `setDimensions`, `operator=`, `transpose`,
`operator*`, `operator*=`, `operator+=`, `operator-=` and the multiplications
by a scalar. -/
inductive Obtained {T : Type} [Inhabited T] [Zero T] [Add T] [Sub T] [Mul T] :
    Matrix T → Prop where
  | create (rows cols : Nat) : Obtained (Matrix.create rows cols)
  | ofVector (v : List T) : v.length < 2 ^ 64 → Obtained (Matrix.ofVector v)
  | ofFeature (f : List T) : f.length < 2 ^ 64 → Obtained (Matrix.ofFeature f)
  | setDimensions (m : Matrix T) (rows cols : Nat) :
      Obtained m → Obtained (m.setDimensions rows cols)
  | copy (a m : Matrix T) : Obtained a → Obtained m → Obtained (a.copy m)
  | transpose (m : Matrix T) : Obtained m → Obtained m.transpose
  | mul (a m r : Matrix T) : Obtained a → Obtained m → a.mul m = .ok r → Obtained r
  | mulAssign (a m : Matrix T) : Obtained a → Obtained m → Obtained (a.mulAssign m).1
  | addAssign (a m : Matrix T) : Obtained a → Obtained m → Obtained (a.addAssign m).1
  | subAssign (a m : Matrix T) : Obtained a → Obtained m → Obtained (a.subAssign m).1
  | scaleAssign (a : Matrix T) (v : T) : Obtained a → Obtained (a.scaleAssign v)
  | scale (a : Matrix T) (v : T) : Obtained a → Obtained (a.scale v)

/-- The interchange of the indices `p` and `q`. -/
def swapIdx (p q i : Nat) : Nat := if i = p then q else if i = q then p else i

/-- The row of the array given to `ludcmp` that the row `i` holds once the
columns `1 .. p` are done: the interchanges recorded in `indx`, composed. -/
def rowOrigin (indx : Nat → Nat) : Nat → Nat → Nat
  | 0, i => i
  | p + 1, i => rowOrigin indx p (swapIdx (p + 1) (indx (p + 1)) i)

/-- What `ludcmp` has established once the columns `1 .. p` are done, `A0` being
the array it was given: the columns after `p` hold the rows of `A0`,
interchanged; the columns up to `p` hold the factors of the interchanged
`A0`, above and on the diagonal the upper factor, below the diagonal the
lower one; the pivots are not zero and the scalings of the rows still to be
searched are positive. -/
structure LUInv {T : Type} [LinearOrderedField T] (n : Nat) (A0 : Nat → Nat → T) (p : Nat)
    (st : LUState T) : Prop where
  indx_range : ∀ c, 1 ≤ c → c ≤ p → c ≤ st.indx c ∧ st.indx c ≤ n
  todo : ∀ i c, 1 ≤ i → i ≤ n → p < c → c ≤ n → st.a i c = A0 (rowOrigin st.indx p i) c
  upper : ∀ i c, 1 ≤ i → i ≤ c → c ≤ p →
    st.a i c + ∑ k in Finset.Ico 1 i, st.a i k * st.a k c = A0 (rowOrigin st.indx p i) c
  lower : ∀ i c, 1 ≤ c → c < i → i ≤ n → c ≤ p →
    ∑ k in Finset.Ico 1 c, st.a i k * st.a k c + st.a i c * st.a c c =
      A0 (rowOrigin st.indx p i) c
  pivot : ∀ c, 1 ≤ c → c ≤ p → st.a c c ≠ 0
  scale : ∀ i, p < i → i ≤ n → 0 < st.vv i

/-- The lower factor that the array of `ludcmp` holds: the elements below the
diagonal, 1 on the diagonal and 0 above. -/
def lowerFactor {T : Type} [LinearOrderedField T] (a : Nat → Nat → T) (i k : Nat) : T :=
  if k < i then a i k else if k = i then 1 else 0

/-- The upper factor that the array of `ludcmp` holds: the elements on and
above the diagonal, 0 below. -/
def upperFactor {T : Type} [LinearOrderedField T] (a : Nat → Nat → T) (k c : Nat) : T :=
  if k ≤ c then a k c else 0

/-! ## Lemmas on bytes, words and frames -/

theorem getD_map_range (n j : Nat) (f : Nat → Nat) :
    ((List.range n).map f).getD j 0 = if j < n then f j else 0 := by
  rw [List.getD_eq_getElem?_getD]
  by_cases h : j < n
  · simp [List.getElem?_map, List.getElem?_range, h]
  · have hn : (List.range n)[j]? = none := List.getElem?_eq_none (by simp; omega)
    simp [List.getElem?_map, h, hn]

theorem eq_map_range_getD (l : List Nat) : l = (List.range l.length).map (fun k => l.getD k 0) := by
  apply List.ext_getElem
  · simp
  · intro n h1 h2
    simp [List.getD_eq_getElem?_getD, List.getElem?_eq_getElem h1]

theorem getD_patchBytes (bytes : List Nat) (off : Nat) (data : List Nat) (j : Nat) :
    (patchBytes bytes off data).getD j 0 =
      if off ≤ j ∧ j < off + data.length then data.getD (j - off) 0 else bytes.getD j 0 := by
  unfold patchBytes
  rw [getD_map_range]
  by_cases h : j < max bytes.length (off + data.length)
  · simp [h]
  · have h1 : bytes.length ≤ j := by omega
    have h2 : ¬ (off ≤ j ∧ j < off + data.length) := by omega
    have hn : bytes[j]? = none := List.getElem?_eq_none h1
    simp [h, h2, hn]

theorem length_patchBytes (bytes : List Nat) (off : Nat) (data : List Nat) :
    (patchBytes bytes off data).length = max bytes.length (off + data.length) := by
  simp [patchBytes]

theorem length_readBytes (bytes : List Nat) (off n : Nat) : (readBytes bytes off n).length = n := by
  simp [readBytes]

theorem getD_readBytes (bytes : List Nat) (off n k : Nat) (h : k < n) :
    (readBytes bytes off n).getD k 0 = bytes.getD (off + k) 0 := by
  unfold readBytes
  rw [getD_map_range]; simp [h]

theorem readBytes_congr (b1 b2 : List Nat) (off n : Nat)
    (h : ∀ k, k < n → b1.getD (off + k) 0 = b2.getD (off + k) 0) :
    readBytes b1 off n = readBytes b2 off n := by
  unfold readBytes
  apply List.map_congr_left
  intro k hk
  exact h k (List.mem_range.mp hk)

theorem readBytes_patch_same (bytes : List Nat) (off : Nat) (data : List Nat) :
    readBytes (patchBytes bytes off data) off data.length = data := by
  conv_rhs => rw [eq_map_range_getD data]
  unfold readBytes
  apply List.map_congr_left
  intro k hk
  have hk2 := List.mem_range.mp hk
  rw [getD_patchBytes]
  have : off ≤ off + k ∧ off + k < off + data.length := by omega
  simp [this]

theorem readBytes_patch_disjoint (bytes : List Nat) (off : Nat) (data : List Nat) (o n : Nat)
    (h : o + n ≤ off ∨ off + data.length ≤ o) :
    readBytes (patchBytes bytes off data) o n = readBytes bytes o n := by
  apply readBytes_congr
  intro k hk
  rw [getD_patchBytes]
  have : ¬ (off ≤ o + k ∧ o + k < off + data.length) := by omega
  simp [this]

theorem length_encodeWord (be : Bool) (w : Nat) : (encodeWord be w).length = 4 := by
  unfold encodeWord; split <;> rfl

theorem length_encodeFrame (be : Bool) (ws : List Nat) :
    (encodeFrame be ws).length = 4 * ws.length := by
  induction ws with
  | nil => rfl
  | cons w ws ih => simp [encodeFrame, length_encodeWord, ih]; omega

theorem decodeWord_encodeWord (be : Bool) (w : Nat) (h : w < 4294967296) :
    decodeWord be ((encodeWord be w).getD 0 0) ((encodeWord be w).getD 1 0)
      ((encodeWord be w).getD 2 0) ((encodeWord be w).getD 3 0) = w := by
  cases be <;> simp [encodeWord, decodeWord] <;> omega

theorem getD_encodeFrame (be : Bool) (ws : List Nat) (k t : Nat) (ht : t < 4) :
    (encodeFrame be ws).getD (4 * k + t) 0 = (encodeWord be (ws.getD k 0)).getD t 0 := by
  induction ws generalizing k with
  | nil => 
    cases be <;> simp [encodeFrame, encodeWord] <;> (interval_cases t <;> simp)
  | cons w ws ih =>
    cases k with
    | zero =>
      simp only [encodeFrame, Nat.mul_zero, Nat.zero_add, List.getD_cons_zero]
      rw [List.getD_append]
      rw [length_encodeWord]; exact ht
    | succ k =>
      simp only [encodeFrame, List.getD_cons_succ]
      rw [List.getD_append_right]
      · rw [length_encodeWord]
        have : 4 * (k + 1) + t - 4 = 4 * k + t := by omega
        rw [this]; exact ih k
      · rw [length_encodeWord]; omega

theorem decodeFrame_encodeFrame (be : Bool) (ws : List Nat) (h : ∀ w ∈ ws, w < 4294967296) :
    decodeFrame be ws.length (encodeFrame be ws) = ws := by
  conv_rhs => rw [eq_map_range_getD ws]
  unfold decodeFrame
  apply List.map_congr_left
  intro k hk
  have hk2 := List.mem_range.mp hk
  have e0 := getD_encodeFrame be ws k 0 (by omega)
  have e1 := getD_encodeFrame be ws k 1 (by omega)
  have e2 := getD_encodeFrame be ws k 2 (by omega)
  have e3 := getD_encodeFrame be ws k 3 (by omega)
  simp only [Nat.add_zero] at e0
  rw [e0, e1, e2, e3]
  apply decodeWord_encodeWord
  apply h
  rw [List.getD_eq_getElem _ _ hk2]
  exact List.getElem_mem _

theorem frameOffset_succ (d : FormatDescriptor) (i : Nat) :
    frameOffset d (i + 1) = frameOffset d i + frameByteSize d := by
  simp [frameOffset, Nat.succ_mul]; omega

theorem frameOffset_lt (d : FormatDescriptor) (i j : Nat) (h : i < j) :
    frameOffset d i + frameByteSize d ≤ frameOffset d j := by
  have h1 : (i + 1) * frameByteSize d ≤ j * frameByteSize d := Nat.mul_le_mul_right _ h
  rw [Nat.succ_mul] at h1
  simp only [frameOffset]; omega

theorem frameOffset_ge_header (d : FormatDescriptor) (i : Nat) :
    d.headerLength ≤ frameOffset d i := by
  simp [frameOffset]

theorem frameAt_patch_other (bytes : List Nat) (d : FormatDescriptor) (j : Nat) (fr : List Nat)
    (off : Nat) (data : List Nat) (hj : frameAt bytes d j = some fr)
    (h : frameOffset d j + frameByteSize d ≤ off ∨ off + data.length ≤ frameOffset d j) :
    frameAt (patchBytes bytes off data) d j = some fr := by
  unfold frameAt at hj ⊢
  split at hj
  · cases hj
  · rename_i hlen
    rw [length_patchBytes, readBytes_patch_disjoint _ _ _ _ _ h]
    have : ¬ (max bytes.length (off + data.length) < frameOffset d j + frameByteSize d) := by
      omega
    simp only [this, if_false]
    exact hj

theorem frameAt_patch_same (bytes : List Nat) (d : FormatDescriptor) (p : Nat)
    (data : List Nat) (hl : data.length = d.vectSize) (hw : ∀ w ∈ data, w < 4294967296) :
    frameAt (patchBytes bytes (frameOffset d p) (encodeFrame d.bigEndian data)) d p
      = some data := by
  unfold frameAt
  have hlen : (encodeFrame d.bigEndian data).length = frameByteSize d := by
    rw [length_encodeFrame, hl]; rfl
  rw [length_patchBytes, hlen]
  have : ¬ (max bytes.length (frameOffset d p + frameByteSize d)
      < frameOffset d p + frameByteSize d) := by omega
  simp only [this, if_false]
  rw [← hlen, readBytes_patch_same, ← hl, decodeFrame_encodeFrame _ _ hw]

theorem frameAt_of_readRaw (m : Medium) (d : FormatDescriptor) (i : Nat) (chunk : List Nat)
    (h : m.readRaw (frameOffset d i) (frameByteSize d) = .ok chunk) :
    frameAt m.bytes d i = some (decodeFrame d.bigEndian d.vectSize chunk) := by
  unfold Medium.readRaw at h
  unfold frameAt
  split at h
  · cases h
  · split at h
    · cases h
    · rename_i h1 h2
      simp only [h1, if_false]
      cases h; rfl

theorem decodeFrames_ok (m : Medium) (d : FormatDescriptor) (n : Nat) :
    ∀ (i : Nat) (frs : List (List Nat)), (decodeFrames m d i n).2 = .ok frs →
      ∀ k fr, frs.get? k = some fr → frameAt m.bytes d (i + k) = some fr := by
  induction n with
  | zero =>
    intro i frs h k fr hk
    simp [decodeFrames] at h
    subst h; simp at hk
  | succ n ih =>
    intro i frs h k fr hk
    simp only [decodeFrames] at h
    split at h
    · simp at h
    · simp at h; subst h; simp at hk
    · rename_i chunk hc
      split at h
      · simp at h
      · rename_i evs frs2 hrec
        simp at h
        subst h
        cases k with
        | zero =>
          simp at hk; subst hk
          exact frameAt_of_readRaw m d i chunk hc
        | succ k =>
          simp at hk
          have := ih (i + 1) frs2 (by rw [hrec]) k fr (by simpa using hk)
          have e : i + (k + 1) = i + 1 + k := by omega
          rw [e]; exact this

/-! ## Source table lemmas -/

theorem sourcesPartition_build (l : List (String × Nat)) :
    ∀ a, SourcesPartition (buildSourceTable a l) a (a + totalOfSources (buildSourceTable a l)) := by
  induction l with
  | nil => intro a; simp [buildSourceTable, totalOfSources, SourcesPartition]
  | cons x rest ih =>
    intro a
    obtain ⟨nm, n⟩ := x
    simp only [buildSourceTable, totalOfSources, SourcesPartition, true_and]
    have := ih (a + n)
    rw [Nat.add_assoc] at this
    exact this

theorem extendLastSource_ne_nil (t : List SourceEntry) (x : Nat) (h : t ≠ []) :
    extendLastSource t x ≠ [] := by
  match t, h with
  | [e], _ => simp [extendLastSource]
  | e :: e2 :: t, _ => simp [extendLastSource]

theorem sourcesPartition_extend (t : List SourceEntry) (x : Nat) :
    ∀ a b, t ≠ [] → SourcesPartition t a b → SourcesPartition (extendLastSource t x) a (b + x) := by
  induction t with
  | nil => intro a b h; exact absurd rfl h
  | cons e t ih =>
    intro a b _ hp
    cases t with
    | nil =>
      simp only [SourcesPartition, extendLastSource] at hp ⊢
      omega
    | cons e2 t =>
      simp only [extendLastSource]
      exact ⟨hp.1, ih _ _ (by simp) hp.2⟩

theorem parseFields_ok (be : Bool) (hb : List Nat) (fn : String) (tr : List (String × Nat))
    (d : FormatDescriptor) (h : parseFields be hb fn tr = .ok d) :
    d.headerLength = getHeaderLength ∧ d.sources ≠ [] ∧
      SourcesPartition d.sources 0 d.featureCount := by
  unfold parseFields at h
  cases tr with
  | nil =>
    simp at h
    subst h
    simp [SourcesPartition]
  | cons s rest =>
    simp only at h
    split at h
    · rename_i htot
      simp at h
      subst h
      obtain ⟨nm, n⟩ := s
      refine ⟨rfl, by simp [buildSourceTable], ?_⟩
      have := sourcesPartition_build ((nm, n) :: rest) 0
      simp only [Nat.zero_add] at this
      rw [htot] at this
      exact this
    · cases h

theorem readHeader_ok (nat : Bool) (be : BigEndian) (hb : List Nat) (len : Nat) (fn : String)
    (tr : List (String × Nat)) (d : FormatDescriptor)
    (h : readHeader nat be hb len fn tr = .ok d) :
    d.headerLength = getHeaderLength ∧ d.sources ≠ [] ∧
      SourcesPartition d.sources 0 d.featureCount := by
  unfold readHeader at h
  cases be with
  | BIGENDIAN_TRUE => exact parseFields_ok _ _ _ _ _ h
  | BIGENDIAN_FALSE => exact parseFields_ok _ _ _ _ _ h
  | BIGENDIAN_AUTO =>
    simp only at h
    split at h
    · rename_i d1 h1
      split at h
      · cases h; exact parseFields_ok _ _ _ _ _ h1
      · split at h
        · rename_i d2 h2
          split at h
          · cases h; exact parseFields_ok _ _ _ _ _ h2
          · cases h
        · cases h
    · split at h
      · rename_i d2 h2
        split at h
        · cases h; exact parseFields_ok _ _ _ _ _ h2
        · cases h
      · cases h

/-! ## Window lemmas -/

theorem lookup_mem (h : List (Nat × List Nat)) (i : Nat) (fr : List Nat)
    (hl : h.lookup i = some fr) : (i, fr) ∈ h := by
  induction h with
  | nil => simp [List.lookup] at hl
  | cons e t ih =>
    obtain ⟨k, b⟩ := e
    simp only [List.lookup] at hl
    split at hl
    · rename_i heq
      have : i = k := by simpa using heq
      cases hl; subst this; simp
    · exact List.mem_cons_of_mem _ (ih hl)

theorem historicLookup_mem (r : FeatureFileReaderSPro4) (i : Nat) (fr : List Nat)
    (hl : historicLookup r i = some fr) : (i, fr) ∈ r.historic := by
  unfold historicLookup at hl
  split at hl
  · cases hl
  · exact lookup_mem _ _ _ hl

theorem bufferLookup_get (w : Window) (i : Nat) (fr : List Nat)
    (hl : bufferLookup w i = some fr) :
    w.featureIndexOfBuffer ≤ i ∧ w.frames.get? (i - w.featureIndexOfBuffer) = some fr := by
  unfold bufferLookup at hl
  split at hl
  · exact ⟨by assumption, hl⟩
  · cases hl

theorem lookupWindows_coherent (r : FeatureFileReaderSPro4) (bytes : List Nat)
    (d : FormatDescriptor) (hb : BufferCoherent bytes d r.buffer)
    (hh : HistoricCoherent bytes d r.historic) (i : Nat) (fr : List Nat)
    (hl : lookupWindows r i = some fr) : frameAt bytes d i = some fr := by
  unfold lookupWindows at hl
  split at hl
  · rename_i fr2 h2
    cases hl
    exact hh _ _ (historicLookup_mem _ _ _ h2)
  · obtain ⟨h1, h2⟩ := bufferLookup_get _ _ _ hl
    have := hb _ _ h2
    have e : r.buffer.featureIndexOfBuffer + (i - r.buffer.featureIndexOfBuffer) = i := by omega
    rw [e] at this; exact this

theorem insertFrames_coherent (bytes : List Nat) (d : FormatDescriptor) (frs : List (List Nat)) :
    ∀ (h : List (Nat × List Nat)) (i : Nat), HistoricCoherent bytes d h →
      (∀ k fr, frs.get? k = some fr → frameAt bytes d (i + k) = some fr) →
      HistoricCoherent bytes d (insertFrames h i frs) := by
  induction frs with
  | nil => intro h i hh _; exact hh
  | cons f frs ih =>
    intro h i hh hf
    simp only [insertFrames]
    apply ih
    · intro j fr hm
      simp only [insertHistoric, List.mem_cons, List.mem_filter] at hm
      rcases hm with hm | hm
      · cases hm
        exact hf 0 f (by simp)
      · exact hh _ _ hm.1
    · intro k fr hk
      have := hf (k + 1) fr (by simpa using hk)
      have e : i + 1 + k = i + (k + 1) := by omega
      rw [e]; exact this

theorem retain_coherent (bytes : List Nat) (d : FormatDescriptor) (usage : HistoricUsage)
    (size : Nat) (h : List (Nat × List Nat)) (i : Nat) (frs : List (List Nat))
    (hh : HistoricCoherent bytes d h)
    (hf : ∀ k fr, frs.get? k = some fr → frameAt bytes d (i + k) = some fr) :
    HistoricCoherent bytes d (retain usage size h i frs) := by
  cases usage with
  | ALL_FEATURES => exact insertFrames_coherent _ _ _ _ _ hh hf
  | FIXED_SIZE =>
    intro j fr hm
    exact insertFrames_coherent _ _ _ _ _ hh hf j fr (List.mem_of_mem_take hm)
  | DISABLED => intro j fr hm; simp [retain] at hm

theorem mirrorBuffer_coherent (b0 b1 : List Nat) (d : FormatDescriptor) (p : Nat)
    (data : List Nat) (w : Window) (hu : Updated b0 b1 d p data)
    (hb : BufferCoherent b0 d w) : BufferCoherent b1 d (mirrorBuffer w p data) := by
  unfold mirrorBuffer
  split
  · rename_i hin
    intro k fr hk
    simp only [List.get?_eq_getElem?] at hk
    rw [List.getElem?_set] at hk
    split at hk
    · rename_i heq
      split at hk
      · cases hk
        have e : w.featureIndexOfBuffer + k = p := by omega
        simp only [e]; exact hu.2
      · cases hk
    · rename_i hne
      apply hu.1
      · simp only; omega
      · exact hb k fr (by simpa using hk)
  · intro k fr hk
    cases k with
    | zero => simp at hk; subst hk; exact hu.2
    | succ k => simp at hk

theorem mirrorHistoric_coherent (b0 b1 : List Nat) (d : FormatDescriptor) (p : Nat)
    (data : List Nat) (h : List (Nat × List Nat)) (hu : Updated b0 b1 d p data)
    (hh : HistoricCoherent b0 d h) : HistoricCoherent b1 d (mirrorHistoric h p data) := by
  intro j fr hm
  simp only [mirrorHistoric, List.mem_map] at hm
  obtain ⟨e, he, heq⟩ := hm
  split at heq
  · cases heq; exact hu.2
  · rename_i hne
    subst heq
    exact hu.1 _ _ hne (hh _ _ he)

theorem updated_store (b0 : List Nat) (d : FormatDescriptor) (p : Nat) (data : List Nat)
    (hl : data.length = d.vectSize) (hw : ∀ w ∈ data, w < 4294967296) :
    Updated b0 (patchBytes b0 (frameOffset d p) (encodeFrame d.bigEndian data)) d p data := by
  refine ⟨?_, frameAt_patch_same _ _ _ _ hl hw⟩
  intro j fr hne hj
  apply frameAt_patch_other _ _ _ _ _ _ hj
  have hlen : (encodeFrame d.bigEndian data).length = frameByteSize d := by
    rw [length_encodeFrame, hl]; rfl
  rw [hlen]
  rcases Nat.lt_or_gt_of_ne hne with h | h
  · left; exact frameOffset_lt _ _ _ h
  · right; exact frameOffset_lt _ _ _ h

theorem updated_countField (b0 b1 : List Nat) (d : FormatDescriptor) (p : Nat) (data : List Nat)
    (x : Nat) (be : Bool) (hd : d.headerLength = getHeaderLength) (hu : Updated b0 b1 d p data) :
    Updated b0 (patchBytes b1 featureCountOffset (encodeWord be x)) d p data := by
  have key : ∀ j fr, frameAt b1 d j = some fr →
      frameAt (patchBytes b1 featureCountOffset (encodeWord be x)) d j = some fr := by
    intro j fr hj
    apply frameAt_patch_other _ _ _ _ _ _ hj
    right
    rw [length_encodeWord]
    have := frameOffset_ge_header d j
    rw [hd] at this
    simp only [featureCountOffset, getHeaderLength] at this ⊢
    omega
  exact ⟨fun j fr hne hj => key _ _ (hu.1 j fr hne hj), key _ _ hu.2⟩

/-! ## The invariant holds in every reachable state -/

theorem runsPast_iff (d : FormatDescriptor) (i : Nat) :
    runsPast d i = true ↔ d.featureCount ≤ i := by
  unfold runsPast lastFeatureIndex
  by_cases h : d.featureCount = 0
  · simp [h]
  · simp [h]; omega

theorem runsPast_false (d : FormatDescriptor) (i : Nat) (h : ¬ runsPast d i = true) :
    i < d.featureCount := by
  rw [runsPast_iff] at h; omega

theorem decodeFrames_length (m : Medium) (d : FormatDescriptor) (n : Nat) :
    ∀ (i : Nat) (frs : List (List Nat)), (decodeFrames m d i n).2 = .ok frs →
      frs.length ≤ n := by
  induction n with
  | zero =>
    intro i frs h
    simp [decodeFrames] at h
    subst h; simp
  | succ n ih =>
    intro i frs h
    simp only [decodeFrames] at h
    split at h
    · simp at h
    · simp at h; subst h; simp
    · split at h
      · simp at h
      · rename_i evs frs2 hrec
        simp at h
        subst h
        have := ih (i + 1) frs2 (by rw [hrec])
        simp; omega

theorem windowLength_le (r : FeatureFileReaderSPro4) (d : FormatDescriptor) (i : Nat)
    (h : i < d.featureCount) : i + windowLength r d i ≤ d.featureCount := by
  unfold windowLength
  omega

theorem insertFrames_bounded (d : FormatDescriptor) (frs : List (List Nat)) :
    ∀ (h : List (Nat × List Nat)) (i : Nat), HistoricBounded d h →
      i + frs.length ≤ d.featureCount → HistoricBounded d (insertFrames h i frs) := by
  induction frs with
  | nil => intro h i hh _; exact hh
  | cons f frs ih =>
    intro h i hh hl
    simp only [insertFrames]
    simp only [List.length_cons] at hl
    apply ih
    · intro j fr hm
      simp only [insertHistoric, List.mem_cons, List.mem_filter] at hm
      rcases hm with hm | hm
      · cases hm; omega
      · exact hh _ _ hm.1
    · omega

theorem retain_bounded (d : FormatDescriptor) (usage : HistoricUsage)
    (size : Nat) (h : List (Nat × List Nat)) (i : Nat) (frs : List (List Nat))
    (hh : HistoricBounded d h) (hl : i + frs.length ≤ d.featureCount) :
    HistoricBounded d (retain usage size h i frs) := by
  cases usage with
  | ALL_FEATURES => exact insertFrames_bounded _ _ _ _ hh hl
  | FIXED_SIZE =>
    intro j fr hm
    exact insertFrames_bounded _ _ _ _ hh hl j fr (List.mem_of_mem_take hm)
  | DISABLED => intro j fr hm; simp [retain] at hm

theorem mirrorBuffer_bounded (d d2 : FormatDescriptor) (p : Nat) (data : List Nat) (w : Window)
    (hb : BufferBounded d w) (hc : d.featureCount ≤ d2.featureCount)
    (hp : p < d2.featureCount) : BufferBounded d2 (mirrorBuffer w p data) := by
  unfold mirrorBuffer
  split
  · intro k hk
    simp only [List.length_set] at hk
    have := hb k hk
    simp only; omega
  · intro k hk
    simp only [List.length_singleton] at hk
    simp only; omega

theorem mirrorHistoric_bounded (d d2 : FormatDescriptor) (p : Nat) (data : List Nat)
    (h : List (Nat × List Nat)) (hh : HistoricBounded d h)
    (hc : d.featureCount ≤ d2.featureCount) (hp : p < d2.featureCount) :
    HistoricBounded d2 (mirrorHistoric h p data) := by
  intro j fr hm
  simp only [mirrorHistoric, List.mem_map] at hm
  obtain ⟨e, he, heq⟩ := hm
  split at heq
  · cases heq; exact hp
  · subst heq
    have := hh _ _ he
    omega

theorem readParams_cases (r : FeatureFileReaderSPro4) :
    (∃ d, r.state.descriptor? = some d ∧ readParams r = (r, .ok d)) ∨
    (r.state = .Unopened ∧ ∃ log e, readParams r = ({ r with ioLog := log }, .error e)) ∨
    (r.state = .Unopened ∧ ∃ m d hb, r.file = some m ∧
      m.readRaw 0 getHeaderLength = .ok hb ∧
      readHeader r.nativeBigEndian r.bigEndian hb m.bytes.length r.fileName m.trailer = .ok d ∧
      readParams r = ({ r with isOpen := true, state := .HeaderParsed d
                               ioLog := r.ioLog ++ [.open, .read 0 getHeaderLength] }, .ok d)) := by
  unfold readParams
  cases hs : r.state with
  | HeaderParsed d => left; exact ⟨d, rfl, rfl⟩
  | Positioned d i => left; exact ⟨d, rfl, rfl⟩
  | Unopened =>
    right
    simp only
    cases hf : r.file with
    | none => left; exact ⟨trivial, _, _, rfl⟩
    | some m =>
      simp only
      cases hr : m.readRaw 0 getHeaderLength with
      | error sig =>
        cases sig <;> (left; exact ⟨trivial, _, _, rfl⟩)
      | ok hb =>
        simp only
        cases hh : readHeader r.nativeBigEndian r.bigEndian hb m.bytes.length r.fileName
            m.trailer with
        | error e => left; exact ⟨trivial, _, _, rfl⟩
        | ok d => right; exact ⟨trivial, m, d, hb, rfl, hr, hh, rfl⟩

theorem inv_desc (r : FeatureFileReaderSPro4) (d : FormatDescriptor) (h : Inv r)
    (hd : r.state.descriptor? = some d) : ∃ m, r.file = some m ∧ InvAt r d m := by
  unfold Inv at h
  rw [hd] at h
  exact h

theorem inv_of_desc (r : FeatureFileReaderSPro4) (d : FormatDescriptor) (m : Medium)
    (hd : r.state.descriptor? = some d) (hf : r.file = some m) (h : InvAt r d m) : Inv r := by
  unfold Inv
  rw [hd]
  exact ⟨m, hf, h⟩

theorem inv_unopened (r : FeatureFileReaderSPro4) (h : Inv r) (hs : r.state = .Unopened) :
    r.buffer.frames = [] ∧ r.historic = [] := by
  unfold Inv at h
  rw [hs] at h
  exact h

theorem readParams_inv (r : FeatureFileReaderSPro4) (h : Inv r) : Inv (readParams r).1 := by
  rcases readParams_cases r with ⟨d, _, he⟩ | ⟨hs, log, e, he⟩ | ⟨hs, m, d, hb, hf, _, hh, he⟩
  · rw [he]; exact h
  · rw [he]
    have := inv_unopened r h hs
    unfold Inv
    simp only [hs, Lifecycle.descriptor?]
    exact this
  · rw [he]
    have hw := inv_unopened r h hs
    obtain ⟨h1, h2, h3⟩ := readHeader_ok _ _ _ _ _ _ _ hh
    refine inv_of_desc _ d m (by rfl) (by exact hf) ?_
    refine ⟨h1, h2, h3, ?_, ?_, ?_, ?_⟩
    · intro k fr hk
      simp only [hw.1] at hk
      simp at hk
    · intro i fr hm
      simp only [hw.2] at hm
      simp at hm
    · intro k hk
      simp only [hw.1] at hk
      simp at hk
    · intro i fr hm
      simp only [hw.2] at hm
      simp at hm

theorem readParams_desc (r : FeatureFileReaderSPro4) (d : FormatDescriptor)
    (h : (readParams r).2 = .ok d) : (readParams r).1.state.descriptor? = some d := by
  rcases readParams_cases r with ⟨d2, hd, he⟩ | ⟨hs, log, e, he⟩ | ⟨hs, m, d2, hb, hf, _, hh, he⟩
  · rw [he] at h ⊢
    cases h; exact hd
  · rw [he] at h; cases h
  · rw [he] at h ⊢
    cases h; rfl

theorem serveFeature_inv (r : FeatureFileReaderSPro4) (d : FormatDescriptor) (step : Nat)
    (h : Inv r) (hd : r.state.descriptor? = some d) : Inv (serveFeature r d step).1 := by
  obtain ⟨m, hf, h1, h2, h3, hb, hh, hbb, hhb⟩ := inv_desc r d h hd
  unfold serveFeature
  split
  · exact h
  · split
    · exact h
    · rename_i hrp
      have hlt := runsPast_false _ _ hrp
      split
      · exact inv_of_desc _ d m (by rfl) (by exact hf) ⟨h1, h2, h3, hb, hh, hbb, hhb⟩
      · split
        · exact h
        · rename_i m2 hf2
          have hmm : m2 = m := by rw [hf] at hf2; cases hf2; rfl
          subst hmm
          split
          · exact inv_of_desc _ d m2 (by exact hd) (by exact hf) ⟨h1, h2, h3, hb, hh, hbb, hhb⟩
          · exact inv_of_desc _ d m2 (by exact hd) (by exact hf) ⟨h1, h2, h3, hb, hh, hbb, hhb⟩
          · rename_i evs fr frs hdec
            have hok := decodeFrames_ok m2 d _ _ (fr :: frs) (by rw [hdec])
            have hlen := decodeFrames_length m2 d _ _ (fr :: frs) (by rw [hdec])
            have hwl := windowLength_le r d _ hlt
            refine inv_of_desc _ d m2 (by rfl) (by exact hf) ?_
            refine ⟨h1, h2, h3, ?_, ?_, ?_, ?_⟩
            · intro k f hk
              exact hok k f hk
            · exact retain_coherent _ _ _ _ _ _ _ hh hok
            · intro k hk
              simp only at hk ⊢
              omega
            · exact retain_bounded _ _ _ _ _ _ hhb (by omega)

theorem writeRaw_bytes (m m1 : Medium) (off : Nat) (data : List Nat)
    (h : m.writeRaw off data = .ok m1) : m1.bytes = patchBytes m.bytes off data := by
  unfold Medium.writeRaw at h
  split at h
  · cases h
  · cases h; rfl

theorem storeFeature_inv (r : FeatureFileReaderSPro4) (d : FormatDescriptor) (f : Feature)
    (step : Nat) (hw : f.wellFormed) (h : Inv r) (hd : r.state.descriptor? = some d) :
    Inv (storeFeature r d f step).1 := by
  obtain ⟨m, hf, h1, h2, h3, hb, hh, hbb, hhb⟩ := inv_desc r d h hd
  unfold storeFeature
  split
  · exact h
  · split
    · exact h
    · rename_i hlen
      have hlen2 : f.data.length = d.vectSize := by simpa using hlen
      split
      · exact h
      · rename_i m0 hf0
        have hmm : m0 = m := by rw [hf] at hf0; cases hf0; rfl
        subst hmm
        split
        · exact inv_of_desc _ d m0 (by exact hd) (by exact hf) ⟨h1, h2, h3, hb, hh, hbb, hhb⟩
        · rename_i m1 hw1
          have hm1 := writeRaw_bytes _ _ _ _ hw1
          have hu := updated_store m0.bytes d (addressedIndex r.state step) f.data hlen2 hw
          rw [← hm1] at hu
          split
          · rename_i hlt
            exact inv_of_desc _ d m1 (by rfl) (by rfl)
              ⟨h1, h2, h3, mirrorBuffer_coherent _ _ _ _ _ _ hu hb,
                mirrorHistoric_coherent _ _ _ _ _ _ hu hh,
                mirrorBuffer_bounded d d _ _ _ hbb (Nat.le_refl _) hlt,
                mirrorHistoric_bounded d d _ _ _ hhb (Nat.le_refl _) hlt⟩
          · rename_i hge
            split
            · -- header update failed: the frame is stored beyond the end, windows unchanged
              refine inv_of_desc _ d m1 (by exact hd) (by rfl) ?_
              refine ⟨h1, h2, h3, ?_, ?_, hbb, hhb⟩
              · intro k fr hk
                dsimp only at hk ⊢
                have hk2 : k < r.buffer.frames.length := by
                  have := List.get?_eq_some.mp hk
                  exact this.1
                have := hbb k hk2
                exact hu.1 _ _ (by omega) (hb k fr hk)
              · intro i fr hm
                have := hhb i fr hm
                exact hu.1 _ _ (by omega) (hh i fr hm)
            · rename_i m2 hw2
              have hm2 := writeRaw_bytes _ _ _ _ hw2
              have hu2 := updated_countField _ _ d _ _ (addressedIndex r.state step + 1)
                d.bigEndian h1 hu
              rw [← hm2] at hu2
              refine inv_of_desc _ _ m2 (by rfl) (by rfl) ?_
              refine ⟨h1, extendLastSource_ne_nil _ _ h2, ?_,
                mirrorBuffer_coherent _ _ _ _ _ _ hu2 hb,
                mirrorHistoric_coherent _ _ _ _ _ _ hu2 hh,
                mirrorBuffer_bounded d _ _ _ _ hbb (by simp only; omega) (by simp only; omega),
                mirrorHistoric_bounded d _ _ _ _ hhb (by simp only; omega) (by simp only; omega)⟩
              have := sourcesPartition_extend d.sources
                (addressedIndex r.state step + 1 - d.featureCount) 0 d.featureCount h2 h3
              have e : d.featureCount + (addressedIndex r.state step + 1 - d.featureCount)
                  = addressedIndex r.state step + 1 := by omega
              rw [e] at this
              exact this

theorem close_inv (r : FeatureFileReaderSPro4) : Inv (close r) := by
  simp [Inv, close, Lifecycle.descriptor?]

theorem setExternalBufferToUse_inv (r : FeatureFileReaderSPro4) (size : Nat) (h : Inv r) :
    Inv (setExternalBufferToUse r size) := by
  unfold Inv at h ⊢
  cases hd : r.state.descriptor? with
  | none =>
    rw [hd] at h
    simp only [setExternalBufferToUse, hd]
    exact ⟨trivial, h.2⟩
  | some d =>
    rw [hd] at h
    simp only [setExternalBufferToUse, hd]
    obtain ⟨m, hf, h1, h2, h3, hb, hh, hbb, hhb⟩ := h
    refine ⟨m, hf, h1, h2, h3, ?_, hh, ?_, hhb⟩
    · intro k fr hk; simp at hk
    · intro k hk; simp at hk

theorem readFeature_inv (r : FeatureFileReaderSPro4) (step : Nat) (h : Inv r) :
    Inv (readFeature r step).1 := by
  unfold readFeature
  have h1 := readParams_inv r h
  have h2 := readParams_desc r
  split
  · rename_i r1 e he
    rw [he] at h1; exact h1
  · rename_i r1 d he
    rw [he] at h1 h2
    exact serveFeature_inv r1 d step h1 (h2 d rfl)

theorem writeFeature_inv (r : FeatureFileReaderSPro4) (f : Feature) (step : Nat)
    (hw : f.wellFormed) (h : Inv r) : Inv (writeFeature r f step).1 := by
  unfold writeFeature
  have h1 := readParams_inv r h
  have h2 := readParams_desc r
  split
  · rename_i r1 e he
    rw [he] at h1; exact h1
  · rename_i r1 d he
    rw [he] at h1 h2
    exact storeFeature_inv r1 d f step hw h1 (h2 d rfl)

theorem reachable_inv (r : FeatureFileReaderSPro4) (h : Reachable r) : Inv r := by
  induction h with
  | create f file nat be b bs abs hu hs =>
    simp [Inv, FeatureFileReaderSPro4.create, Lifecycle.descriptor?]
  | call r op _ hwf ih =>
    cases op with
    | read step => exact readFeature_inv r step ih
    | write f step => exact writeFeature_inv r f step hwf ih
    | close => exact close_inv r
    | setExternalBuffer size => exact setExternalBufferToUse_inv r size ih
    | metadata => exact readParams_inv r ih

/-! ## Source table of a reader -/

theorem withParams_of_desc {α : Type} (r : FeatureFileReaderSPro4) (d : FormatDescriptor)
    (k : FormatDescriptor → Except ErrorKind α) (hd : r.state.descriptor? = some d) :
    withParams r k = (r, k d) := by
  unfold withParams
  rcases readParams_cases r with ⟨d2, hd2, he⟩ | ⟨hs, _⟩ | ⟨hs, _⟩
  · rw [he]
    rw [hd] at hd2; cases hd2; rfl
  · rw [hs] at hd; cases hd
  · rw [hs] at hd; cases hd

theorem withParams_snd {α : Type} (r : FeatureFileReaderSPro4) (d : FormatDescriptor)
    (k : FormatDescriptor → Except ErrorKind α) (hd : (readParams r).2 = .ok d) :
    (withParams r k).2 = k d := by
  unfold withParams
  split
  · rename_i r1 d1 he
    rw [he] at hd; cases hd; rfl
  · rename_i r1 e he
    rw [he] at hd; cases hd

theorem partition_total (t : List SourceEntry) :
    ∀ a b, SourcesPartition t a b → a + totalOfSources t = b := by
  induction t with
  | nil => intro a b h; simpa [SourcesPartition, totalOfSources] using h
  | cons e t ih =>
    intro a b h
    have := ih _ _ h.2
    simp only [totalOfSources]; omega

theorem partition_next (t : List SourceEntry) :
    ∀ a b s e1 e2, SourcesPartition t a b → t.get? s = some e1 → t.get? (s + 1) = some e2 →
      e2.firstFrameIndex = e1.firstFrameIndex + e1.frameCount := by
  induction t with
  | nil => intro a b s e1 e2 _ h1; simp at h1
  | cons e t ih =>
    intro a b s e1 e2 hp h1 h2
    cases s with
    | zero =>
      simp at h1; subst h1
      cases t with
      | nil => simp at h2
      | cons e3 t =>
        simp at h2; subst h2
        have := hp.2.1
        rw [this, hp.1]
    | succ s =>
      exact ih _ _ s e1 e2 hp.2 (by simpa using h1) (by simpa using h2)

theorem sourceCountsSum_eq (r : FeatureFileReaderSPro4) (d : FormatDescriptor)
    (hd : r.state.descriptor? = some d) :
    ∀ n, n ≤ d.sources.length → sourceCountsSum r n = totalOfSources (d.sources.take n) := by
  intro n
  induction n with
  | zero => intro _; simp [sourceCountsSum, totalOfSources]
  | succ n ih =>
    intro hn
    have hlt : n < d.sources.length := by omega
    simp only [sourceCountsSum, getFeatureCountOfASource, withParams_of_desc r d _ hd]
    rw [ih (by omega)]
    have hget : d.sources.get? n = some (d.sources[n]) := by
      simp [List.getElem?_eq_getElem hlt]
    simp only [sourceByIndex, hget, Except.map]
    have key : ∀ (t : List SourceEntry) (n : Nat) (h : n < t.length),
        totalOfSources (t.take (n + 1)) = totalOfSources (t.take n) + t[n].frameCount := by
      intro t
      induction t with
      | nil => intro n h; simp at h
      | cons e t iht =>
        intro n h
        cases n with
        | zero => simp [totalOfSources]
        | succ n =>
          simp only [List.take_succ_cons, totalOfSources, List.getElem_cons_succ]
          rw [iht n (by simpa using h)]
          omega
    rw [key _ _ hlt]

/-! ## Claims on the source table and on close -/

theorem sourceByIndex_ok (t : List SourceEntry) (i : Nat) (h : i < t.length) :
    sourceByIndex t i = .ok t[i] := by
  simp [sourceByIndex, List.getElem?_eq_getElem h]

theorem sourceByIndex_error (t : List SourceEntry) (i : Nat) (h : t.length ≤ i) :
    sourceByIndex t i = .error .outOfBounds := by
  have : t[i]? = none := List.getElem?_eq_none h
  simp [sourceByIndex, this]

theorem sourceByName_error (t : List SourceEntry) (nm : String)
    (h : ∀ s ∈ t, s.name ≠ nm) : sourceByName t nm = .error .notFound := by
  have : t.find? (fun e => e.name == nm) = none := by
    rw [List.find?_eq_none]
    intro s hs
    simpa using h s hs
  simp [sourceByName, this]

theorem sourceByName_ok (t : List SourceEntry) (nm : String) (s : SourceEntry) (hs : s ∈ t)
    (hn : s.name = nm) : ∃ s1, s1 ∈ t ∧ s1.name = nm ∧ sourceByName t nm = .ok s1 := by
  cases hf : t.find? (fun e => e.name == nm) with
  | none =>
    rw [List.find?_eq_none] at hf
    have := hf s hs
    simp [hn] at this
  | some s1 =>
    refine ⟨s1, List.mem_of_find?_eq_some hf, ?_, by simp [sourceByName, hf]⟩
    have := List.find?_some hf
    simpa using this

theorem partition_first (t : List SourceEntry) (a b : Nat) (hp : SourcesPartition t a b)
    (h : 0 < t.length) : (t[0]).firstFrameIndex = a := by
  cases t with
  | nil => simp at h
  | cons e t => exact hp.1

/-- C8: `close()` is idempotent: closing a closed reader changes nothing (no
further call reaches the underlying reader), and after one close the file
handle is released, both windows are empty and no header state is cached;
`close` is a total function, so no call of it raises an error. -/
theorem close_idempotent (r : FeatureFileReaderSPro4) :
    close (close r) = close r ∧ (close r).isOpen = false ∧ (close r).state = .Unopened ∧
      (close r).buffer.frames = [] ∧ (close r).buffer.nbStored = 0 ∧
      (close r).historic = [] := by
  refine ⟨?_, rfl, rfl, rfl, rfl, rfl⟩
  simp [close]

/-- C5: the source lookups of a reader whose header `d` is available answer
from the source table: by index they raise the out-of-bounds lookup error
exactly when the index is at least `getSourceCount()` and return the fields of
the table entry otherwise; by name they raise the not-found lookup error
exactly when no source bears the name and return the fields of an entry of
that name otherwise; no default value is ever returned. -/
theorem source_lookup_errors (r : FeatureFileReaderSPro4) (d : FormatDescriptor)
    (hd : (readParams r).2 = .ok d) (srcIdx : Nat) (srcName : String) :
    (getSourceCount r).2 = .ok d.sources.length ∧
    (((getFeatureCountOfASource r srcIdx).2 = .error .outOfBounds ↔
        d.sources.length ≤ srcIdx) ∧
      ((getFirstFeatureIndexOfASource r srcIdx).2 = .error .outOfBounds ↔
        d.sources.length ≤ srcIdx) ∧
      ((getNameOfASource r srcIdx).2 = .error .outOfBounds ↔ d.sources.length ≤ srcIdx)) ∧
    (∀ h : srcIdx < d.sources.length,
      (getFeatureCountOfASource r srcIdx).2 = .ok (d.sources[srcIdx]).frameCount ∧
      (getFirstFeatureIndexOfASource r srcIdx).2 = .ok (d.sources[srcIdx]).firstFrameIndex ∧
      (getNameOfASource r srcIdx).2 = .ok (d.sources[srcIdx]).name) ∧
    (((getFeatureCountOfASourceByName r srcName).2 = .error .notFound ↔
        ∀ s ∈ d.sources, s.name ≠ srcName) ∧
      ((getFirstFeatureIndexOfASourceByName r srcName).2 = .error .notFound ↔
        ∀ s ∈ d.sources, s.name ≠ srcName)) ∧
    ((∃ s ∈ d.sources, s.name = srcName) →
      ∃ s1 ∈ d.sources, s1.name = srcName ∧
        (getFeatureCountOfASourceByName r srcName).2 = .ok s1.frameCount ∧
        (getFirstFeatureIndexOfASourceByName r srcName).2 = .ok s1.firstFrameIndex) := by
  simp only [getSourceCount, getFeatureCountOfASource, getFirstFeatureIndexOfASource,
    getNameOfASource, getFeatureCountOfASourceByName, getFirstFeatureIndexOfASourceByName,
    withParams_snd r d _ hd]
  have hidx : ∀ h : srcIdx < d.sources.length,
      sourceByIndex d.sources srcIdx = .ok (d.sources[srcIdx]) :=
    fun h => sourceByIndex_ok _ _ h
  refine ⟨trivial, ?_, ?_, ?_, ?_⟩
  · by_cases h : srcIdx < d.sources.length
    · rw [hidx h]
      simp [Except.map]; omega
    · rw [sourceByIndex_error _ _ (by omega)]
      simp [Except.map]; omega
  · intro h
    rw [hidx h]
    simp [Except.map]
  · by_cases h : ∀ s ∈ d.sources, s.name ≠ srcName
    · rw [sourceByName_error _ _ h]
      simp only [Except.map, true_iff, and_self]
      exact h
    · have h2 : ∃ s ∈ d.sources, s.name = srcName := by
        by_contra hc
        apply h
        intro s hs hn
        exact hc ⟨s, hs, hn⟩
      obtain ⟨s, hs, hn⟩ := h2
      obtain ⟨s1, _, _, he⟩ := sourceByName_ok _ _ s hs hn
      rw [he]
      simp only [Except.map]
      constructor <;> (constructor; (intro hc; cases hc); (intro hc; exact absurd hc h))
  · rintro ⟨s, hs, hn⟩
    obtain ⟨s1, hs1, hn1, he⟩ := sourceByName_ok _ _ s hs hn
    refine ⟨s1, hs1, hn1, ?_⟩
    rw [he]
    simp [Except.map]

/-- Witness for C5 on the two-source example: index 2 is out of bounds, the
name "B" designates the entry `(B, 3, 5)`. -/
theorem source_lookup_errors_witness :
    (readParams exampleReader).2 = .ok exampleDescriptor ∧
      ((getFeatureCountOfASource exampleReader 2).2 = .error .outOfBounds ↔
        exampleDescriptor.sources.length ≤ 2) ∧
      ((getFeatureCountOfASourceByName exampleReader "B").2 = .error .notFound ↔
        ∀ s ∈ exampleDescriptor.sources, s.name ≠ "B") :=
  ⟨by decide,
    (source_lookup_errors exampleReader exampleDescriptor (by decide) 2 "B").2.1.1,
    (source_lookup_errors exampleReader exampleDescriptor (by decide) 2 "B").2.2.2.1.1⟩

/-- C2: in every reachable state of a reader whose header `d` is parsed, the
source table partitions the global frame index space: there is at least one
source, the first source starts at index 0, each further source starts where
the previous one ends, and the frame counts of the sources add up to the total
frame count. -/
theorem source_table_partitions (r : FeatureFileReaderSPro4) (hr : Reachable r)
    (d : FormatDescriptor) (hd : r.state.descriptor? = some d) :
    (getSourceCount r).2 = .ok d.sources.length ∧ 0 < d.sources.length ∧
    (getFirstFeatureIndexOfASource r 0).2 = .ok 0 ∧
    (∀ s, s + 1 < d.sources.length → ∃ a c,
      (getFirstFeatureIndexOfASource r s).2 = .ok a ∧
      (getFeatureCountOfASource r s).2 = .ok c ∧
      (getFirstFeatureIndexOfASource r (s + 1)).2 = .ok (a + c)) ∧
    (getFeatureCount r).2 = .ok d.featureCount ∧
    sourceCountsSum r d.sources.length = d.featureCount := by
  obtain ⟨m, _, _, hne, hp, _⟩ := inv_desc r d (reachable_inv r hr) hd
  have hsum := sourceCountsSum_eq r d hd d.sources.length (Nat.le_refl _)
  simp only [getSourceCount, getFeatureCountOfASource, getFirstFeatureIndexOfASource,
    getFeatureCount, withParams_of_desc r d _ hd]
  have hpos : 0 < d.sources.length := List.length_pos.mpr hne
  refine ⟨trivial, hpos, ?_, ?_, trivial, ?_⟩
  · rw [sourceByIndex_ok _ _ hpos]
    simp only [Except.map]
    rw [partition_first _ _ _ hp hpos]
  · intro s hs
    have h1 : s < d.sources.length := by omega
    refine ⟨(d.sources[s]).firstFrameIndex, (d.sources[s]).frameCount, ?_, ?_, ?_⟩
    · rw [sourceByIndex_ok _ _ h1]; rfl
    · rw [sourceByIndex_ok _ _ h1]; rfl
    · rw [sourceByIndex_ok _ _ hs]
      have := partition_next d.sources 0 d.featureCount s _ _ hp
        (List.get?_eq_get h1) (List.get?_eq_get hs)
      simp only [List.get_eq_getElem] at this
      simp only [Except.map, this]
  · rw [hsum, List.take_length]
    have := partition_total _ _ _ hp
    omega

/-- Witness for C2: the reader of the two-source example after its header is
parsed. -/
theorem source_table_partitions_witness :
    Reachable (readParams exampleReader).1 ∧
      (readParams exampleReader).1.state.descriptor? = some exampleDescriptor ∧
      (getFirstFeatureIndexOfASource (readParams exampleReader).1 0).2 = .ok 0 ∧
      sourceCountsSum (readParams exampleReader).1 exampleDescriptor.sources.length
        = exampleDescriptor.featureCount :=
  ⟨Reachable.call _ .metadata (Reachable.create _ _ _ _ _ _ _ _ _) trivial, by decide,
    (source_table_partitions _
      (Reachable.call _ .metadata (Reachable.create _ _ _ _ _ _ _ _ _) trivial)
      exampleDescriptor (by decide)).2.2.1,
    (source_table_partitions _
      (Reachable.call _ .metadata (Reachable.create _ _ _ _ _ _ _ _ _) trivial)
      exampleDescriptor (by decide)).2.2.2.2.2⟩

/-! ## Cache hit against forced miss -/

theorem touchesFault_nil (m : Medium) (off n : Nat) (h : m.faulty = []) :
    m.touchesFault off n = false := by
  simp [Medium.touchesFault, h]

theorem readRaw_of_frameAt (m : Medium) (d : FormatDescriptor) (i : Nat) (fr : List Nat)
    (h : frameAt m.bytes d i = some fr) :
    m.readRaw (frameOffset d i) (frameByteSize d) = .error .ioError ∨
      ∃ chunk, m.readRaw (frameOffset d i) (frameByteSize d) = .ok chunk ∧
        decodeFrame d.bigEndian d.vectSize chunk = fr := by
  unfold frameAt at h
  unfold Medium.readRaw
  split at h
  · cases h
  · rename_i hlen
    simp only [hlen, if_false]
    split
    · left; rfl
    · right
      refine ⟨_, rfl, ?_⟩
      cases h; rfl

theorem readRaw_nofault (m : Medium) (off n : Nat) (h : m.faulty = []) :
    m.readRaw off n ≠ .error .ioError := by
  unfold Medium.readRaw
  rw [touchesFault_nil m off n h]
  split <;> simp

theorem decodeFrames_error (m : Medium) (d : FormatDescriptor) (n : Nat) :
    ∀ (i : Nat) (e : ErrorKind), (decodeFrames m d i n).2 = .error e → e = .ioFailure := by
  induction n with
  | zero => intro i e h; simp [decodeFrames] at h
  | succ n ih =>
    intro i e h
    simp only [decodeFrames] at h
    split at h
    · simp at h; exact h.symm
    · simp at h
    · split at h
      · rename_i evs e2 hrec
        simp at h
        subst h
        exact ih (i + 1) e2 (by rw [hrec])
      · simp at h

theorem decodeFrames_nofault (m : Medium) (d : FormatDescriptor) (hf : m.faulty = []) (n : Nat) :
    ∀ i, ∃ frs, (decodeFrames m d i n).2 = .ok frs := by
  induction n with
  | zero => intro i; exact ⟨[], rfl⟩
  | succ n ih =>
    intro i
    simp only [decodeFrames]
    split
    · rename_i hr
      exact absurd hr (readRaw_nofault m _ _ hf)
    · exact ⟨[], rfl⟩
    · obtain ⟨frs, hfrs⟩ := ih (i + 1)
      split
      · rename_i evs e hrec
        rw [hrec] at hfrs; simp at hfrs
      · exact ⟨_, rfl⟩

theorem decodeFrames_head (m : Medium) (d : FormatDescriptor) (i n : Nat) (fr : List Nat)
    (h : frameAt m.bytes d i = some fr) :
    (decodeFrames m d i (n + 1)).2 = .error .ioFailure ∨
      ∃ rest, (decodeFrames m d i (n + 1)).2 = .ok (fr :: rest) := by
  simp only [decodeFrames]
  rcases readRaw_of_frameAt m d i fr h with hr | ⟨chunk, hr, hc⟩
  · rw [hr]; left; rfl
  · rw [hr]
    simp only
    split
    · rename_i evs e hrec
      left
      have := decodeFrames_error m d n (i + 1) e (by rw [hrec])
      rw [this]
    · right
      exact ⟨_, by rw [hc]⟩

theorem runsPast_eq_false (d : FormatDescriptor) (i : Nat) (h : i < d.featureCount) :
    runsPast d i = false := by
  cases hr : runsPast d i with
  | false => rfl
  | true => rw [runsPast_iff] at hr; omega

theorem windowLength_pos (r : FeatureFileReaderSPro4) (d : FormatDescriptor) (i : Nat) :
    ∃ k, windowLength r d i = k + 1 := by
  refine ⟨windowLength r d i - 1, ?_⟩
  unfold windowLength
  omega

theorem lookupWindows_clearWindows (r : FeatureFileReaderSPro4) (i : Nat) :
    lookupWindows (clearWindows r) i = none := by
  simp [lookupWindows, historicLookup, clearWindows, bufferLookup, List.lookup]

theorem readFeature_of_desc (r : FeatureFileReaderSPro4) (d : FormatDescriptor) (step : Nat)
    (hd : r.state.descriptor? = some d) : readFeature r step = serveFeature r d step := by
  unfold readFeature
  rcases readParams_cases r with ⟨d2, hd2, he⟩ | ⟨hs, _⟩ | ⟨hs, _⟩
  · rw [he]
    rw [hd] at hd2; cases hd2; rfl
  · rw [hs] at hd; cases hd
  · rw [hs] at hd; cases hd

theorem serveFeature_hit (r : FeatureFileReaderSPro4) (d : FormatDescriptor) (step : Nat)
    (fr : List Nat) (hs : step ≠ 0) (hv : addressedIndex r.state step < d.featureCount)
    (hit : lookupWindows r (addressedIndex r.state step) = some fr) :
    serveFeature r d step =
      ({ r with state := .Positioned d (addressedIndex r.state step) },
        .ok (some ⟨fr, d.flags⟩)) := by
  unfold serveFeature
  have hrp := runsPast_eq_false d _ hv
  simp only [hs, hrp, if_false, Bool.false_eq_true, hit]

theorem serveFeature_miss (r : FeatureFileReaderSPro4) (d : FormatDescriptor) (step : Nat)
    (m : Medium) (fr : List Nat) (hs : step ≠ 0)
    (hv : addressedIndex r.state step < d.featureCount)
    (miss : lookupWindows r (addressedIndex r.state step) = none) (hf : r.file = some m)
    (hfr : frameAt m.bytes d (addressedIndex r.state step) = some fr) :
    (serveFeature r d step).2 = .error .ioFailure ∨
      (serveFeature r d step).2 = .ok (some ⟨fr, d.flags⟩) := by
  unfold serveFeature
  have hrp := runsPast_eq_false d _ hv
  simp only [hs, hrp, if_false, Bool.false_eq_true, miss, hf]
  obtain ⟨k, hk⟩ := windowLength_pos r d (addressedIndex r.state step)
  rw [hk]
  rcases decodeFrames_head m d _ k fr hfr with he | ⟨rest, he⟩
  · left
    split
    · rename_i evs e hdec
      rw [hdec] at he; simpa using he
    · rename_i evs hdec
      rw [hdec] at he; simp at he
    · rename_i evs f2 frs hdec
      rw [hdec] at he; simp at he
  · right
    split
    · rename_i evs e hdec
      rw [hdec] at he; simp at he
    · rename_i evs hdec
      rw [hdec] at he; simp at he
    · rename_i evs f2 frs hdec
      rw [hdec] at he
      simp at he
      simp [he.1]

theorem serveFeature_miss_nofault (r : FeatureFileReaderSPro4) (d : FormatDescriptor)
    (step : Nat) (m : Medium) (hf : r.file = some m) (hfault : m.faulty = []) :
    (serveFeature r d step).2 ≠ .error .ioFailure := by
  unfold serveFeature
  split
  · simp
  · split
    · simp
    · split
      · simp
      · simp only [hf]
        obtain ⟨frs, hfrs⟩ := decodeFrames_nofault m d hfault
          (windowLength r d (addressedIndex r.state step)) (addressedIndex r.state step)
        split
        · rename_i evs e hdec
          rw [hdec] at hfrs; simp at hfrs
        · simp
        · simp

/-- C3: in every reachable state of a reader with a parsed header, for every
step that addresses a valid frame index `i` held by a window (historic probed
before buffer): the read is served from that window and returns the record the
window holds; the same read with both windows cleared decodes the frame from
the stream and, unless the medium fails, returns the identical record; on a
medium without failing offsets it always does. -/
theorem cache_hit_eq_forced_miss (r : FeatureFileReaderSPro4) (hr : Reachable r)
    (d : FormatDescriptor) (hd : r.state.descriptor? = some d) (step : Nat) (hs : step ≠ 0)
    (hv : addressedIndex r.state step < d.featureCount) (fr : List Nat)
    (hit : lookupWindows r (addressedIndex r.state step) = some fr) :
    (readFeature r step).2 = .ok (some ⟨fr, d.flags⟩) ∧
    ((readFeature (clearWindows r) step).2 = .ok (some ⟨fr, d.flags⟩) ∨
      (readFeature (clearWindows r) step).2 = .error .ioFailure) ∧
    (∀ m, r.file = some m → m.faulty = [] →
      (readFeature (clearWindows r) step).2 = .ok (some ⟨fr, d.flags⟩)) := by
  obtain ⟨m, hf, _, _, _, hb, hh, _, _⟩ := inv_desc r d (reachable_inv r hr) hd
  have hfr := lookupWindows_coherent r m.bytes d hb hh _ fr hit
  have hdc : (clearWindows r).state.descriptor? = some d := hd
  rw [readFeature_of_desc r d step hd, readFeature_of_desc _ d step hdc,
    serveFeature_hit r d step fr hs hv hit]
  have hmiss := serveFeature_miss (clearWindows r) d step m fr hs hv
    (lookupWindows_clearWindows r _) hf hfr
  refine ⟨rfl, hmiss.symm, ?_⟩
  intro m2 hf2 hfault
  have hmm : m2 = m := by rw [hf] at hf2; cases hf2; rfl
  subst hmm
  rcases hmiss with he | he
  · exact absurd he (serveFeature_miss_nofault (clearWindows r) d step m2 hf hfault)
  · exact he

/-- Witness for C3: after frame 0 of the two-source example is read, the
window holds frames 0 to 2, and the read of frame 1 is a cache hit. -/
theorem cache_hit_eq_forced_miss_witness :
    Reachable (readFeature exampleReader 1).1 ∧
      (readFeature exampleReader 1).1.state.descriptor? = some exampleDescriptor ∧
      lookupWindows (readFeature exampleReader 1).1
        (addressedIndex (readFeature exampleReader 1).1.state 1) = some [3, 4] ∧
      (readFeature (readFeature exampleReader 1).1 1).2
        = .ok (some ⟨[3, 4], exampleDescriptor.flags⟩) ∧
      ((readFeature (clearWindows (readFeature exampleReader 1).1) 1).2
          = .ok (some ⟨[3, 4], exampleDescriptor.flags⟩) ∨
        (readFeature (clearWindows (readFeature exampleReader 1).1) 1).2
          = .error .ioFailure) :=
  ⟨Reachable.call _ (.read 1) (Reachable.create _ _ _ _ _ _ _ _ _) trivial, by decide,
    by decide,
    (cache_hit_eq_forced_miss _
      (Reachable.call _ (.read 1) (Reachable.create _ _ _ _ _ _ _ _ _) trivial)
      exampleDescriptor (by decide) 1 (by decide) (by decide) [3, 4] (by decide)).1,
    (cache_hit_eq_forced_miss _
      (Reachable.call _ (.read 1) (Reachable.create _ _ _ _ _ _ _ _ _) trivial)
      exampleDescriptor (by decide) 1 (by decide) (by decide) [3, 4] (by decide)).2.1⟩

/-! ## Sequential reading -/

theorem serveFeature_past (r : FeatureFileReaderSPro4) (d : FormatDescriptor) (step : Nat)
    (hs : step ≠ 0) (hv : d.featureCount ≤ addressedIndex r.state step) :
    serveFeature r d step = (r, .ok none) := by
  unfold serveFeature
  have hrp := (runsPast_iff d (addressedIndex r.state step)).mpr hv
  simp only [hs, hrp, if_false, if_true]

theorem serveFeature_valid (r : FeatureFileReaderSPro4) (d : FormatDescriptor) (step : Nat)
    (m : Medium) (fr : List Nat) (hinv : Inv r) (hd : r.state.descriptor? = some d)
    (hf : r.file = some m) (hfault : m.faulty = []) (hs : step ≠ 0)
    (hv : addressedIndex r.state step < d.featureCount)
    (hfr : frameAt m.bytes d (addressedIndex r.state step) = some fr) :
    (serveFeature r d step).2 = .ok (some ⟨fr, d.flags⟩) ∧
      (serveFeature r d step).1.state = .Positioned d (addressedIndex r.state step) ∧
      (serveFeature r d step).1.file = some m := by
  obtain ⟨m1, hf1, _, _, _, hb, hh, _, _⟩ := inv_desc r d hinv hd
  have hmm : m1 = m := by rw [hf] at hf1; cases hf1; rfl
  subst hmm
  cases hl : lookupWindows r (addressedIndex r.state step) with
  | some fr2 =>
    have := lookupWindows_coherent r m1.bytes d hb hh _ fr2 hl
    rw [hfr] at this
    cases this
    rw [serveFeature_hit r d step fr hs hv hl]
    exact ⟨rfl, rfl, hf⟩
  | none =>
    have h2 := serveFeature_miss r d step m1 fr hs hv hl hf hfr
    have h3 := serveFeature_miss_nofault r d step m1 hf hfault
    have h4 : (serveFeature r d step).2 = .ok (some ⟨fr, d.flags⟩) := by
      rcases h2 with h2 | h2
      · exact absurd h2 h3
      · exact h2
    refine ⟨h4, ?_, ?_⟩
    · unfold serveFeature at h4 ⊢
      have hrp := runsPast_eq_false d _ hv
      simp only [hs, hrp, if_false, Bool.false_eq_true, hl, hf] at h4 ⊢
      split
      · rename_i hdec; rw [hdec] at h4; simp at h4
      · rename_i hdec; rw [hdec] at h4; simp at h4
      · rfl
    · unfold serveFeature
      have hrp := runsPast_eq_false d _ hv
      simp only [hs, hrp, if_false, Bool.false_eq_true, hl, hf]
      split <;> rfl

theorem readParams_of_desc (r : FeatureFileReaderSPro4) (d : FormatDescriptor)
    (hd : r.state.descriptor? = some d) : readParams r = (r, .ok d) := by
  rcases readParams_cases r with ⟨d2, hd2, he⟩ | ⟨hs, _⟩ | ⟨hs, _⟩
  · rw [he]
    rw [hd] at hd2; cases hd2; rfl
  · rw [hs] at hd; cases hd
  · rw [hs] at hd; cases hd

theorem readParams_file (r : FeatureFileReaderSPro4) : (readParams r).1.file = r.file := by
  rcases readParams_cases r with ⟨d2, _, he⟩ | ⟨_, log, e, he⟩ | ⟨_, m, d, hb, _, _, _, he⟩ <;>
    rw [he]

theorem readParams_opened (r : FeatureFileReaderSPro4) (d : FormatDescriptor)
    (h : (readParams r).1.state = .HeaderParsed d) : (readParams r).2 = .ok d := by
  rcases readParams_cases r with ⟨d2, hd2, he⟩ | ⟨hs, log, e, he⟩ | ⟨_, m, d2, hb, _, _, _, he⟩
  · rw [he] at h ⊢
    simp only at h
    rw [h] at hd2
    cases hd2; rfl
  · rw [he] at h
    simp only at h
    rw [hs] at h; cases h
  · rw [he] at h ⊢
    simp only at h
    cases h; rfl

theorem readFeature_eq_serve (r : FeatureFileReaderSPro4) (d : FormatDescriptor) (step : Nat)
    (h : (readParams r).2 = .ok d) :
    readFeature r step = serveFeature (readParams r).1 d step := by
  unfold readFeature
  split
  · rename_i r1 e he
    rw [he] at h; cases h
  · rename_i r1 d1 he
    rw [he] at h ⊢
    cases h; rfl

theorem readSeq_readParams (r : FeatureFileReaderSPro4) (d : FormatDescriptor) (n : Nat)
    (h : (readParams r).2 = .ok d) :
    (readSeq (n + 1) r).2 = (readSeq (n + 1) (readParams r).1).2 := by
  have hd := readParams_desc r d h
  have e : readFeature (readParams r).1 1 = readFeature r 1 := by
    rw [readFeature_eq_serve r d 1 h, readFeature_of_desc _ d 1 hd]
  simp only [readSeq, e]

theorem readSeq_from (d : FormatDescriptor) (m : Medium) (fs : List (List Nat))
    (hfault : m.faulty = []) (hfs : FileHolds m.bytes d fs) (n : Nat) :
    ∀ (j : Nat) (r : FeatureFileReaderSPro4), Inv r → r.state.descriptor? = some d →
      r.file = some m → addressedIndex r.state 1 = j → j + n = d.featureCount →
      (readSeq (n + 1) r).2 =
        (fs.drop j).map (fun fr => .ok (some ⟨fr, d.flags⟩)) ++ [.ok none] := by
  induction n with
  | zero =>
    intro j r _ hd hf hj hn
    have hpast := serveFeature_past r d 1 (by decide) (by omega)
    have hdrop : fs.drop j = [] := List.drop_eq_nil_of_le (by rw [hfs.1]; omega)
    simp only [readSeq, readFeature_of_desc r d 1 hd, hpast, hdrop, List.map_nil,
      List.nil_append]
  | succ n ih =>
    intro j r hinv hd hf hj hn
    subst hj
    have hjl : addressedIndex r.state 1 < fs.length := by rw [hfs.1]; omega
    have hget : fs.get? (addressedIndex r.state 1) = some fs[addressedIndex r.state 1] := by
      simp [List.getElem?_eq_getElem hjl]
    have hfr := hfs.2 _ hjl
    rw [hget] at hfr
    obtain ⟨h1, h2, h3⟩ := serveFeature_valid r d 1 m _ hinv hd hf hfault (by decide)
      (by omega) hfr
    have hinv2 := serveFeature_inv r d 1 hinv hd
    have hd2 : (serveFeature r d 1).1.state.descriptor? = some d := by rw [h2]; rfl
    have hj2 : addressedIndex (serveFeature r d 1).1.state 1 = addressedIndex r.state 1 + 1 := by
      rw [h2]; simp only [addressedIndex]
    have := ih _ (serveFeature r d 1).1 hinv2 hd2 h3 hj2 (by omega)
    have hdrop : fs.drop (addressedIndex r.state 1) =
        fs[addressedIndex r.state 1] :: fs.drop (addressedIndex r.state 1 + 1) :=
      List.drop_eq_getElem_cons hjl
    rw [readSeq]
    simp only [readFeature_of_desc r d 1 hd]
    rw [this, h1, hdrop]
    simp only [List.map_cons, List.cons_append]

/-- C1: on a reachable reader that is freshly opened on a file holding the
frames `fs` (as many as the total frame count) over a medium that does not
fail, `totalFrameCount + 1` sequential calls of `readFeature` with step 1
return true with the frames of index `0 .. lastFeatureIndex` in order and then
false, and none of the calls raises an error. -/
theorem sequential_read (r : FeatureFileReaderSPro4) (hr : Reachable r)
    (d : FormatDescriptor) (m : Medium) (fs : List (List Nat))
    (hopen : (readParams r).1.state = .HeaderParsed d) (hf : r.file = some m)
    (hfault : m.faulty = []) (hfs : FileHolds m.bytes d fs) :
    (readSeq (d.featureCount + 1) r).2 =
      fs.map (fun fr => .ok (some ⟨fr, d.flags⟩)) ++ [.ok none] := by
  have hok := readParams_opened r d hopen
  rw [readSeq_readParams r d _ hok]
  have := readSeq_from d m fs hfault hfs d.featureCount 0 (readParams r).1
    (readParams_inv r (reachable_inv r hr)) (readParams_desc r d hok)
    (by rw [readParams_file, hf]) (by rw [hopen]; rfl) (by omega)
  simpa using this

/-- Witness for C1: the nine sequential reads of the two-source example. -/
theorem sequential_read_witness :
    Reachable exampleReader ∧
      (readParams exampleReader).1.state = .HeaderParsed exampleDescriptor ∧
      exampleReader.file = some exampleMedium ∧ exampleMedium.faulty = [] ∧
      FileHolds exampleMedium.bytes exampleDescriptor (exampleFramesA ++ exampleFramesB) ∧
      (readSeq (exampleDescriptor.featureCount + 1) exampleReader).2 =
        (exampleFramesA ++ exampleFramesB).map
          (fun fr => .ok (some ⟨fr, exampleDescriptor.flags⟩)) ++ [.ok none] :=
  ⟨Reachable.create _ _ _ _ _ _ _ _ _, by decide, rfl, rfl, by decide,
    sequential_read exampleReader (Reachable.create _ _ _ _ _ _ _ _ _) exampleDescriptor
      exampleMedium (exampleFramesA ++ exampleFramesB) (by decide) rfl rfl (by decide)⟩

/-! ## Streams of named sources -/

theorem buildSourceTable_length (l : List (String × Nat)) :
    ∀ a, (buildSourceTable a l).length = l.length := by
  induction l with
  | nil => intro a; rfl
  | cons x rest ih => intro a; obtain ⟨nm, n⟩ := x; simp [buildSourceTable, ih]

theorem buildSourceTable_get (l : List (String × Nat)) :
    ∀ a j (h : j < l.length),
      (buildSourceTable a l).get? j = some ⟨(l[j]).1, a + countBefore l j, (l[j]).2⟩ := by
  induction l with
  | nil => intro a j h; simp at h
  | cons x rest ih =>
    intro a j h
    obtain ⟨nm, n⟩ := x
    cases j with
    | zero => simp [buildSourceTable, countBefore]
    | succ j =>
      have := ih (a + n) j (by simpa using h)
      simp only [buildSourceTable, List.get?_cons_succ, this, countBefore,
        List.getElem_cons_succ, Nat.add_assoc]

theorem find?_first (t : List SourceEntry) (nm : String) :
    ∀ j (e : SourceEntry), t.get? j = some e → e.name = nm →
      (∀ i e2, i < j → t.get? i = some e2 → e2.name ≠ nm) →
      t.find? (fun s => s.name == nm) = some e := by
  induction t with
  | nil => intro j e h; simp at h
  | cons x rest ih =>
    intro j e hget hn hfirst
    cases j with
    | zero =>
      simp at hget; subst hget
      simp [List.find?, hn]
    | succ j =>
      have hx : x.name ≠ nm := hfirst 0 x (by omega) (by simp)
      have hx2 : (x.name == nm) = false := by simpa using hx
      simp only [List.find?, hx2]
      apply ih j e (by simpa using hget) hn
      intro i e2 hi hg
      exact hfirst (i + 1) e2 (by omega) (by simpa using hg)

theorem allFrames_get (srcs : List (String × List (List Nat))) :
    ∀ j t (hj : j < srcs.length) (ht : t < (srcs[j]).2.length),
      (allFrames srcs).get? (countBefore (sourceSizes srcs) j + t) = some ((srcs[j]).2[t]) := by
  induction srcs with
  | nil => intro j t hj; simp at hj
  | cons s rest ih =>
    intro j t hj ht
    cases j with
    | zero =>
      simp only [List.getElem_cons_zero] at ht ⊢
      simp only [sourceSizes, List.map_cons, countBefore, Nat.zero_add, allFrames,
        List.get?_eq_getElem?]
      rw [List.getElem?_append_left ht, List.getElem?_eq_getElem ht]
    | succ j =>
      simp only [List.getElem_cons_succ] at ht ⊢
      have := ih j t (by simpa using hj) ht
      simp only [sourceSizes, List.map_cons, countBefore, allFrames,
        List.get?_eq_getElem?] at this ⊢
      rw [List.getElem?_append_right (by omega)]
      have e : s.2.length + countBefore (List.map (fun s => (s.1, s.2.length)) rest) j + t
          - s.2.length = countBefore (List.map (fun s => (s.1, s.2.length)) rest) j + t := by
        omega
      rw [e]; exact this

theorem parseFields_sources (be : Bool) (hb : List Nat) (fn : String) (s : String × Nat)
    (rest : List (String × Nat)) (d : FormatDescriptor)
    (h : parseFields be hb fn (s :: rest) = .ok d) :
    d.sources = buildSourceTable 0 (s :: rest) := by
  unfold parseFields at h
  simp only at h
  split at h
  · simp at h; subst h; rfl
  · cases h

theorem readHeader_sources (nat : Bool) (be : BigEndian) (hb : List Nat) (len : Nat)
    (fn : String) (s : String × Nat) (rest : List (String × Nat)) (d : FormatDescriptor)
    (h : readHeader nat be hb len fn (s :: rest) = .ok d) :
    d.sources = buildSourceTable 0 (s :: rest) := by
  unfold readHeader at h
  cases be with
  | BIGENDIAN_TRUE => exact parseFields_sources _ _ _ _ _ _ h
  | BIGENDIAN_FALSE => exact parseFields_sources _ _ _ _ _ _ h
  | BIGENDIAN_AUTO =>
    simp only at h
    split at h
    · rename_i d1 h1
      split at h
      · cases h; exact parseFields_sources _ _ _ _ _ _ h1
      · split at h
        · rename_i d2 h2
          split at h
          · cases h; exact parseFields_sources _ _ _ _ _ _ h2
          · cases h
        · cases h
    · split at h
      · rename_i d2 h2
        split at h
        · cases h; exact parseFields_sources _ _ _ _ _ _ h2
        · cases h
      · cases h

theorem readParams_fresh (r : FeatureFileReaderSPro4) (d : FormatDescriptor) (m : Medium)
    (hs : r.state = .Unopened) (hf : r.file = some m) (hok : (readParams r).2 = .ok d) :
    (readParams r).1.state = .HeaderParsed d ∧
      ∃ hb, readHeader r.nativeBigEndian r.bigEndian hb m.bytes.length r.fileName m.trailer
        = .ok d := by
  rcases readParams_cases r with ⟨d2, hd2, _⟩ | ⟨_, log, e, he⟩ | ⟨_, m2, d2, hb, hf2, _, hh, he⟩
  · rw [hs] at hd2; cases hd2
  · rw [he] at hok; cases hok
  · rw [he] at hok ⊢
    cases hok
    rw [hf] at hf2; cases hf2
    exact ⟨rfl, hb, hh⟩


/-- C4 as stated fails: in a stream whose two sources are both named "A", with
3 and 5 frames, the name of source 1 is "A" and its frame count by index is 5,
while `getFeatureCountOfASource("A")` answers 3, the count of source 0. -/
theorem named_sources_counterexample :
    (getNameOfASource duplicateReader 1).2 = .ok "A" ∧
      (getFeatureCountOfASource duplicateReader 1).2 = .ok 5 ∧
      (getFeatureCountOfASourceByName duplicateReader "A").2 = .ok 3 ∧
      ¬ ((getFeatureCountOfASourceByName duplicateReader "A").2
          = (getFeatureCountOfASource duplicateReader 1).2) := by
  decide

/-- C4, amended: for a fresh reader on a stream made of the consecutive named
sources `srcs` (file and medium sound, header parsed as `d`):
`getSourceCount()` is the number of sources; for source `j`,
`getFirstFeatureIndexOfASource(j)` is `n_0 + ... + n_(j-1)`,
`getFeatureCountOfASource(j)` is `n_j`, `getNameOfASource(j)` is its name, the
frame count by that name is `n_j` when no earlier source bears the same name,
and reading the global index `first(j) + t` with `t < n_j` returns frame `t`
of source `j`. -/
theorem named_sources (r : FeatureFileReaderSPro4) (hr : Reachable r) (m : Medium)
    (d : FormatDescriptor) (srcs : List (String × List (List Nat)))
    (hfresh : r.state = .Unopened) (hf : r.file = some m) (hfault : m.faulty = [])
    (hne : srcs ≠ []) (htr : m.trailer = sourceSizes srcs)
    (hok : (readParams r).2 = .ok d) (hfs : FileHolds m.bytes d (allFrames srcs)) :
    (getSourceCount r).2 = .ok srcs.length ∧
    ∀ j (hj : j < srcs.length),
      (getFirstFeatureIndexOfASource r j).2 = .ok (countBefore (sourceSizes srcs) j) ∧
      (getFeatureCountOfASource r j).2 = .ok (srcs[j]).2.length ∧
      (getNameOfASource r j).2 = .ok (srcs[j]).1 ∧
      ((∀ i (hi : i < j), (srcs[i]).1 ≠ (srcs[j]).1) →
        (getFeatureCountOfASourceByName r (srcs[j]).1).2 = .ok (srcs[j]).2.length) ∧
      ∀ t (ht : t < (srcs[j]).2.length),
        (readFeature r (countBefore (sourceSizes srcs) j + t + 1)).2
          = .ok (some ⟨(srcs[j]).2[t], d.flags⟩) := by
  obtain ⟨hstate, hb, hh⟩ := readParams_fresh r d m hfresh hf hok
  have hsl : (sourceSizes srcs).length = srcs.length := by simp [sourceSizes]
  have hsrc : d.sources = buildSourceTable 0 (sourceSizes srcs) := by
    rw [htr] at hh
    cases hsz : sourceSizes srcs with
    | nil =>
      rw [hsz] at hsl
      exact absurd (List.length_eq_zero.mp hsl.symm) hne
    | cons s rest =>
      rw [hsz] at hh
      exact readHeader_sources _ _ _ _ _ _ _ _ hh
  have hget : ∀ j (hj : j < srcs.length),
      d.sources.get? j =
        some ⟨(srcs[j]).1, countBefore (sourceSizes srcs) j, (srcs[j]).2.length⟩ := by
    intro j hj
    rw [hsrc, buildSourceTable_get _ 0 j (by rw [hsl]; exact hj)]
    simp [sourceSizes]
  simp only [getSourceCount, getFeatureCountOfASource, getFirstFeatureIndexOfASource,
    getNameOfASource, getFeatureCountOfASourceByName, withParams_snd r d _ hok]
  refine ⟨by rw [hsrc, buildSourceTable_length, hsl], ?_⟩
  intro j hj
  have hidx : sourceByIndex d.sources j =
      .ok ⟨(srcs[j]).1, countBefore (sourceSizes srcs) j, (srcs[j]).2.length⟩ := by
    simp only [sourceByIndex, hget j hj]
  refine ⟨by rw [hidx]; rfl, by rw [hidx]; rfl, by rw [hidx]; rfl, ?_, ?_⟩
  · intro hfirst
    have := find?_first d.sources (srcs[j]).1 j _ (hget j hj) rfl (by
      intro i e2 hi hg
      rw [hget i (by omega)] at hg
      cases hg
      exact hfirst i hi)
    simp only [sourceByName, this]
    rfl
  · intro t ht
    rw [readFeature_eq_serve r d _ hok]
    have hinv := readParams_inv r (reachable_inv r hr)
    have hd := readParams_desc r d hok
    have hfile : (readParams r).1.file = some m := by rw [readParams_file, hf]
    have haddr : addressedIndex (readParams r).1.state
        (countBefore (sourceSizes srcs) j + t + 1) = countBefore (sourceSizes srcs) j + t := by
      rw [hstate]; simp [addressedIndex]
    have hfr := allFrames_get srcs j t hj ht
    have hlt : countBefore (sourceSizes srcs) j + t < (allFrames srcs).length := by
      have := List.get?_eq_some.mp hfr
      exact this.1
    have hframe := hfs.2 _ hlt
    rw [hfr] at hframe
    rw [← haddr] at hframe
    exact (serveFeature_valid _ d _ m _ hinv hd hfile hfault (by omega)
      (by rw [haddr, ← hfs.1]; exact hlt) hframe).1

/-- Witness for C4, the example scenario: sources A (3 frames) and B
(5 frames): `getSourceCount() = 2`, `getFirstFeatureIndexOfASource(1) = 3`,
`getFeatureCountOfASource("B") = 5`, and global index 4 is the 2nd frame of
B. -/
theorem named_sources_witness :
    Reachable exampleReader ∧ exampleReader.state = .Unopened ∧
      exampleReader.file = some exampleMedium ∧ exampleMedium.faulty = [] ∧
      exampleSources ≠ [] ∧ exampleMedium.trailer = sourceSizes exampleSources ∧
      (readParams exampleReader).2 = .ok exampleDescriptor ∧
      FileHolds exampleMedium.bytes exampleDescriptor (allFrames exampleSources) ∧
      (getSourceCount exampleReader).2 = .ok 2 ∧
      (getFirstFeatureIndexOfASource exampleReader 1).2 = .ok 3 ∧
      (getFeatureCountOfASourceByName exampleReader "B").2 = .ok 5 ∧
      (readFeature exampleReader 5).2 = .ok (some ⟨[9, 10], exampleDescriptor.flags⟩) :=
  ⟨Reachable.create _ _ _ _ _ _ _ _ _, rfl, rfl, rfl, by decide, by decide, by decide,
    by decide,
    (named_sources exampleReader (Reachable.create _ _ _ _ _ _ _ _ _) exampleMedium
      exampleDescriptor exampleSources rfl rfl rfl (by decide) (by decide) (by decide)
      (by decide)).1,
    ((named_sources exampleReader (Reachable.create _ _ _ _ _ _ _ _ _) exampleMedium
      exampleDescriptor exampleSources rfl rfl rfl (by decide) (by decide) (by decide)
      (by decide)).2 1 (by decide)).1,
    ((named_sources exampleReader (Reachable.create _ _ _ _ _ _ _ _ _) exampleMedium
      exampleDescriptor exampleSources rfl rfl rfl (by decide) (by decide) (by decide)
      (by decide)).2 1 (by decide)).2.2.2.1 (by decide),
    ((named_sources exampleReader (Reachable.create _ _ _ _ _ _ _ _ _) exampleMedium
      exampleDescriptor exampleSources rfl rfl rfl (by decide) (by decide) (by decide)
      (by decide)).2 1 (by decide)).2.2.2.2 1 (by decide)⟩

/-! ## Round trip of written frames -/

theorem ofWord_toWord (fl : FeatureFlags) : FeatureFlags.ofWord fl.toWord = fl := by
  obtain ⟨a, b, c⟩ := fl
  cases a <;> cases b <;> cases c <;> rfl

theorem toWord_lt (fl : FeatureFlags) : fl.toWord < 4294967296 := by
  obtain ⟨a, b, c⟩ := fl
  cases a <;> cases b <;> cases c <;> decide

theorem decodeField_encodeHeader (be : Bool) (d : FormatDescriptor)
    (h0 : d.vectSize < 4294967296) (h2 : d.sampleRate < 4294967296)
    (h3 : d.featureCount < 4294967296) :
    decodeField be (encodeHeader be d) 0 = d.vectSize ∧
      decodeField be (encodeHeader be d) 1 = d.flags.toWord ∧
      decodeField be (encodeHeader be d) 2 = d.sampleRate ∧
      decodeField be (encodeHeader be d) 3 = d.featureCount := by
  have h1 := toWord_lt d.flags
  cases be <;> simp [encodeHeader, encodeWord, decodeField, decodeWord] <;> omega

theorem length_encodeHeader (be : Bool) (d : FormatDescriptor) :
    (encodeHeader be d).length = 16 := by
  simp [encodeHeader, length_encodeWord]

theorem decodeField_readBytes (be : Bool) (bytes : List Nat) (k : Nat) (hk : k < 4) :
    decodeField be (readBytes bytes 0 getHeaderLength) k = decodeField be bytes k := by
  unfold decodeField
  rw [getD_readBytes _ _ _ _ (by simp only [getHeaderLength]; omega),
    getD_readBytes _ _ _ _ (by simp only [getHeaderLength]; omega),
    getD_readBytes _ _ _ _ (by simp only [getHeaderLength]; omega),
    getD_readBytes _ _ _ _ (by simp only [getHeaderLength]; omega)]
  simp

theorem decodeField_patch_high (be : Bool) (bytes : List Nat) (off : Nat) (data : List Nat)
    (k : Nat) (hk : k < 4) (hoff : getHeaderLength ≤ off) :
    decodeField be (patchBytes bytes off data) k = decodeField be bytes k := by
  unfold decodeField
  simp only [getHeaderLength] at hoff
  have hn : ∀ j, j < 16 → ¬ (off ≤ j ∧ j < off + data.length) := by intro j hj; omega
  simp only [getD_patchBytes]
  rw [if_neg (hn _ (by omega)), if_neg (hn _ (by omega)), if_neg (hn _ (by omega)),
    if_neg (hn _ (by omega))]

theorem decodeField_patch_count_other (be : Bool) (bytes : List Nat) (x k : Nat) (hk : k < 3) :
    decodeField be (patchBytes bytes featureCountOffset (encodeWord be x)) k
      = decodeField be bytes k := by
  unfold decodeField
  have hn : ∀ j, j < 12 →
      ¬ (featureCountOffset ≤ j ∧ j < featureCountOffset + (encodeWord be x).length) := by
    intro j hj; simp only [featureCountOffset]; omega
  simp only [getD_patchBytes]
  rw [if_neg (hn _ (by omega)), if_neg (hn _ (by omega)), if_neg (hn _ (by omega)),
    if_neg (hn _ (by omega))]

theorem decodeField_patch_count (be : Bool) (bytes : List Nat) (x : Nat) (hx : x < 4294967296) :
    decodeField be (patchBytes bytes featureCountOffset (encodeWord be x)) 3 = x := by
  unfold decodeField
  have hy : ∀ j, 12 ≤ j → j < 16 →
      (featureCountOffset ≤ j ∧ j < featureCountOffset + (encodeWord be x).length) := by
    intro j h1 h2; rw [length_encodeWord]; simp only [featureCountOffset]; omega
  simp only [getD_patchBytes]
  rw [if_pos (hy _ (by omega) (by omega)), if_pos (hy _ (by omega) (by omega)),
    if_pos (hy _ (by omega) (by omega)), if_pos (hy _ (by omega) (by omega))]
  simp only [featureCountOffset]
  exact decodeWord_encodeWord be x hx

theorem frameAt_layout (bytes : List Nat) (d : FormatDescriptor) (be : Bool) (v i : Nat)
    (h1 : d.vectSize = v) (h2 : d.headerLength = getHeaderLength) (h3 : d.bigEndian = be) :
    frameAt bytes d i = frameAt bytes (layoutOf be v) i := by
  simp only [frameAt, frameOffset, frameByteSize, layoutOf, h1, h2, h3]

theorem written_emptyStream (be : Bool) (v sr : Nat) (fl : FeatureFlags)
    (hv : v < 4294967296) (hsr : sr < 4294967296) :
    Written be v fl sr [] (emptyStream be v fl sr) := by
  obtain ⟨h0, h1, h2, h3⟩ := decodeField_encodeHeader be
    { vectSize := v, flags := fl, sampleRate := sr, featureCount := 0
      headerLength := getHeaderLength, bigEndian := be, sources := [] } hv hsr
    (by show 0 < 4294967296; omega)
  refine ⟨rfl, rfl, ?_, h0, h1, h2, h3, ?_⟩
  · simp only [emptyStream, length_encodeHeader, getHeaderLength]; omega
  · intro i hi; simp at hi


theorem readRaw_header (m : Medium) (hf : m.faulty = [])
    (hl : getHeaderLength ≤ m.bytes.length) :
    m.readRaw 0 getHeaderLength = .ok (readBytes m.bytes 0 getHeaderLength) := by
  unfold Medium.readRaw
  rw [touchesFault_nil m _ _ hf]
  have : ¬ (m.bytes.length < 0 + getHeaderLength) := by omega
  rw [if_neg this]
  simp

theorem readHeader_explicit (nat be : Bool) (hb : List Nat) (len : Nat) (fn : String) :
    readHeader nat (explicitOrder be) hb len fn [] =
      .ok (parsedDescriptor be (decodeField be hb 0) (FeatureFlags.ofWord (decodeField be hb 1))
        (decodeField be hb 2) (decodeField be hb 3) fn) := by
  cases be <;> rfl

theorem parse_written (be : Bool) (v sr : Nat) (fl : FeatureFlags) (ws : List (List Nat))
    (r : FeatureFileReaderSPro4) (m : Medium) (hs : r.state = .Unopened)
    (hf : r.file = some m) (hbe : r.bigEndian = explicitOrder be)
    (hw : Written be v fl sr ws m) :
    readParams r =
      ({ r with isOpen := true
                state := .HeaderParsed (parsedDescriptor be v fl sr ws.length r.fileName)
                ioLog := r.ioLog ++ [.open, .read 0 getHeaderLength] },
        .ok (parsedDescriptor be v fl sr ws.length r.fileName)) := by
  obtain ⟨h1, h2, h3, f0, f1, f2, f3, _⟩ := hw
  unfold readParams
  simp only [hs, hf, readRaw_header m h1 h3, hbe, h2, readHeader_explicit,
    decodeField_readBytes be m.bytes _ (by decide : (0 : Nat) < 4),
    decodeField_readBytes be m.bytes _ (by decide : (1 : Nat) < 4),
    decodeField_readBytes be m.bytes _ (by decide : (2 : Nat) < 4),
    decodeField_readBytes be m.bytes _ (by decide : (3 : Nat) < 4),
    f0, f1, f2, f3, ofWord_toWord]

theorem writeRaw_nofault (m : Medium) (off : Nat) (data : List Nat) (hf : m.faulty = []) :
    m.writeRaw off data = .ok { m with bytes := patchBytes m.bytes off data } := by
  unfold Medium.writeRaw
  rw [touchesFault_nil m _ _ hf]
  simp

theorem store_written (be : Bool) (v sr : Nat) (fl : FeatureFlags) (ws : List (List Nat))
    (r : FeatureFileReaderSPro4) (m : Medium) (d : FormatDescriptor) (f : Feature)
    (hf : r.file = some m) (hw : Written be v fl sr ws m)
    (hbe : r.bigEndian = explicitOrder be)
    (d1 : d.vectSize = v) (d2 : d.headerLength = getHeaderLength) (d3 : d.bigEndian = be)
    (d4 : d.featureCount = ws.length) (ha : addressedIndex r.state 1 = ws.length)
    (hlen : f.data.length = v) (hwf : f.wellFormed) (hk : ws.length + 1 < 4294967296) :
    (storeFeature r d f 1).2 = .ok true ∧
      WritePhase be v fl sr (ws ++ [f.data]) (storeFeature r d f 1).1 := by
  obtain ⟨h1, h2, h3, f0, f1, f2, f3, hfr⟩ := hw
  have hlen2 : ¬ (f.data.length ≠ d.vectSize) := by rw [d1]; simpa using hlen
  have hge : ¬ (ws.length < d.featureCount) := by omega
  unfold storeFeature
  have hw2 := writeRaw_nofault
    (Medium.mk (patchBytes m.bytes (frameOffset d ws.length) (encodeFrame d.bigEndian f.data))
      m.trailer m.faulty)
    featureCountOffset (encodeWord d.bigEndian (ws.length + 1)) h1
  simp only [Nat.succ_ne_zero, if_false, hlen2, hf, ha, writeRaw_nofault m _ _ h1, hge, hw2]
  refine ⟨trivial, ?_⟩
  have hu := updated_store m.bytes d ws.length f.data (by rw [hlen, d1]) hwf
  have hu2 := updated_countField _ _ d _ _ (ws.length + 1) d.bigEndian d2 hu
  have hoff : getHeaderLength ≤ frameOffset d ws.length := by
    rw [← d2]; exact frameOffset_ge_header d _
  refine ⟨_, rfl, ⟨h1, h2, ?_, ?_, ?_, ?_, ?_, ?_⟩, hbe, Or.inr ⟨_, rfl, d1, d2, d3, ?_, ?_⟩⟩
  · simp only [length_patchBytes]; omega
  · rw [d3, decodeField_patch_count_other _ _ _ _ (by decide),
      decodeField_patch_high _ _ _ _ _ (by decide) hoff, f0]
  · rw [d3, decodeField_patch_count_other _ _ _ _ (by decide),
      decodeField_patch_high _ _ _ _ _ (by decide) hoff, f1]
  · rw [d3, decodeField_patch_count_other _ _ _ _ (by decide),
      decodeField_patch_high _ _ _ _ _ (by decide) hoff, f2]
  · rw [d3, decodeField_patch_count _ _ _ hk]; simp
  · intro i hi
    simp only [List.length_append, List.length_singleton] at hi
    rw [← frameAt_layout _ d be v i d1 d2 d3]
    by_cases hieq : i = ws.length
    · subst hieq
      rw [hu2.2]; simp
    · have hilt : i < ws.length := by omega
      have hold := hfr i hilt
      rw [← frameAt_layout _ d be v i d1 d2 d3] at hold
      have hget : ws.get? i = some ws[i] := by simp [List.getElem?_eq_getElem hilt]
      rw [hget] at hold
      rw [hu2.1 i _ hieq hold]
      simp [List.getElem?_append_left hilt, List.getElem?_eq_getElem hilt]
  · simp
  · simp [addressedIndex]


theorem writeFeature_eq_store (r : FeatureFileReaderSPro4) (d : FormatDescriptor) (f : Feature)
    (step : Nat) (h : readParams r = ((readParams r).1, .ok d)) :
    writeFeature r f step = storeFeature (readParams r).1 d f step := by
  unfold writeFeature
  rw [h]

theorem write_phase_step (be : Bool) (v sr : Nat) (fl : FeatureFlags) (ws : List (List Nat))
    (r : FeatureFileReaderSPro4) (f : Feature) (hp : WritePhase be v fl sr ws r)
    (hlen : f.data.length = v) (hwf : f.wellFormed) (hk : ws.length + 1 < 4294967296) :
    (writeFeature r f 1).2 = .ok true ∧
      WritePhase be v fl sr (ws ++ [f.data]) (writeFeature r f 1).1 := by
  obtain ⟨m, hf, hw, hbe, hst⟩ := hp
  rcases hst with ⟨hs, hnil⟩ | ⟨d, hd, d1, d2, d3, d4, ha⟩
  · subst hnil
    have hparse := parse_written be v sr fl [] r m hs hf hbe hw
    have e : writeFeature r f 1 = storeFeature (readParams r).1
        (parsedDescriptor be v fl sr 0 r.fileName) f 1 := by
      apply writeFeature_eq_store
      rw [hparse]
      rfl
    rw [e, hparse]
    exact store_written be v sr fl [] _ m _ f hf hw hbe rfl rfl rfl rfl rfl hlen hwf hk
  · have hparse := readParams_of_desc r d hd
    have e : writeFeature r f 1 = storeFeature (readParams r).1 d f 1 := by
      apply writeFeature_eq_store
      rw [hparse]
    rw [e, hparse]
    exact store_written be v sr fl ws r m d f hf hw hbe d1 d2 d3 d4 ha hlen hwf hk

theorem write_phase (be : Bool) (v sr : Nat) (fl : FeatureFlags) (fs : List Feature) :
    ∀ (ws : List (List Nat)) (r : FeatureFileReaderSPro4), WritePhase be v fl sr ws r →
      (∀ f ∈ fs, f.data.length = v ∧ f.wellFormed) → ws.length + fs.length < 4294967296 →
      (writeSeq fs r).2 = fs.map (fun _ => .ok true) ∧
        WritePhase be v fl sr (ws ++ fs.map (fun f => f.data)) (writeSeq fs r).1 := by
  induction fs with
  | nil =>
    intro ws r hp _ _
    simpa [writeSeq] using hp
  | cons f fs ih =>
    intro ws r hp hall hk
    simp only [List.length_cons] at hk
    have hf := hall f (by simp)
    obtain ⟨h1, h2⟩ := write_phase_step be v sr fl ws r f hp hf.1 hf.2 (by omega)
    obtain ⟨h3, h4⟩ := ih (ws ++ [f.data]) (writeFeature r f 1).1 h2
      (fun g hg => hall g (List.mem_cons_of_mem _ hg)) (by simp; omega)
    simp only [writeSeq, h1, h3, List.map_cons]
    refine ⟨trivial, ?_⟩
    simpa using h4

theorem reopen_written (be : Bool) (v sr : Nat) (fl : FeatureFlags) (ws : List (List Nat))
    (r : FeatureFileReaderSPro4) (hp : WritePhase be v fl sr ws r) :
    (readParams (close r)).2 = .ok (parsedDescriptor be v fl sr ws.length r.fileName) ∧
      (readSeq (ws.length + 1) (close r)).2 =
        ws.map (fun fr => .ok (some ⟨fr, fl⟩)) ++ [.ok none] := by
  obtain ⟨m, hf, hw, hbe, _⟩ := hp
  have hparse := parse_written be v sr fl ws (close r) m rfl hf hbe hw
  have hok : (readParams (close r)).2
      = .ok (parsedDescriptor be v fl sr ws.length r.fileName) := by rw [hparse]; rfl
  refine ⟨hok, ?_⟩
  rw [readSeq_readParams _ _ _ hok]
  have hinv := readParams_inv _ (close_inv r)
  have hfs : FileHolds m.bytes (parsedDescriptor be v fl sr ws.length r.fileName) ws := by
    refine ⟨rfl, ?_⟩
    intro i hi
    rw [frameAt_layout _ _ be v i rfl rfl rfl]
    exact hw.2.2.2.2.2.2.2 i hi
  have := readSeq_from (parsedDescriptor be v fl sr ws.length r.fileName) m ws hw.1 hfs
    ws.length 0 (readParams (close r)).1 hinv (readParams_desc _ _ hok)
    (by rw [readParams_file]; exact hf) (by rw [hparse]; rfl) (by simp [parsedDescriptor])
  simpa [parsedDescriptor] using this

/-- C6: for each byte order `be`, in a single-source stream of this codec with
vector width `v`, flags `fl` and sample rate `sr` that holds no frame yet (on
a medium that does not fail; `v`, `sr` and `k` fit the 4-byte fields of the
header): writing the `k` records `fs` of the stream (of
width `v`, bearing the flags `fl`) with `writeFeature`, closing, and reading
again with the same codec succeeds at every write, yields a feature count of
`k`, the vector width and the descriptor flags of the stream, and `k` reads
that return exactly the written records (coefficient values and flags) in
order, followed by the end of the stream. -/
theorem write_read_round_trip (be : Bool) (v sr : Nat) (fl : FeatureFlags) (fs : List Feature)
    (fileName : String) (nativeBigEndian : Bool) (b : BufferUsage)
    (bufferSize autoBufferSize : Nat) (h : HistoricUsage) (historicSize : Nat)
    (hv : v < 4294967296) (hsr : sr < 4294967296) (hk : fs.length < 4294967296)
    (hfs : ∀ f ∈ fs, f.data.length = v ∧ f.flags = fl ∧ f.wellFormed) :
    (writeSeq fs (FeatureFileReaderSPro4.create fileName (some (emptyStream be v fl sr))
        nativeBigEndian (explicitOrder be) b bufferSize autoBufferSize h historicSize)).2
      = fs.map (fun _ => .ok true) ∧
    (getFeatureCount (close (writeSeq fs (FeatureFileReaderSPro4.create fileName
        (some (emptyStream be v fl sr)) nativeBigEndian (explicitOrder be) b bufferSize
        autoBufferSize h historicSize)).1)).2 = .ok fs.length ∧
    (getVectSize (close (writeSeq fs (FeatureFileReaderSPro4.create fileName
        (some (emptyStream be v fl sr)) nativeBigEndian (explicitOrder be) b bufferSize
        autoBufferSize h historicSize)).1)).2 = .ok v ∧
    (getFeatureFlags (close (writeSeq fs (FeatureFileReaderSPro4.create fileName
        (some (emptyStream be v fl sr)) nativeBigEndian (explicitOrder be) b bufferSize
        autoBufferSize h historicSize)).1)).2 = .ok fl ∧
    (readSeq (fs.length + 1) (close (writeSeq fs (FeatureFileReaderSPro4.create fileName
        (some (emptyStream be v fl sr)) nativeBigEndian (explicitOrder be) b bufferSize
        autoBufferSize h historicSize)).1)).2
      = fs.map (fun f => .ok (some f)) ++ [.ok none] := by
  have h0 : WritePhase be v fl sr []
      (FeatureFileReaderSPro4.create fileName (some (emptyStream be v fl sr))
        nativeBigEndian (explicitOrder be) b bufferSize autoBufferSize h historicSize) :=
    ⟨_, rfl, written_emptyStream be v sr fl hv hsr, rfl, Or.inl ⟨rfl, rfl⟩⟩
  obtain ⟨h1, h2⟩ := write_phase be v sr fl fs [] _ h0
    (fun f hf => ⟨(hfs f hf).1, (hfs f hf).2.2⟩) (by simpa using hk)
  simp only [List.nil_append] at h2
  obtain ⟨h3, h4⟩ := reopen_written be v sr fl _ _ h2
  simp only [List.length_map, List.map_map] at h3 h4
  have hrec : fs.map ((fun fr => (Except.ok (some ⟨fr, fl⟩) : Except ErrorKind (Option Feature)))
      ∘ fun f => f.data) = fs.map (fun f => .ok (some f)) := by
    apply List.map_congr_left
    intro f hf
    have := (hfs f hf).2.1
    cases f
    simp only [Function.comp] at this ⊢
    subst this
    rfl
  rw [hrec] at h4
  refine ⟨h1, ?_, ?_, ?_, ?_⟩
  · simp only [getFeatureCount, withParams_snd _ _ _ h3]; rfl
  · simp only [getVectSize, withParams_snd _ _ _ h3]; rfl
  · simp only [getFeatureFlags, withParams_snd _ _ _ h3]; rfl
  · exact h4

/-- Witness for C6: two records written little endian into an empty stream of
width 2, then read back after a close. -/
theorem write_read_round_trip_witness :
    (2 < 4294967296 ∧ 100 < 4294967296 ∧ exampleRecords.length < 4294967296 ∧
      ∀ f ∈ exampleRecords, f.data.length = 2 ∧ f.flags = ⟨true, false, true⟩ ∧ f.wellFormed) ∧
    (readSeq (exampleRecords.length + 1) (close (writeSeq exampleRecords
        (FeatureFileReaderSPro4.create "w.prm" (some (emptyStream false 2 ⟨true, false, true⟩ 100))
          true (explicitOrder false) .BUFFER_AUTO 0 8 .ALL_FEATURES 0)).1)).2
      = exampleRecords.map (fun f => .ok (some f)) ++ [.ok none] :=
  ⟨by decide,
    (write_read_round_trip false 2 100 ⟨true, false, true⟩ exampleRecords "w.prm" true
      .BUFFER_AUTO 0 8 .ALL_FEATURES 0 (by decide) (by decide) (by decide)
      (by decide)).2.2.2.2⟩

/-! ## Failed calls -/

theorem readParams_keeps (r : FeatureFileReaderSPro4) :
    (readParams r).1.state.featureIndex? = r.state.featureIndex? ∧
      (readParams r).1.buffer = r.buffer ∧ (readParams r).1.historic = r.historic := by
  rcases readParams_cases r with ⟨d, _, he⟩ | ⟨_, log, e, he⟩ | ⟨hs, m, d, hb, _, _, _, he⟩
  · rw [he]; exact ⟨rfl, rfl, rfl⟩
  · rw [he]; exact ⟨rfl, rfl, rfl⟩
  · rw [he]
    refine ⟨?_, rfl, rfl⟩
    rw [hs]; rfl

theorem serveFeature_error_keeps (r : FeatureFileReaderSPro4) (d : FormatDescriptor)
    (step : Nat) (e : ErrorKind) (h : (serveFeature r d step).2 = .error e) :
    (serveFeature r d step).1.state = r.state ∧ (serveFeature r d step).1.buffer = r.buffer ∧
      (serveFeature r d step).1.historic = r.historic := by
  revert h
  unfold serveFeature
  repeat' split
  all_goals (intro h; first | exact ⟨rfl, rfl, rfl⟩ | simp at h)

theorem storeFeature_error_keeps (r : FeatureFileReaderSPro4) (d : FormatDescriptor)
    (f : Feature) (step : Nat) (e : ErrorKind) (h : (storeFeature r d f step).2 = .error e) :
    (storeFeature r d f step).1.state = r.state ∧
      (storeFeature r d f step).1.buffer = r.buffer ∧
      (storeFeature r d f step).1.historic = r.historic := by
  revert h
  unfold storeFeature
  repeat' split
  all_goals (intro h; first | exact ⟨rfl, rfl, rfl⟩ | simp at h)

/-- C7: when a `readFeature` or a `writeFeature` call fails with an I/O error,
the cursor (`featureIndex`) equals its value before the call, and the buffer
window (its first index, its stored count and its contents) and the historic
window are the ones of before the call. -/
theorem io_failure_keeps_cursor (r : FeatureFileReaderSPro4) (f : Feature) (step : Nat) :
    ((readFeature r step).2 = .error .ioFailure →
      (readFeature r step).1.state.featureIndex? = r.state.featureIndex? ∧
      (readFeature r step).1.buffer = r.buffer ∧
      (readFeature r step).1.buffer.featureIndexOfBuffer = r.buffer.featureIndexOfBuffer ∧
      (readFeature r step).1.buffer.nbStored = r.buffer.nbStored ∧
      (readFeature r step).1.historic = r.historic) ∧
    ((writeFeature r f step).2 = .error .ioFailure →
      (writeFeature r f step).1.state.featureIndex? = r.state.featureIndex? ∧
      (writeFeature r f step).1.buffer = r.buffer ∧
      (writeFeature r f step).1.buffer.featureIndexOfBuffer = r.buffer.featureIndexOfBuffer ∧
      (writeFeature r f step).1.buffer.nbStored = r.buffer.nbStored ∧
      (writeFeature r f step).1.historic = r.historic) := by
  obtain ⟨k1, k2, k3⟩ := readParams_keeps r
  constructor
  · intro h
    unfold readFeature at h ⊢
    split
    · rename_i r1 e he
      rw [he] at k1 k2 k3
      simp only at k1 k2 k3
      simp only [k1, k2, k3, and_self]
    · rename_i r1 d he
      rw [he] at k1 k2 k3
      rw [he] at h
      simp only at k1 k2 k3 h
      obtain ⟨s1, s2, s3⟩ := serveFeature_error_keeps r1 d step _ h
      simp only [s1, s2, s3, k1, k2, k3, and_self]
  · intro h
    unfold writeFeature at h ⊢
    split
    · rename_i r1 e he
      rw [he] at k1 k2 k3
      simp only at k1 k2 k3
      simp only [k1, k2, k3, and_self]
    · rename_i r1 d he
      rw [he] at k1 k2 k3
      rw [he] at h
      simp only at k1 k2 k3 h
      obtain ⟨s1, s2, s3⟩ := storeFeature_error_keeps r1 d f step _ h
      simp only [s1, s2, s3, k1, k2, k3, and_self]

/-- Witness for C7: on the failing medium, with the cursor on frame 0 and the
window on frames 0 to 2, the read and the write of frame 4 both fail with an
I/O error and leave cursor and window as they were. -/
theorem io_failure_keeps_cursor_witness :
    (readFeature faultyReader 4).2 = .error .ioFailure ∧
      (writeFeature faultyReader ⟨[0, 0], ⟨true, false, false⟩⟩ 4).2 = .error .ioFailure ∧
      faultyReader.state.featureIndex? = some 0 ∧ faultyReader.buffer.nbStored = 3 ∧
      (readFeature faultyReader 4).1.state.featureIndex? = faultyReader.state.featureIndex? ∧
      (readFeature faultyReader 4).1.buffer = faultyReader.buffer ∧
      (writeFeature faultyReader ⟨[0, 0], ⟨true, false, false⟩⟩ 4).1.state.featureIndex?
        = faultyReader.state.featureIndex? ∧
      (writeFeature faultyReader ⟨[0, 0], ⟨true, false, false⟩⟩ 4).1.buffer
        = faultyReader.buffer :=
  ⟨by decide, by decide, by decide, by decide,
    ((io_failure_keeps_cursor faultyReader ⟨[0, 0], ⟨true, false, false⟩⟩ 4).1 (by decide)).1,
    ((io_failure_keeps_cursor faultyReader ⟨[0, 0], ⟨true, false, false⟩⟩ 4).1 (by decide)).2.1,
    ((io_failure_keeps_cursor faultyReader ⟨[0, 0], ⟨true, false, false⟩⟩ 4).2 (by decide)).1,
    ((io_failure_keeps_cursor faultyReader ⟨[0, 0], ⟨true, false, false⟩⟩ 4).2 (by decide)).2.1⟩

/-! ## Frame offsets and lazy open -/

theorem decodeFrames_events (m : Medium) (d : FormatDescriptor) (n : Nat) :
    ∀ i, ∃ k, k ≤ n ∧ (decodeFrames m d i n).1 = frameReads d i k := by
  induction n with
  | zero => intro i; exact ⟨0, Nat.le_refl _, rfl⟩
  | succ n ih =>
    intro i
    simp only [decodeFrames]
    split
    · exact ⟨1, by omega, rfl⟩
    · exact ⟨1, by omega, rfl⟩
    · obtain ⟨k, hk, he⟩ := ih (i + 1)
      split
      · rename_i evs e hrec
        rw [hrec] at he
        exact ⟨k + 1, by omega, by simp only [frameReads]; rw [← he]⟩
      · rename_i evs frs hrec
        rw [hrec] at he
        exact ⟨k + 1, by omega, by simp only [frameReads]; rw [← he]⟩

theorem serveFeature_events (r : FeatureFileReaderSPro4) (d : FormatDescriptor) (step : Nat) :
    ∃ k, (serveFeature r d step).1.ioLog
      = r.ioLog ++ frameReads d (addressedIndex r.state step) k := by
  unfold serveFeature
  split
  · exact ⟨0, by simp [frameReads]⟩
  · split
    · exact ⟨0, by simp [frameReads]⟩
    · split
      · exact ⟨0, by simp [frameReads]⟩
      · split
        · exact ⟨0, by simp [frameReads]⟩
        · rename_i m hf
          obtain ⟨k, _, he⟩ := decodeFrames_events m d
            (windowLength r d (addressedIndex r.state step)) (addressedIndex r.state step)
          split <;> (rename_i hdec; rw [hdec] at he; exact ⟨k, by rw [← he]⟩)

theorem storeFeature_events (r : FeatureFileReaderSPro4) (d : FormatDescriptor) (f : Feature)
    (step : Nat) :
    (storeFeature r d f step).1.ioLog = r.ioLog ∨
      (storeFeature r d f step).1.ioLog = r.ioLog ++
        [.write (frameOffset d (addressedIndex r.state step)) (frameByteSize d)] ∨
      (storeFeature r d f step).1.ioLog = r.ioLog ++
        [.write (frameOffset d (addressedIndex r.state step)) (frameByteSize d),
         .write featureCountOffset 4] := by
  unfold storeFeature
  repeat' split
  all_goals first
    | exact Or.inl rfl
    | exact Or.inr (Or.inl rfl)
    | exact Or.inr (Or.inr rfl)

/-- C9: with the descriptor `d` of a reader, frame `i` starts at the byte
offset `headerLength + i * frameByteSize`, where `frameByteSize` is 4 times
the number of stored coefficients; frame 0 starts right after the header, each
frame ends where the next one starts, and the frames occupy disjoint byte
ranges.  These are the offsets the reader uses: the calls a `readFeature`
makes on the underlying reader are reads of one frame each, at the offsets of
consecutive frames from the addressed one on, and a `writeFeature` writes the
addressed frame at its offset (and then, when the stream grows, the frame
count field of the header). -/
theorem frame_offsets (r : FeatureFileReaderSPro4) (d : FormatDescriptor)
    (hd : r.state.descriptor? = some d) (f : Feature) (step : Nat) :
    (∀ i, frameOffset d i = d.headerLength + i * frameByteSize d) ∧
    frameByteSize d = 4 * d.vectSize ∧
    frameOffset d 0 = d.headerLength ∧
    (∀ i, frameOffset d (i + 1) = frameOffset d i + frameByteSize d) ∧
    (∀ i j, i < j → frameOffset d i + frameByteSize d ≤ frameOffset d j) ∧
    (∃ k, (readFeature r step).1.ioLog
      = r.ioLog ++ frameReads d (addressedIndex r.state step) k) ∧
    ((writeFeature r f step).1.ioLog = r.ioLog ∨
      (writeFeature r f step).1.ioLog = r.ioLog ++
        [.write (d.headerLength + addressedIndex r.state step * (4 * d.vectSize))
          (4 * d.vectSize)] ∨
      (writeFeature r f step).1.ioLog = r.ioLog ++
        [.write (d.headerLength + addressedIndex r.state step * (4 * d.vectSize))
          (4 * d.vectSize),
         .write featureCountOffset 4]) := by
  refine ⟨fun _ => rfl, rfl, by simp [frameOffset], frameOffset_succ d,
    frameOffset_lt d, ?_, ?_⟩
  · rw [readFeature_of_desc r d step hd]
    exact serveFeature_events r d step
  · have e : writeFeature r f step = storeFeature r d f step := by
      unfold writeFeature
      rw [readParams_of_desc r d hd]
    rw [e]
    exact storeFeature_events r d f step

/-- Witness for C9: on the two-source example with its header parsed, the
read of frame 4 reads the frames 4, 5 and 6 at the offsets 48, 56 and 64; the
frame byte size is 8 and the header length 16. -/
theorem frame_offsets_witness :
    (readParams exampleReader).1.state.descriptor? = some exampleDescriptor ∧
      (readFeature (readParams exampleReader).1 5).1.ioLog
        = (readParams exampleReader).1.ioLog ++ [.read 48 8, .read 56 8, .read 64 8] ∧
      frameByteSize exampleDescriptor = 4 * exampleDescriptor.vectSize ∧
      frameOffset exampleDescriptor 0 = exampleDescriptor.headerLength :=
  ⟨by decide, by decide,
    (frame_offsets (readParams exampleReader).1 exampleDescriptor (by decide)
      ⟨[0, 0], ⟨true, false, false⟩⟩ 5).2.1,
    (frame_offsets (readParams exampleReader).1 exampleDescriptor (by decide)
      ⟨[0, 0], ⟨true, false, false⟩⟩ 5).2.2.1⟩

/-- C10 as stated fails: on a freshly constructed reader, which has performed
no I/O, a call of `getSampleRate` (none of `readFeature`, `getFeatureCount`,
`getVectSize`, `getFeatureFlags`) opens the file and parses the header. -/
theorem lazy_open_counterexample :
    exampleReader.ioLog = [] ∧ exampleReader.paramDefined = false ∧
      (getSampleRate exampleReader).1.ioLog = [.open, .read 0 getHeaderLength] ∧
      (getSampleRate exampleReader).1.isOpen = true ∧
      (getSampleRate exampleReader).1.paramDefined = true := by
  decide

/-- C10, amended: constructing a reader performs no I/O (no call is made on
the underlying reader, no handle is held, no header is parsed), and neither do
`close` and `setExternalBufferToUse` on the constructed reader.  On a reader
`r` whose header is not parsed and can be parsed as `d`, the first call of any
function that needs the header (`readFeature`, `writeFeature`,
`getFeatureCount`, `getVectSize`, `getFeatureFlags`, `getSampleRate`,
`getSourceCount`) opens the file and reads the header once, before anything
else.  On a reader whose header `d2` is parsed, the metadata calls return the
cached values of `d2` and leave the reader as it is: nothing is read again. -/
theorem lazy_open (fileName : String) (file : Option Medium) (nativeBigEndian : Bool)
    (be : BigEndian) (b : BufferUsage) (bufferSize autoBufferSize : Nat) (h : HistoricUsage)
    (historicSize size : Nat) (r : FeatureFileReaderSPro4) (d : FormatDescriptor)
    (hs : r.state = .Unopened) (hok : (readParams r).2 = .ok d) (f : Feature) (step : Nat)
    (r2 : FeatureFileReaderSPro4) (d2 : FormatDescriptor)
    (hd2 : r2.state.descriptor? = some d2) :
    ((FeatureFileReaderSPro4.create fileName file nativeBigEndian be b bufferSize
        autoBufferSize h historicSize).ioLog = [] ∧
      (FeatureFileReaderSPro4.create fileName file nativeBigEndian be b bufferSize
        autoBufferSize h historicSize).isOpen = false ∧
      (FeatureFileReaderSPro4.create fileName file nativeBigEndian be b bufferSize
        autoBufferSize h historicSize).paramDefined = false ∧
      (close (FeatureFileReaderSPro4.create fileName file nativeBigEndian be b bufferSize
        autoBufferSize h historicSize)).ioLog = [] ∧
      (setExternalBufferToUse (FeatureFileReaderSPro4.create fileName file nativeBigEndian be b
        bufferSize autoBufferSize h historicSize) size).ioLog = []) ∧
    ((getFeatureCount r).1.ioLog = r.ioLog ++ [.open, .read 0 getHeaderLength] ∧
      (getVectSize r).1.ioLog = r.ioLog ++ [.open, .read 0 getHeaderLength] ∧
      (getFeatureFlags r).1.ioLog = r.ioLog ++ [.open, .read 0 getHeaderLength] ∧
      (getSampleRate r).1.ioLog = r.ioLog ++ [.open, .read 0 getHeaderLength] ∧
      (getSourceCount r).1.ioLog = r.ioLog ++ [.open, .read 0 getHeaderLength] ∧
      (getFeatureCount r).1.paramDefined = true ∧
      (getFeatureCount r).2 = .ok d.featureCount ∧ (getVectSize r).2 = .ok d.vectSize ∧
      (getFeatureFlags r).2 = .ok d.flags ∧ (getSampleRate r).2 = .ok d.sampleRate ∧
      (∃ rest, (readFeature r step).1.ioLog
        = r.ioLog ++ [.open, .read 0 getHeaderLength] ++ rest) ∧
      (∃ rest, (writeFeature r f step).1.ioLog
        = r.ioLog ++ [.open, .read 0 getHeaderLength] ++ rest)) ∧
    (getFeatureCount r2 = (r2, .ok d2.featureCount) ∧ getVectSize r2 = (r2, .ok d2.vectSize) ∧
      getFeatureFlags r2 = (r2, .ok d2.flags) ∧ getSampleRate r2 = (r2, .ok d2.sampleRate) ∧
      getSourceCount r2 = (r2, .ok d2.sources.length) ∧ readParams r2 = (r2, .ok d2)) := by
  refine ⟨⟨rfl, rfl, rfl, rfl, rfl⟩, ?_, ?_⟩
  · have hp : readParams r =
        ({ r with isOpen := true, state := .HeaderParsed d,
                  ioLog := r.ioLog ++ [.open, .read 0 getHeaderLength] }, .ok d) := by
      rcases readParams_cases r with ⟨d3, hd3, _⟩ | ⟨_, log, e, he⟩ | ⟨_, m, d3, hb, _, _, _, he⟩
      · rw [hs] at hd3; cases hd3
      · rw [he] at hok; cases hok
      · rw [he] at hok ⊢
        cases hok; rfl
    have hw : ∀ {α : Type} (k : FormatDescriptor → Except ErrorKind α),
        withParams r k =
          ({ r with isOpen := true, state := .HeaderParsed d,
                    ioLog := r.ioLog ++ [.open, .read 0 getHeaderLength] }, k d) := by
      intro α k
      unfold withParams
      rw [hp]
    simp only [getFeatureCount, getVectSize, getFeatureFlags, getSampleRate, getSourceCount, hw]
    refine ⟨trivial, trivial, trivial, trivial, trivial, rfl, trivial, trivial, trivial,
      trivial, ?_, ?_⟩
    · unfold readFeature
      rw [hp]
      obtain ⟨k, hk⟩ := serveFeature_events
        { r with isOpen := true, state := .HeaderParsed d,
                 ioLog := r.ioLog ++ [.open, .read 0 getHeaderLength] } d step
      exact ⟨_, hk⟩
    · unfold writeFeature
      rw [hp]
      rcases storeFeature_events
        { r with isOpen := true, state := .HeaderParsed d,
                 ioLog := r.ioLog ++ [.open, .read 0 getHeaderLength] } d f step
        with hk | hk | hk
      · exact ⟨[], by rw [hk]; simp⟩
      · exact ⟨_, hk⟩
      · exact ⟨_, hk⟩
  · simp only [getFeatureCount, getVectSize, getFeatureFlags, getSampleRate, getSourceCount,
      withParams_of_desc r2 d2 _ hd2, readParams_of_desc r2 d2 hd2, and_self]

/-- Witness for C10: the two-source example, before and after its header is
parsed. -/
theorem lazy_open_witness :
    exampleReader.state = .Unopened ∧
      (readParams exampleReader).2 = .ok exampleDescriptor ∧
      (readParams exampleReader).1.state.descriptor? = some exampleDescriptor ∧
      (getFeatureCount exampleReader).1.ioLog
        = exampleReader.ioLog ++ [.open, .read 0 getHeaderLength] ∧
      getVectSize (readParams exampleReader).1
        = ((readParams exampleReader).1, .ok exampleDescriptor.vectSize) :=
  ⟨rfl, by decide, by decide,
    (lazy_open "ab.prm" none false .BIGENDIAN_AUTO .BUFFER_AUTO 0 0 .ALL_FEATURES 0 0
      exampleReader exampleDescriptor rfl (by decide) ⟨[], ⟨false, false, false⟩⟩ 1
      (readParams exampleReader).1 exampleDescriptor (by decide)).2.1.1,
    (lazy_open "ab.prm" none false .BIGENDIAN_AUTO .BUFFER_AUTO 0 0 .ALL_FEATURES 0 0
      exampleReader exampleDescriptor rfl (by decide) ⟨[], ⟨false, false, false⟩⟩ 1
      (readParams exampleReader).1 exampleDescriptor (by decide)).2.2.2.1⟩

/-! ## Dense matrices: element access, transposition, product and sum -/

theorem loop_inv {σ : Type} (body : Nat → σ → σ) (P : Nat → σ → Prop) :
    ∀ (n lo : Nat) (s : σ), P lo s →
      (∀ i s, lo ≤ i → i < lo + n → P i s → P (i + 1) (body i s)) →
      P (lo + n) (loop body lo n s) := by
  intro n
  induction n with
  | zero => intro lo s h _; simpa [loop] using h
  | succ n ih =>
    intro lo s h hstep
    have h1 := hstep lo s (Nat.le_refl _) (by omega) h
    have := ih (lo + 1) (body lo s) h1 (fun i s hi hlt hp => hstep i s (by omega) (by omega) hp)
    have e : lo + 1 + n = lo + (n + 1) := by omega
    rw [e] at this
    simpa [loop] using this

theorem pos_inj (n r c r2 c2 : Nat) (hr : r < n) (hr2 : r2 < n)
    (h : r + c * n = r2 + c2 * n) : r = r2 ∧ c = c2 := by
  have h1 : (r + c * n) % n = r := by
    rw [Nat.add_mul_mod_self_right, Nat.mod_eq_of_lt hr]
  have h2 : (r2 + c2 * n) % n = r2 := by
    rw [Nat.add_mul_mod_self_right, Nat.mod_eq_of_lt hr2]
  have hrr : r = r2 := by rw [← h1, ← h2, h]
  subst hrr
  have hn : 0 < n := by omega
  have : c * n = c2 * n := by omega
  exact ⟨rfl, Nat.eq_of_mul_eq_mul_right hn this⟩

theorem pos_lt (n k r c : Nat) (hr : r < n) (hc : c < k) : r + c * n < k * n := by
  have : (c + 1) * n ≤ k * n := Nat.mul_le_mul_right _ hc
  rw [Nat.succ_mul] at this
  omega

theorem vectorAt_ok {T : Type} (a : List T) (i : Nat) (v : T) (h : a.get? i = some v) :
    vectorAt a i = .ok v := by
  unfold vectorAt
  rw [h]

theorem get_eq {T : Type} (m : Matrix T) (row col : Nat) (hr : row < m.rows)
    (hc : col < m.cols) : m.get row col = vectorAt m.array (row * m.cols + col) := by
  simp [Matrix.get, assertIsInBounds, hr, hc]

theorem rawAt_get? {T : Type} [Inhabited T] (a : List T) (i : Nat) (h : i < a.length) :
    a.get? i = some (rawAt a i) := by
  simp [rawAt, List.getD_eq_getElem?_getD, List.getElem?_eq_getElem h]

theorem transpose_array {T : Type} [Inhabited T] (m : Matrix T) (h : m.wf) :
    m.transpose.array.length = m.rows * m.cols ∧
      ∀ r c, r < m.rows → c < m.cols →
        m.transpose.array.get? (r + c * m.rows) = some (rawAt m.array (c + r * m.cols)) := by
  have hout := loop_inv
    (fun r (st : List T × Nat) =>
        ((loop (fun c (st2 : List T × Nat) =>
            (st2.1.set (r + st2.2) (rawAt m.array (c + st.2)), st2.2 + m.rows))
          0 m.cols (st.1, 0)).1, st.2 + m.cols))
    (fun r st => st.2 = r * m.cols ∧ st.1.length = m.rows * m.cols ∧
      ∀ r2 c, r2 < r → c < m.cols →
        st.1.get? (r2 + c * m.rows) = some (rawAt m.array (c + r2 * m.cols)))
    m.rows 0 (m.array, 0) ⟨by simp, h, by intro r2 c hr2; omega⟩
    (by
      intro r st _ hr ⟨hrr, hlen, hprev⟩
      have hin := loop_inv
        (fun c (st2 : List T × Nat) =>
            (st2.1.set (r + st2.2) (rawAt m.array (c + st.2)), st2.2 + m.rows))
        (fun c st2 => st2.2 = c * m.rows ∧ st2.1.length = m.rows * m.cols ∧
          (∀ r2 c2, r2 < r → c2 < m.cols →
            st2.1.get? (r2 + c2 * m.rows) = some (rawAt m.array (c2 + r2 * m.cols))) ∧
          ∀ c2, c2 < c →
            st2.1.get? (r + c2 * m.rows) = some (rawAt m.array (c2 + r * m.cols)))
        m.cols 0 (st.1, 0) ⟨by simp, hlen, hprev, by intro c2 hc2; omega⟩
        (by
          intro c st2 _ hc ⟨hcc, hlen2, hprev2, hrow⟩
          have hpos : r + c * m.rows < st2.1.length := by
            rw [hlen2, Nat.mul_comm m.rows m.cols]
            exact pos_lt _ _ _ _ (by omega) (by omega)
          refine ⟨by simp only [hcc, Nat.succ_mul], by simpa using hlen2, ?_, ?_⟩
          · intro r2 c2 hr2 hc2
            simp only [List.get?_eq_getElem?, hcc]
            rw [List.getElem?_set]
            have hne : ¬ (r + c * m.rows = r2 + c2 * m.rows) := by
              intro he
              have := pos_inj _ _ _ _ _ (by omega) (by omega) he
              omega
            simp only [hne, if_false]
            simpa using hprev2 r2 c2 hr2 hc2
          · intro c2 hc2
            simp only [List.get?_eq_getElem?, hcc]
            rw [List.getElem?_set]
            by_cases he : c2 = c
            · subst he
              simp [hpos, hrr]
            · have hne : ¬ (r + c * m.rows = r + c2 * m.rows) := by
                intro he2
                have := pos_inj _ _ _ _ _ (by omega) (by omega) he2
                omega
              simp only [hne, if_false]
              simpa using hrow c2 (by omega))
      simp only [Nat.zero_add] at hin
      obtain ⟨_, hl, hp, hrow⟩ := hin
      refine ⟨by simp only [hrr, Nat.succ_mul], hl, ?_⟩
      intro r2 c hr2 hc
      by_cases he : r2 = r
      · subst he; exact hrow c hc
      · exact hp r2 c (by omega) hc)
  simp only [Nat.zero_add] at hout
  exact ⟨hout.2.1, fun r c hr hc => hout.2.2 r c hr hc⟩

/-- C12: for every `r x c` matrix (whose array holds its `r * c` elements),
the in-place `transpose()` yields a `c x r` matrix, whose array again holds
all its elements, and whose element `(j, i)` is the original element `(i, j)`
for all `i < r` and `j < c`. -/
theorem transpose_spec {T : Type} [Inhabited T] (m : Matrix T) (h : m.wf) :
    m.transpose.rows = m.cols ∧ m.transpose.cols = m.rows ∧ m.transpose.wf ∧
      ∀ i j, i < m.rows → j < m.cols →
        m.transpose.get j i = m.get i j ∧ ∃ v, m.get i j = .ok v := by
  obtain ⟨hlen, hel⟩ := transpose_array m h
  refine ⟨rfl, rfl, ?_, ?_⟩
  · show m.transpose.array.length = m.cols * m.rows
    rw [hlen, Nat.mul_comm]
  · intro i j hi hj
    have hpos : i * m.cols + j < m.array.length := by
      rw [h, Nat.add_comm]
      exact pos_lt _ _ _ _ hj hi
    have h1 : m.get i j = .ok (rawAt m.array (i * m.cols + j)) := by
      rw [get_eq m i j hi hj]
      exact vectorAt_ok _ _ _ (rawAt_get? _ _ hpos)
    refine ⟨?_, _, h1⟩
    rw [h1, get_eq m.transpose j i (by exact hj) (by exact hi)]
    apply vectorAt_ok
    have := hel i j hi hj
    rw [Nat.add_comm j, Nat.add_comm i] at this
    exact this

theorem mul_inner {T : Type} [Inhabited T] [Add T] [Mul T] (p : List T) (pos D : Nat)
    (x y : Nat → T) (hpos : pos < p.length) (n : Nat) :
    let r := loop (fun k (st3 : List T × Nat) =>
        (st3.1.set pos (rawAt st3.1 pos + x k * y st3.2), st3.2 + D)) 0 n (p, 0)
    r.1.length = p.length ∧ (∀ q, q ≠ pos → r.1[q]? = p[q]?) ∧
      r.1[pos]? = some ((List.range n).foldl (fun acc k => acc + x k * y (k * D)) (rawAt p pos)) := by
  have h := loop_inv
    (fun k (st3 : List T × Nat) =>
        (st3.1.set pos (rawAt st3.1 pos + x k * y st3.2), st3.2 + D))
    (fun k st => st.2 = k * D ∧ st.1.length = p.length ∧ (∀ q, q ≠ pos → st.1[q]? = p[q]?) ∧
      st.1[pos]? = some ((List.range k).foldl (fun acc k => acc + x k * y (k * D)) (rawAt p pos)))
    n 0 (p, 0)
    ⟨by simp, rfl, fun _ _ => rfl, by
      simpa using rawAt_get? p pos hpos⟩
    (by
      intro k st _ _ ⟨h2, hl, ho, hv⟩
      refine ⟨by simp only [h2, Nat.succ_mul], by simpa using hl, ?_, ?_⟩
      · intro q hq
        simp only [List.getElem?_set]
        rw [if_neg (fun e => hq e.symm)]
        exact ho q hq
      · have hr : rawAt st.1 pos =
            (List.range k).foldl (fun acc k => acc + x k * y (k * D)) (rawAt p pos) := by
          simp only [rawAt, List.getD_eq_getElem?_getD, hv, Option.getD_some]
        simp only [List.getElem?_set, if_true, hl, hpos, List.range_succ, List.foldl_append,
          List.foldl_cons, List.foldl_nil, hr, h2])
  simp only [Nat.zero_add] at h
  exact ⟨h.2.1, h.2.2.1, h.2.2.2⟩


theorem mul_array {T : Type} [Inhabited T] [Zero T] [Add T] [Mul T] (a m : Matrix T) :
    let p := (loop (fun _ (st : List T × Nat × Nat) =>
        (loop (fun j (pTmp : List T) =>
          (loop (fun k (st3 : List T × Nat) =>
            (st3.1.set (st.2.2 + j)
              (rawAt st3.1 (st.2.2 + j) + rawAt a.array (st.2.1 + k) * rawAt m.array (st3.2 + j)),
              st3.2 + m.cols))
            0 a.cols (pTmp, 0)).1)
          0 m.cols st.1, st.2.1 + a.cols, st.2.2 + m.cols))
        0 a.rows (List.replicate (a.rows * m.cols) 0, 0, 0)).1
    p.length = a.rows * m.cols ∧
      ∀ i j, i < a.rows → j < m.cols →
        p[j + i * m.cols]? = some ((List.range a.cols).foldl
          (fun acc k => acc + rawAt a.array (i * a.cols + k) * rawAt m.array (k * m.cols + j)) 0) := by
  have hout := loop_inv
    (fun _ (st : List T × Nat × Nat) =>
        (loop (fun j (pTmp : List T) =>
          (loop (fun k (st3 : List T × Nat) =>
            (st3.1.set (st.2.2 + j)
              (rawAt st3.1 (st.2.2 + j) + rawAt a.array (st.2.1 + k) * rawAt m.array (st3.2 + j)),
              st3.2 + m.cols))
            0 a.cols (pTmp, 0)).1)
          0 m.cols st.1, st.2.1 + a.cols, st.2.2 + m.cols))
    (fun i st => st.2.1 = i * a.cols ∧ st.2.2 = i * m.cols ∧ st.1.length = a.rows * m.cols ∧
      ∀ i2 j, i2 < a.rows → j < m.cols →
        st.1[j + i2 * m.cols]? = some (if i2 < i then (List.range a.cols).foldl
          (fun acc k => acc + rawAt a.array (i2 * a.cols + k) * rawAt m.array (k * m.cols + j)) 0
          else 0))
    a.rows 0 (List.replicate (a.rows * m.cols) 0, 0, 0)
    ⟨by simp, by simp, by simp, by
      intro i2 j hi2 hj
      have hp : j + i2 * m.cols < a.rows * m.cols := pos_lt _ _ _ _ hj hi2
      simp [List.getElem?_replicate, hp]⟩
    (by
      intro i st _ hi ⟨hic, hitc, hlen, hel⟩
      have hmid := loop_inv
        (fun j (pTmp : List T) =>
          (loop (fun k (st3 : List T × Nat) =>
            (st3.1.set (st.2.2 + j)
              (rawAt st3.1 (st.2.2 + j) + rawAt a.array (st.2.1 + k) * rawAt m.array (st3.2 + j)),
              st3.2 + m.cols))
            0 a.cols (pTmp, 0)).1)
        (fun j p => p.length = a.rows * m.cols ∧
          ∀ i2 j2, i2 < a.rows → j2 < m.cols →
            p[j2 + i2 * m.cols]? = some (if i2 < i ∨ (i2 = i ∧ j2 < j) then
              (List.range a.cols).foldl
                (fun acc k => acc + rawAt a.array (i2 * a.cols + k) * rawAt m.array (k * m.cols + j2)) 0
              else 0))
        m.cols 0 st.1
        ⟨hlen, by
          intro i2 j2 hi2 hj2
          rw [hel i2 j2 hi2 hj2]
          have e : (i2 < i ∨ (i2 = i ∧ j2 < 0)) ↔ i2 < i := by omega
          simp only [e]⟩
        (by
          intro j p _ hj ⟨hl, he⟩
          have hpos : st.2.2 + j < p.length := by
            rw [hl, hitc, Nat.add_comm]
            exact pos_lt _ _ _ _ (by omega) (by omega)
          obtain ⟨h1, h2, h3⟩ := mul_inner p (st.2.2 + j) m.cols
            (fun k => rawAt a.array (st.2.1 + k)) (fun kc => rawAt m.array (kc + j)) hpos a.cols
          refine ⟨h1.trans hl, ?_⟩
          intro i2 j2 hi2 hj2
          by_cases hc : i2 = i ∧ j2 = j
          · obtain ⟨rfl, rfl⟩ := hc
            have e : j2 + i2 * m.cols = st.2.2 + j2 := by rw [hitc, Nat.add_comm]
            rw [e]
            refine h3.trans ?_
            have hz : rawAt p (st.2.2 + j2) = 0 := by
              have := he i2 j2 hi2 hj2
              rw [e] at this
              simp only [rawAt, List.getD_eq_getElem?_getD, this, Option.getD_some]
              rw [if_neg (by omega)]
            rw [hz, if_pos (by omega), hic]
          · have hne : j2 + i2 * m.cols ≠ st.2.2 + j := by
              intro e
              rw [hitc, Nat.add_comm (i * m.cols)] at e
              have := pos_inj _ _ _ _ _ (by omega) (by omega) e
              omega
            refine (h2 _ hne).trans ?_
            rw [he i2 j2 hi2 hj2]
            have e : (i2 < i ∨ (i2 = i ∧ j2 < j + 1)) ↔ (i2 < i ∨ (i2 = i ∧ j2 < j)) := by omega
            simp only [e])
      simp only [Nat.zero_add] at hmid
      refine ⟨by simp only [hic, Nat.succ_mul], by simp only [hitc, Nat.succ_mul], hmid.1, ?_⟩
      intro i2 j hi2 hj
      rw [hmid.2 i2 j hi2 hj]
      have e : (i2 < i ∨ (i2 = i ∧ j < m.cols)) ↔ i2 < i + 1 := by omega
      simp only [e])
  simp only [Nat.zero_add] at hout
  refine ⟨hout.2.2.1, ?_⟩
  intro i j hi hj
  have := hout.2.2.2 i j hi hj
  rw [if_pos hi] at this
  exact this

theorem get_ok {T : Type} [Inhabited T] (m : Matrix T) (h : m.wf) (i j : Nat)
    (hi : i < m.rows) (hj : j < m.cols) :
    m.get i j = .ok (rawAt m.array (i * m.cols + j)) := by
  have hpos : i * m.cols + j < m.array.length := by
    rw [h, Nat.add_comm]
    exact pos_lt _ _ _ _ hj hi
  rw [get_eq m i j hi hj]
  exact vectorAt_ok _ _ _ (rawAt_get? _ _ hpos)

/-- C11: for all matrices `a` (`r x c`) and `m` (`c2 x d`) whose arrays hold
their elements, `a * m` raises `Exception` exactly when `c` differs from `c2`;
otherwise, the number `r * d` of elements of the result being below `2 ^ 64`,
it returns an `r x d` matrix whose element `(i, j)` is the sum of the products
`a(i, k) * m(k, j)`, added to zero for `k = 0, ..., c - 1` in that order.  The
operands are arguments of a function that returns only the product: they are
not changed. -/
theorem mul_spec {T : Type} [Inhabited T] [Zero T] [Add T] [Mul T] (a m : Matrix T)
    (ha : a.wf) (hm : m.wf) (hsz : a.rows * m.cols < 2 ^ 64) :
    (a.mul m = .error .Exception ↔ a.cols ≠ m.rows) ∧
      (a.cols = m.rows → ∃ res, a.mul m = .ok res ∧ res.rows = a.rows ∧ res.cols = m.cols ∧
        res.wf ∧
        ∀ i j, i < a.rows → j < m.cols →
          ∃ x y : Nat → T, (∀ k, k < a.cols → a.get i k = .ok (x k)) ∧
            (∀ k, k < a.cols → m.get k j = .ok (y k)) ∧
            res.get i j = .ok ((List.range a.cols).foldl (fun acc k => acc + x k * y k) 0)) := by
  constructor
  · unfold Matrix.mul
    split <;> simp_all
  · intro hc
    obtain ⟨hlen, hel⟩ := mul_array a m
    unfold Matrix.mul
    rw [if_neg (by simpa using hc), Nat.mod_eq_of_lt hsz]
    refine ⟨_, rfl, rfl, rfl, hlen, ?_⟩
    intro i j hi hj
    refine ⟨fun k => rawAt a.array (i * a.cols + k), fun k => rawAt m.array (k * m.cols + j),
      fun k hk => get_ok a ha i k hi hk, fun k hk => get_ok m hm k j (by omega) hj, ?_⟩
    rw [get_eq _ i j (by exact hi) (by exact hj)]
    apply vectorAt_ok
    have := hel i j hi hj
    rw [Nat.add_comm] at this
    simpa using this


/-- C14: for every matrix with `r` rows and `c` columns whose array holds its
`r * c` elements, `operator()(row, col)` raises `IndexOutOfBoundsException`
exactly when `row >= r` or `col >= c` (and raises nothing else); otherwise the
position `row * c + col` lies within the array and the element stored there is
returned. -/
theorem get_spec {T : Type} (m : Matrix T) (h : m.wf) (row col : Nat) :
    (m.get row col = .error .IndexOutOfBoundsException ↔ (m.rows ≤ row ∨ m.cols ≤ col)) ∧
      (∀ e, m.get row col = .error e → e = .IndexOutOfBoundsException) ∧
      (row < m.rows → col < m.cols →
        ∃ hpos : row * m.cols + col < m.array.length,
          m.get row col = .ok (m.array.get ⟨row * m.cols + col, hpos⟩)) := by
  have key : row < m.rows → col < m.cols →
      ∃ hpos : row * m.cols + col < m.array.length,
        m.get row col = .ok (m.array.get ⟨row * m.cols + col, hpos⟩) := by
    intro hr hc
    have hpos : row * m.cols + col < m.array.length := by
      rw [h, Nat.add_comm]
      exact pos_lt _ _ _ _ hc hr
    refine ⟨hpos, ?_⟩
    rw [get_eq m row col hr hc]
    apply vectorAt_ok
    simp [List.getElem?_eq_getElem hpos]
  refine ⟨?_, ?_, key⟩
  · constructor
    · intro he
      by_contra hn
      obtain ⟨_, hk⟩ := key (by omega) (by omega)
      rw [hk] at he
      cases he
    · intro hb
      unfold Matrix.get assertIsInBounds
      by_cases hc : col < m.cols
      · have hr : ¬ row < m.rows := by omega
        simp [hc, hr]
      · simp [hc]
  · intro e he
    by_cases hr : row < m.rows
    · by_cases hc : col < m.cols
      · obtain ⟨_, hk⟩ := key hr hc
        rw [hk] at he
        cases he
      · unfold Matrix.get assertIsInBounds at he
        simp [hc] at he
        exact he.symm
    · unfold Matrix.get assertIsInBounds at he
      by_cases hc : col < m.cols
      · simp [hc, hr] at he
        exact he.symm
      · simp [hc] at he
        exact he.symm

theorem get_spec_witness :
    exampleMatrixA.wf ∧
      exampleMatrixA.get 1 2 = .ok 6 ∧
      (exampleMatrixA.get 2 0 = .error .IndexOutOfBoundsException ↔
        (exampleMatrixA.rows ≤ 2 ∨ exampleMatrixA.cols ≤ 0)) ∧
      (exampleMatrixA.get 1 3 = .error .IndexOutOfBoundsException ↔
        (exampleMatrixA.rows ≤ 1 ∨ exampleMatrixA.cols ≤ 3)) :=
  ⟨by decide, by decide, (get_spec exampleMatrixA (by decide) 2 0).1,
    (get_spec exampleMatrixA (by decide) 1 3).1⟩

theorem vectorAdd_get? {T : Type} [Inhabited T] [Add T] (a b : List T) (i : Nat)
    (ha : i < a.length) (hb : i < b.length) :
    (vectorAdd a b).get? i = some (rawAt a i + rawAt b i) := by
  simp [vectorAdd, rawAt, List.getElem?_zipWith, List.getElem?_eq_getElem ha,
    List.getElem?_eq_getElem hb, List.getD_eq_getElem?_getD]

/-- C16: for all matrices `a` and `m` whose arrays hold their elements,
`a += m` raises `Exception` exactly when `a` and `m` differ in number of rows
or number of columns, and `a` is then unchanged; otherwise nothing is raised,
`a` keeps its dimensions and each element `(i, j)` of `a` becomes the old
`a(i, j) + m(i, j)`. -/
theorem addAssign_spec {T : Type} [Inhabited T] [Add T] (a m : Matrix T) (ha : a.wf) (hm : m.wf) :
    ((a.addAssign m).2 = .error .Exception ↔ (a.rows ≠ m.rows ∨ a.cols ≠ m.cols)) ∧
      ((a.rows ≠ m.rows ∨ a.cols ≠ m.cols) → (a.addAssign m).1 = a) ∧
      (a.rows = m.rows → a.cols = m.cols →
        (a.addAssign m).2 = .ok () ∧ (a.addAssign m).1.rows = a.rows ∧
          (a.addAssign m).1.cols = a.cols ∧ (a.addAssign m).1.wf ∧
          ∀ i j, i < a.rows → j < a.cols →
            ∃ x y, a.get i j = .ok x ∧ m.get i j = .ok y ∧
              (a.addAssign m).1.get i j = .ok (x + y)) := by
  refine ⟨?_, ?_, ?_⟩
  · unfold Matrix.addAssign
    by_cases hd : a.cols ≠ m.cols ∨ a.rows ≠ m.rows
    · rw [if_pos hd]
      simp only [true_iff]
      omega
    · rw [if_neg hd]
      simp only [reduceCtorEq, false_iff]
      omega
  · intro hd
    unfold Matrix.addAssign
    rw [if_pos (by omega)]
  · intro hr hc
    have hd : ¬ (a.cols ≠ m.cols ∨ a.rows ≠ m.rows) := by omega
    have hres : a.addAssign m = ({ a with array := vectorAdd a.array m.array }, .ok ()) := by
      unfold Matrix.addAssign
      rw [if_neg hd]
    have hlen : (vectorAdd a.array m.array).length = a.rows * a.cols := by
      have h1 : a.array.length = a.rows * a.cols := ha
      have h2 : m.array.length = a.rows * a.cols := by rw [hr, hc]; exact hm
      simp [vectorAdd, h1, h2]
    rw [hres]
    refine ⟨rfl, rfl, rfl, hlen, ?_⟩
    intro i j hi hj
    have hpos : i * a.cols + j < a.rows * a.cols := by
      rw [Nat.add_comm]
      exact pos_lt _ _ _ _ hj hi
    refine ⟨_, _, get_ok a ha i j hi hj, get_ok m hm i j (by omega) (by omega), ?_⟩
    rw [get_eq _ i j (by exact hi) (by exact hj)]
    apply vectorAt_ok
    show (vectorAdd a.array m.array).get? (i * a.cols + j) = _
    rw [← hc]
    exact vectorAdd_get? _ _ _ (by rw [ha]; exact hpos) (by rw [hm, ← hr, ← hc]; exact hpos)

theorem addAssign_spec_witness :
    exampleMatrixA.wf ∧ exampleMatrixC.wf ∧ exampleMatrixB.wf ∧
      (exampleMatrixA.addAssign exampleMatrixC).1 =
        { cols := 3, rows := 2, array := [11, 22, 33, 44, 55, 66] } ∧
      ((exampleMatrixA.addAssign exampleMatrixC).2 = .error .Exception ↔
        (exampleMatrixA.rows ≠ exampleMatrixC.rows ∨ exampleMatrixA.cols ≠ exampleMatrixC.cols)) ∧
      ((exampleMatrixA.rows ≠ exampleMatrixB.rows ∨ exampleMatrixA.cols ≠ exampleMatrixB.cols) →
        (exampleMatrixA.addAssign exampleMatrixB).1 = exampleMatrixA) :=
  ⟨by decide, by decide, by decide, by decide,
    (addAssign_spec exampleMatrixA exampleMatrixC (by decide) (by decide)).1,
    (addAssign_spec exampleMatrixA exampleMatrixB (by decide) (by decide)).2.1⟩

theorem mul_spec_witness :
    exampleMatrixA.wf ∧ exampleMatrixB.wf ∧
      exampleMatrixA.rows * exampleMatrixB.cols < 2 ^ 64 ∧
      exampleMatrixA.mul exampleMatrixB =
        .ok { cols := 2, rows := 2, array := [58, 64, 139, 154] } ∧
      (exampleMatrixA.mul exampleMatrixB = .error .Exception ↔
        exampleMatrixA.cols ≠ exampleMatrixB.rows) ∧
      (exampleMatrixA.mul exampleMatrixC = .error .Exception ↔
        exampleMatrixA.cols ≠ exampleMatrixC.rows) :=
  ⟨by decide, by decide, by decide, by decide,
    (mul_spec exampleMatrixA exampleMatrixB (by decide) (by decide) (by decide)).1,
    (mul_spec exampleMatrixA exampleMatrixC (by decide) (by decide) (by decide)).1⟩

theorem transpose_spec_witness :
    exampleMatrixA.wf ∧
      exampleMatrixA.transpose = { cols := 2, rows := 3, array := [1, 4, 2, 5, 3, 6] } ∧
      exampleMatrixA.transpose.rows = exampleMatrixA.cols ∧
      exampleMatrixA.transpose.cols = exampleMatrixA.rows ∧
      exampleMatrixA.transpose.get 2 1 = exampleMatrixA.get 1 2 :=
  ⟨by decide, by decide, (transpose_spec exampleMatrixA (by decide)).1,
    (transpose_spec exampleMatrixA (by decide)).2.1,
    ((transpose_spec exampleMatrixA (by decide)).2.2.2 1 2 (by decide) (by decide)).1⟩

/-! ## Lists of lines: reading a list from a file -/

theorem getToken_ne {s : TextLine} {i : Nat} (h : getToken s i ≠ "") :
    ∃ hi : i < s.length, s[i] = getToken s i := by
  unfold getToken at *
  by_cases hi : i < s.length
  · exact ⟨hi, by simp [List.getD_eq_getElem?_getD, List.getElem?_eq_getElem hi]⟩
  · exfalso
    apply h
    simp [List.getD_eq_getElem?_getD, List.getElem?_eq_none (by omega : s.length ≤ i)]

theorem readTokens_spec (s : TextLine) :
    ∀ (fuel i : Nat) (line : XLine), i ≤ s.length → s.length < i + fuel →
      readTokens s fuel i line =
        some { elements := line.elements ++ (s.drop i).takeWhile (fun t => t ≠ ""),
               current := line.current } := by
  intro fuel
  induction fuel with
  | zero => intro i line h1 h2; omega
  | succ fuel ih =>
    intro i line h1 h2
    unfold readTokens
    by_cases ht : getToken s i ≠ ""
    · obtain ⟨hi, he⟩ := getToken_ne ht
      rw [if_pos ht, ih (i + 1) _ (by omega) (by omega)]
      rw [List.drop_eq_getElem_cons hi, List.takeWhile_cons]
      have : decide (s[i] ≠ "") = true := by rw [he]; simpa using ht
      rw [if_pos this, ← he]
      simp [XLine.addElement]
    · rw [if_neg ht]
      have ht2 : getToken s i = "" := by simpa using ht
      have : (s.drop i).takeWhile (fun t => t ≠ "") = [] := by
        by_cases hi : i < s.length
        · rw [List.drop_eq_getElem_cons hi, List.takeWhile_cons]
          have he : s[i] = "" := by
            rw [← ht2]
            simp [getToken, List.getD_eq_getElem?_getD, List.getElem?_eq_getElem hi]
          simp [he]
        · rw [List.drop_eq_nil_of_le (by omega)]
          rfl
      rw [this]
      simp

theorem append_set_length {α : Type} (l : List α) (x y : α) :
    (l ++ [x]).set l.length y = l ++ [y] := by
  induction l with
  | nil => rfl
  | cons a l ih => simp [List.set, ih]

theorem readListStep_spec (fuel : Nat) (list : XList) (s : TextLine) (h : s.length ≤ fuel) :
    readListStep fuel list s =
      some (if getToken s 0 = "" then list
        else { vector := list.vector ++ [{ elements := s.takeWhile (fun t => t ≠ ""), current := 0 }],
               current := list.vector.length }) := by
  unfold readListStep
  by_cases ht : getToken s 0 = ""
  · rw [if_neg (by simp [ht]), if_pos ht]
  · have hl : (getToken s 0).length ≠ 0 := by
      intro h0
      apply ht
      exact String.ext (List.length_eq_zero.mp h0)
    obtain ⟨hi, he⟩ := getToken_ne ht
    rw [if_pos hl, if_neg ht]
    have hg : (list.addLine.1).vector.get? list.addLine.2 = some XLine.create := by
      simp [XList.addLine]
    rw [hg]
    simp only
    rw [readTokens_spec s fuel 1 _ (by omega) (by omega)]
    simp only [XList.updateLine, hg]
    have hs : s = s[0] :: s.drop 1 := by
      cases s with
      | nil => simp at hi
      | cons a t => simp
    have htw : s.takeWhile (fun t => t ≠ "") =
        getToken s 0 :: (s.drop 1).takeWhile (fun t => t ≠ "") := by
      conv_lhs => rw [hs]
      rw [List.takeWhile_cons, he]
      simp [ht]
    rw [htw]
    simp [XList.addLine, XLine.addElement, XLine.create, XLine.rewind, append_set_length]

theorem readLoop_lines (fuel : Nat) (pre : List TextLine) :
    ∀ (n : Nat) (tail : List (Except Thrown TextLine)) (c : Bool) (list : XList),
      (∀ s, s ∈ pre → s.length ≤ fuel) →
      readLoop fuel (pre.length + n) { pending := pre.map .ok ++ tail, closed := c } list =
        readLoop fuel n { pending := tail, closed := c }
          (pre.foldl (fun l s => if getToken s 0 = "" then l
            else { vector := l.vector ++ [{ elements := s.takeWhile (fun t => t ≠ ""), current := 0 }],
                   current := l.vector.length }) list) := by
  induction pre with
  | nil => intro n tail c list _; simp
  | cons s pre ih =>
    intro n tail c list hf
    have e : (s :: pre).length + n = (pre.length + n) + 1 := by simp; omega
    rw [e]
    conv_lhs => unfold readLoop
    simp only [FileReader.readLine, List.map_cons, List.cons_append]
    rw [readListStep_spec fuel list s (hf s (by simp))]
    simp only
    rw [ih n tail c _ (fun t ht => hf t (by simp [ht]))]
    rfl

theorem foldl_lines (pre : List TextLine) :
    ∀ list : XList,
      (pre.foldl (fun (l : XList) s => if getToken s 0 = "" then l
          else { vector := l.vector ++ [{ elements := s.takeWhile (fun t => t ≠ ""), current := 0 }],
                 current := l.vector.length }) list).vector =
        list.vector ++ pre.filterMap (fun s => if getToken s 0 = "" then none
          else some { elements := s.takeWhile (fun t => t ≠ ""), current := 0 }) := by
  induction pre with
  | nil => intro list; simp
  | cons s pre ih =>
    intro list
    rw [List.foldl_cons, ih]
    by_cases ht : getToken s 0 = ""
    · simp [ht, List.filterMap_cons]
    · simp [ht, List.filterMap_cons]


theorem outcomes_split (p : List (Except Thrown TextLine)) :
    (∃ pre : List TextLine, p = pre.map .ok) ∨
      ∃ (pre : List TextLine) (e : Thrown) (rest : List (Except Thrown TextLine)),
        p = pre.map .ok ++ .error e :: rest := by
  induction p with
  | nil => exact .inl ⟨[], rfl⟩
  | cons o p ih =>
    cases o with
    | error e => exact .inr ⟨[], e, p, rfl⟩
    | ok s =>
      rcases ih with ⟨pre, h⟩ | ⟨pre, e, rest, h⟩
      · exact .inl ⟨s :: pre, by simp [h]⟩
      · exact .inr ⟨s :: pre, e, rest, by simp [h]⟩

theorem outcomes_unique :
    ∀ (pre pre2 : List TextLine) (e e2 : Thrown) (rest rest2 : List (Except Thrown TextLine)),
      pre.map .ok ++ .error e :: rest = pre2.map .ok ++ .error e2 :: rest2 → e = e2 := by
  intro pre
  induction pre with
  | nil =>
    intro pre2 e e2 rest rest2 h
    cases pre2 with
    | nil => simp at h; exact h.1
    | cons a t => simp at h
  | cons s pre ih =>
    intro pre2 e e2 rest rest2 h
    cases pre2 with
    | nil => simp at h
    | cons a t =>
      simp only [List.map_cons, List.cons_append, List.cons.injEq] at h
      exact ih t e e2 rest rest2 h.2

theorem outcomes_disjoint :
    ∀ (pre pre2 : List TextLine) (e : Thrown) (rest : List (Except Thrown TextLine)),
      pre.map .ok ≠ (pre2.map .ok ++ .error e :: rest : List (Except Thrown TextLine)) := by
  intro pre
  induction pre with
  | nil => intro pre2 e rest h; cases pre2 <;> simp at h
  | cons s pre ih =>
    intro pre2 e rest h
    cases pre2 with
    | nil => simp at h
    | cons a t =>
      simp only [List.map_cons, List.cons_append, List.cons.injEq] at h
      exact ih t e rest h.2

theorem readList_eof (fuel : Nat) (r : FileReader) (list : XList) (pre : List TextLine)
    (tail : List (Except Thrown TextLine))
    (hp : r.pending = pre.map .ok ++ tail)
    (ht : tail = [] ∨ ∃ rest, tail = .error .EOFException :: rest)
    (hn : pre.length < fuel) (hf : ∀ s, s ∈ pre → s.length ≤ fuel) :
    readList fuel r list =
      some ({ pending := tail.drop 1, closed := true },
        { vector := pre.filterMap (fun s => if getToken s 0 = "" then none
            else some { elements := s.takeWhile (fun t => t ≠ ""), current := 0 }),
          current := 0 }, .ok ()) := by
  obtain ⟨n, hn2⟩ : ∃ n, fuel = pre.length + (n + 1) := ⟨fuel - pre.length - 1, by omega⟩
  have hr : r = { pending := pre.map .ok ++ tail, closed := r.closed } := by
    cases r; simp at hp; simp [hp]
  have hl := readLoop_lines fuel pre (n + 1) tail r.closed list.reset hf
  rw [← hn2, ← hr] at hl
  unfold readList
  rw [hl]
  have hv := foldl_lines pre list.reset
  rcases ht with rfl | ⟨rest, rfl⟩
  · simp only [readLoop, FileReader.readLine, if_true, FileReader.close, XList.rewind,
      List.drop_nil]
    rw [hv]
    simp [XList.reset]
  · simp only [readLoop, FileReader.readLine, if_true, FileReader.close, XList.rewind,
      List.drop_succ_cons, List.drop_zero]
    rw [hv]
    simp [XList.reset]

theorem readList_error (fuel : Nat) (r : FileReader) (list : XList) (pre : List TextLine)
    (e : Thrown) (rest : List (Except Thrown TextLine))
    (hp : r.pending = pre.map .ok ++ .error e :: rest) (he : e ≠ .EOFException)
    (hn : pre.length < fuel) (hf : ∀ s, s ∈ pre → s.length ≤ fuel) :
    ∃ list1, readList fuel r list =
      some ({ pending := rest, closed := r.closed }, list1, .error e) := by
  obtain ⟨n, hn2⟩ : ∃ n, fuel = pre.length + (n + 1) := ⟨fuel - pre.length - 1, by omega⟩
  have hr : r = { pending := pre.map .ok ++ .error e :: rest, closed := r.closed } := by
    cases r; simp at hp; simp [hp]
  have hl := readLoop_lines fuel pre (n + 1) (.error e :: rest) r.closed list.reset hf
  rw [← hn2, ← hr] at hl
  unfold readList
  rw [hl]
  simp only [readLoop, FileReader.readLine, if_neg he]
  exact ⟨_, rfl⟩


/-- C19: `readList(list)` on a reader whose calls of `readLine` return the
lines `ls` of the file, then reach its end, given enough fuel for its loops:
whatever `list` held before is discarded; afterwards the list holds, in file
order, exactly one line for each input line whose token 0 is not empty, the
elements of that line being the tokens 0, 1, 2, ... of the input line up to
the first empty token; input lines whose token 0 is empty contribute no line;
the list and its lines are rewound and the reader is closed. -/
theorem readList_spec (fuel : Nat) (r : FileReader) (list : XList) (ls : List TextLine)
    (hp : r.pending = ls.map .ok) (hn : ls.length < fuel)
    (hf : ∀ s, s ∈ ls → s.length ≤ fuel) :
    readList fuel r list =
      some ({ pending := [], closed := true },
        { vector := ls.filterMap (fun s => if getToken s 0 = "" then none
            else some { elements := s.takeWhile (fun t => t ≠ ""), current := 0 }),
          current := 0 }, .ok ()) ∧
      ∀ s : TextLine, getToken s (s.takeWhile (fun t => t ≠ "")).length = "" ∧
        ∀ i, i < (s.takeWhile (fun t => t ≠ "")).length →
          (s.takeWhile (fun t => t ≠ "")).get? i = some (getToken s i) ∧ getToken s i ≠ "" := by
  constructor
  · have := readList_eof fuel r list ls [] (by simpa using hp) (.inl rfl) hn hf
    simpa using this
  · intro s
    induction s with
    | nil => simp [getToken]
    | cons a t ih =>
      by_cases ha : a = ""
      · subst ha
        simp [getToken, List.takeWhile_cons]
      · have e : (a :: t).takeWhile (fun t => t ≠ "") = a :: t.takeWhile (fun t => t ≠ "") := by
          simp [List.takeWhile_cons, ha]
        rw [e]
        refine ⟨by simpa [getToken] using ih.1, ?_⟩
        intro i hi
        cases i with
        | zero => simpa [getToken] using ha
        | succ i => simpa [getToken] using ih.2 i (by simpa using hi)

/-- C20: `readList`, given enough fuel for its loops, always returns or raises:
when the calls of `readLine` return lines until the end of the file or until
an `EOFException`, `readList` returns without raising and the reader is
closed; an exception other than `EOFException` raised by `readLine` is raised
by `readList` (the reader is then not closed by the call).  Hence `readList`
raises `IOException` if and only if the first exception that `readLine`
raises is an `IOException`. -/
theorem readList_exceptions (fuel : Nat) (r : FileReader) (list : XList)
    (hn : r.pending.length < fuel) (hf : ∀ s, .ok s ∈ r.pending → s.length ≤ fuel) :
    ∃ r1 list1 res, readList fuel r list = some (r1, list1, res) ∧
      (res = .ok () → r1.closed = true) ∧
      (res ≠ .ok () → r1.closed = r.closed) ∧
      (res = .ok () ↔ ((∃ pre : List TextLine, r.pending = pre.map .ok) ∨
        ∃ (pre : List TextLine) (rest : List (Except Thrown TextLine)),
          r.pending = pre.map .ok ++ .error .EOFException :: rest)) ∧
      (res = .error .IOException ↔
        ∃ (pre : List TextLine) (rest : List (Except Thrown TextLine)),
          r.pending = pre.map .ok ++ .error .IOException :: rest) ∧
      ∀ e, e ≠ .EOFException →
        (res = .error e ↔
          ∃ (pre : List TextLine) (rest : List (Except Thrown TextLine)),
            r.pending = pre.map .ok ++ .error e :: rest) := by
  have hgen : ∀ (e0 : Thrown)
      (pre0 : List TextLine) (rest0 : List (Except Thrown TextLine)),
      r.pending = pre0.map .ok ++ .error e0 :: rest0 → e0 ≠ .EOFException →
      ∀ e, e ≠ .EOFException →
        (((.error e0 : Except Thrown Unit) = .error e) ↔
          ∃ (pre : List TextLine) (rest : List (Except Thrown TextLine)),
            r.pending = pre.map .ok ++ .error e :: rest) := by
    intro e0 pre0 rest0 hp0 _ e _
    constructor
    · intro h
      cases h
      exact ⟨pre0, rest0, hp0⟩
    · rintro ⟨pre, rest, hp⟩
      rw [hp0] at hp
      rw [outcomes_unique _ _ _ _ _ _ hp]
  rcases outcomes_split r.pending with ⟨pre, hp⟩ | ⟨pre, e, rest, hp⟩
  · have hlen : pre.length < fuel := by rw [hp] at hn; simpa using hn
    have hf2 : ∀ s, s ∈ pre → s.length ≤ fuel := by
      intro s hs
      exact hf s (by rw [hp]; exact List.mem_map_of_mem _ hs)
    refine ⟨_, _, _, readList_eof fuel r list pre [] (by simpa using hp) (.inl rfl) hlen hf2,
      fun _ => rfl, fun h => absurd rfl h, ?_, ?_, ?_⟩
    · exact ⟨fun _ => .inl ⟨pre, hp⟩, fun _ => rfl⟩
    · constructor
      · intro h; cases h
      · rintro ⟨pre2, rest2, h2⟩
        rw [hp] at h2
        exact absurd h2 (outcomes_disjoint _ _ _ _)
    · intro e _
      constructor
      · intro h; cases h
      · rintro ⟨pre2, rest2, h2⟩
        rw [hp] at h2
        exact absurd h2 (outcomes_disjoint _ _ _ _)
  · have hlen : pre.length < fuel := by
      rw [hp] at hn
      simp at hn
      omega
    have hf2 : ∀ s, s ∈ pre → s.length ≤ fuel := by
      intro s hs
      exact hf s (by rw [hp]; simp [hs])
    by_cases he : e = .EOFException
    · subst he
      refine ⟨_, _, _, readList_eof fuel r list pre _ hp (.inr ⟨rest, rfl⟩) hlen hf2,
        fun _ => rfl, fun h => absurd rfl h, ?_, ?_, ?_⟩
      · exact ⟨fun _ => .inr ⟨pre, rest, hp⟩, fun _ => rfl⟩
      · constructor
        · intro h; cases h
        · rintro ⟨pre2, rest2, h2⟩
          rw [hp] at h2
          exact absurd (outcomes_unique _ _ _ _ _ _ h2) (by decide)
      · intro e he
        constructor
        · intro h; cases h
        · rintro ⟨pre2, rest2, h2⟩
          rw [hp] at h2
          exact absurd (outcomes_unique _ _ _ _ _ _ h2).symm he
    · obtain ⟨list1, hl⟩ := readList_error fuel r list pre e rest hp he hlen hf2
      refine ⟨_, _, _, hl, (fun h => by cases h), fun _ => rfl, ?_, ?_, ?_⟩
      · constructor
        · intro h; cases h
        · rintro (⟨pre2, h2⟩ | ⟨pre2, rest2, h2⟩)
          · rw [hp] at h2
            exact absurd h2.symm (outcomes_disjoint _ _ _ _)
          · rw [hp] at h2
            exact absurd (outcomes_unique _ _ _ _ _ _ h2) he
      · exact hgen e pre rest hp he .IOException (by decide)
      · exact hgen e pre rest hp he

theorem readList_spec_witness :
    exampleFileReader.pending = [["a", "b"], [], ["", "x"], ["c", "", "d"]].map .ok ∧
      readList 5 exampleFileReader exampleXList =
        some ({ pending := [], closed := true },
          { vector := [{ elements := ["a", "b"], current := 0 },
              { elements := ["c"], current := 0 }], current := 0 }, .ok ()) :=
  ⟨rfl, (readList_spec 5 exampleFileReader exampleXList [["a", "b"], [], ["", "x"], ["c", "", "d"]]
    rfl (by decide) (by decide)).1⟩

theorem readList_exceptions_witness :
    (∃ r1 list1 res, readList 5 exampleFailingReader exampleXList = some (r1, list1, res) ∧
      res = .error .IOException ∧ r1.closed = false) ∧
    (∃ r1 list1 res, readList 5 exampleFileReader exampleXList = some (r1, list1, res) ∧
      res = .ok () ∧ r1.closed = true) := by
  constructor
  · obtain ⟨r1, list1, res, h1, _, h3, _, h5, _⟩ :=
      readList_exceptions 5 exampleFailingReader exampleXList (by decide)
        (by simp [exampleFailingReader])
    have hres : res = .error .IOException := h5.mpr ⟨[["a", "b"]], [.ok ["c"]], rfl⟩
    exact ⟨r1, list1, res, h1, hres, h3 (by rw [hres]; decide)⟩
  · obtain ⟨r1, list1, res, h1, h2, _, h4, _⟩ :=
      readList_exceptions 5 exampleFileReader exampleXList (by decide)
        (by simp [exampleFileReader])
    have hres : res = .ok () := h4.mpr (.inl ⟨[["a", "b"], [], ["", "x"], ["c", "", "d"]], rfl⟩)
    exact ⟨r1, list1, res, h1, hres, h2 hres⟩

/-! ## Dense text files of matrices -/

theorem loopE_inv {σ : Type} (body : Nat → σ → Except Thrown σ) (P : Nat → σ → Prop) :
    ∀ (n lo : Nat) (s : σ), P lo s →
      (∀ i s, lo ≤ i → i < lo + n → P i s → ∃ s1, body i s = .ok s1 ∧ P (i + 1) s1) →
      ∃ s1, loopE body lo n s = .ok s1 ∧ P (lo + n) s1 := by
  intro n
  induction n with
  | zero => intro lo s h _; exact ⟨s, rfl, by simpa using h⟩
  | succ n ih =>
    intro lo s h hstep
    obtain ⟨s1, hb, h1⟩ := hstep lo s (Nat.le_refl _) (by omega) h
    obtain ⟨s2, hl, h2⟩ := ih (lo + 1) s1 h1
      (fun i s hi hlt hp => hstep i s (by omega) (by omega) hp)
    refine ⟨s2, ?_, ?_⟩
    · simp only [loopE, hb]
      exact hl
    · have e : lo + 1 + n = lo + (n + 1) := by omega
      rw [← e]
      exact h2

theorem updateLine_last (v : List XLine) (c : Nat) (x : XLine) (f : XLine → XLine) :
    XList.updateLine { vector := v ++ [x], current := c } v.length f =
      { vector := v ++ [f x], current := c } := by
  have hg : (v ++ [x]).get? v.length = some x := by simp
  simp only [XList.updateLine, hg, append_set_length]

theorem saveDTList_spec {T : Type} [Inhabited T] (valueOfLong : Nat → String)
    (valueOf : T → String) (m : Matrix T) (h : m.wf) :
    ∃ l, saveDTList valueOfLong valueOf m = .ok l ∧
      l.vector = { elements := [valueOfLong m.rows, valueOfLong m.cols], current := 0 } ::
        (List.range m.rows).map (fun j =>
          { elements := (List.range m.cols).map
              (fun i => valueOf (rawAt m.array (j * m.cols + i))), current := 0 }) := by
  unfold saveDTList
  have hout := loopE_inv
    (fun j (l : XList) =>
      loopE (fun i (l2 : XList) =>
          match m.get j i with
          | .error e => .error e
          | .ok v => .ok (l2.updateLine l.addLine.2 (fun li => li.addElement (valueOf v))))
        0 m.cols l.addLine.1)
    (fun j l => l.vector = { elements := [valueOfLong m.rows, valueOfLong m.cols], current := 0 } ::
        (List.range j).map (fun j =>
          { elements := (List.range m.cols).map
              (fun i => valueOf (rawAt m.array (j * m.cols + i))), current := 0 }))
    m.rows 0
    (((({ vector := [], current := 0 } : XList).addLine.1).updateLine
      ({ vector := [], current := 0 } : XList).addLine.2
      (fun line => (line.addElement (valueOfLong m.rows)).addElement (valueOfLong m.cols))))
    (by rfl)
    (by
      intro j l _ hj hl
      have hin := loopE_inv
        (fun i (l2 : XList) =>
          match m.get j i with
          | .error e => .error e
          | .ok v => .ok (l2.updateLine l.addLine.2 (fun li => li.addElement (valueOf v))))
        (fun i l2 => l2 = XList.mk (l.vector ++ [XLine.mk ((List.range i).map
              (fun i => valueOf (rawAt m.array (j * m.cols + i)))) 0]) l.vector.length)
        m.cols 0 l.addLine.1 (by rfl)
        (by
          intro i l2 _ hi hl2
          beta_reduce
          rw [get_ok m h j i (by omega) (by omega)]
          refine ⟨_, rfl, ?_⟩
          rw [hl2]
          show XList.updateLine _ l.vector.length _ = _
          rw [updateLine_last]
          simp [XLine.addElement, List.range_succ])
      obtain ⟨l2, h1, h2⟩ := hin
      refine ⟨l2, h1, ?_⟩
      rw [h2]
      simp only [Nat.zero_add, hl, List.range_succ, List.map_append, List.map_cons, List.map_nil,
        List.cons_append])
  simpa using hout

theorem loop_collect {α β : Type} (xs : List α) (d : α) (g : α → β) :
    loop (fun i (acc : List β) => acc ++ [g (xs.getD i d)]) 0 xs.length [] = xs.map g := by
  have h := loop_inv
    (fun i (acc : List β) => acc ++ [g (xs.getD i d)])
    (fun i acc => acc = (xs.take i).map g) xs.length 0 [] (by simp)
    (by
      intro i acc _ hi hacc
      have hi2 : i < xs.length := by omega
      simp only [hacc, List.take_succ, List.map_append, List.getElem?_eq_getElem hi2,
        Option.toList, List.map_cons, List.map_nil, List.getD_eq_getElem?_getD,
        Option.getD_some])
  simpa using h

theorem save_eq (l : XList) : l.save = l.vector.map (fun line => line.elements) := by
  unfold XList.save XList.getLineCount
  refine Eq.trans (loop_collect l.vector XLine.create (fun line =>
    loop (fun j (text : TextLine) => text ++ [(line.elements).getD j ""])
      0 line.getElementCount [])) ?_
  apply List.map_congr_left
  intro line _
  refine Eq.trans (loop_collect line.elements "" (fun e => e)) ?_
  simp

theorem assign_ok {T : Type} (m : Matrix T) (j i : Nat) (v : T) (hj : j < m.rows)
    (hi : i < m.cols) (hw : m.array.length = m.rows * m.cols) :
    m.assign j i v = .ok { m with array := m.array.set (j * m.cols + i) v } := by
  have hpos : j * m.cols + i < m.array.length := by
    rw [hw, Nat.add_comm]
    exact pos_lt _ _ _ _ hi hj
  simp [Matrix.assign, assertIsInBounds, hj, hi, hpos]

theorem loadDTElements_spec {T : Type} (toDouble : String → T) (j : Nat) (es : List String) :
    ∀ (fuel i : Nat) (m : Matrix T), i ≤ es.length → es.length < i + fuel →
      es.length ≤ m.cols → j < m.rows → m.array.length = m.rows * m.cols →
      ∃ m1, loadDTElements toDouble j fuel { elements := es, current := i } i m = some (.ok m1) ∧
        m1.rows = m.rows ∧ m1.cols = m.cols ∧ m1.array.length = m.array.length ∧
        ∀ k, m1.array[k]? =
          if j * m.cols + i ≤ k ∧ k < j * m.cols + es.length then
            (es[k - j * m.cols]?).map toDouble
          else m.array[k]? := by
  intro fuel
  induction fuel with
  | zero => intro i m h1 h2; omega
  | succ fuel ih =>
    intro i m h1 h2 hc hj hw
    unfold loadDTElements
    by_cases hi : i < es.length
    · have hg : XLine.getElement { elements := es, current := i } =
          ({ elements := es, current := i + 1 }, some es[i]) := by
        simp [XLine.getElement, List.getElem?_eq_getElem hi]
      rw [hg]
      simp only
      rw [assign_ok m j i _ hj (by omega) hw]
      simp only
      obtain ⟨m1, hr, h3, h4, h5, h6⟩ := ih (i + 1)
        { m with array := m.array.set (j * m.cols + i) (toDouble es[i]) }
        (by omega) (by omega) hc hj (by simpa using hw)
      refine ⟨m1, hr, h3, h4, by simpa using h5, ?_⟩
      intro k
      rw [h6 k]
      simp only [List.getElem?_set]
      have hpos : j * m.cols + i < m.array.length := by
        rw [hw, Nat.add_comm]
        exact pos_lt _ _ _ _ (by omega) hj
      by_cases hk : k = j * m.cols + i
      · subst hk
        rw [if_neg (by omega), if_pos rfl, if_pos hpos, if_pos (by omega)]
        simp [List.getElem?_eq_getElem hi]
      · by_cases hk2 : j * m.cols + (i + 1) ≤ k ∧ k < j * m.cols + es.length
        · rw [if_pos hk2, if_pos (by omega)]
        · rw [if_neg hk2, if_neg (fun e => hk e.symm), if_neg (by omega)]
    · have hg : XLine.getElement { elements := es, current := i } =
          ({ elements := es, current := i }, none) := by
        simp [XLine.getElement, List.getElem?_eq_none (by omega : es.length ≤ i)]
      rw [hg]
      refine ⟨m, rfl, rfl, rfl, rfl, ?_⟩
      intro k
      rw [if_neg (by omega)]


theorem row_range (c j j2 i2 len : Nat) (hi2 : i2 < c) (hlen : len ≤ c) :
    (j * c + 0 ≤ j2 * c + i2 ∧ j2 * c + i2 < j * c + len) ↔ (j2 = j ∧ i2 < len) := by
  constructor
  · rintro ⟨h1, h2⟩
    have hj : j2 = j := by
      rcases Nat.lt_trichotomy j2 j with h | h | h
      · have : (j2 + 1) * c ≤ j * c := Nat.mul_le_mul_right _ h
        rw [Nat.succ_mul] at this
        omega
      · exact h
      · have : (j + 1) * c ≤ j2 * c := Nat.mul_le_mul_right _ h
        rw [Nat.succ_mul] at this
        omega
    subst hj
    exact ⟨rfl, by omega⟩
  · rintro ⟨rfl, h⟩
    omega

theorem getLine_some (l : XList) (h : l.current < l.vector.length) :
    l.getLine = ({ vector := l.vector.set l.current (l.vector[l.current]).rewind,
                   current := l.current + 1 }, some (l.vector[l.current]).rewind) := by
  unfold XList.getLine
  rw [if_neg (by omega)]
  simp [List.getElem?_eq_getElem h]

theorem getLine_none (l : XList) (h : l.vector.length ≤ l.current) : l.getLine = (l, none) := by
  unfold XList.getLine
  rw [if_pos (by omega)]

theorem map_elements_set (v : List XLine) (i : Nat) (h : i < v.length) :
    (v.set i (v[i]).rewind).map (fun line => line.elements) = v.map (fun line => line.elements) := by
  apply List.ext_getElem?
  intro k
  simp only [List.getElem?_map, List.getElem?_set]
  by_cases hk : i = k
  · subst hk
    simp [h, XLine.rewind]
  · simp [hk]

theorem loadDTLines_spec {T : Type} (toDouble : String → T) (fuel : Nat)
    (texts : List (List String)) :
    ∀ (n : Nat) (l : XList) (j : Nat) (m : Matrix T),
      l.vector.map (fun line => line.elements) = texts → l.current = j + 1 →
      j + 1 ≤ texts.length → texts.length < j + 1 + n →
      (∀ es, es ∈ texts.drop 1 → es.length < fuel ∧ es.length ≤ m.cols) →
      texts.length ≤ m.rows + 1 → m.array.length = m.rows * m.cols →
      ∃ m1, loadDTLines toDouble fuel n l j m = some (.ok m1) ∧
        m1.rows = m.rows ∧ m1.cols = m.cols ∧ m1.array.length = m.array.length ∧
        ∀ j2 i2, i2 < m.cols → m1.array[j2 * m.cols + i2]? =
          if j ≤ j2 ∧ i2 < (texts.getD (j2 + 1) []).length then
            ((texts.getD (j2 + 1) [])[i2]?).map toDouble
          else m.array[j2 * m.cols + i2]? := by
  intro n
  induction n with
  | zero => intro l j m _ _ h1 h2; omega
  | succ n ih =>
    intro l j m ht hcur h1 h2 hes hrows hw
    have hlen : l.vector.length = texts.length := by rw [← ht]; simp
    unfold loadDTLines
    by_cases hj : j + 1 < texts.length
    · have hc : l.current < l.vector.length := by omega
      rw [getLine_some l hc]
      simp only
      have hel : (l.vector[l.current]).rewind =
          { elements := texts.getD (j + 1) [], current := 0 } := by
        have : (l.vector[l.current]).elements = texts.getD (j + 1) [] := by
          subst ht
          simp [hcur, List.getD_eq_getElem?_getD, List.getElem?_eq_getElem (hcur ▸ hc)]
        simp [XLine.rewind, this]
      have hmem : texts.getD (j + 1) [] ∈ texts.drop 1 := by
        rw [List.getD_eq_getElem?_getD, List.getElem?_eq_getElem hj]
        simp only [Option.getD_some]
        have hj2 : j < (texts.drop 1).length := by simp; omega
        have : texts[j + 1] = (texts.drop 1)[j] := by simp [Nat.add_comm]
        rw [this]
        exact List.getElem_mem _
      obtain ⟨hf1, hf2⟩ := hes _ hmem
      rw [hel]
      obtain ⟨m1, hr, h3, h4, h5, h6⟩ := loadDTElements_spec toDouble j
        (texts.getD (j + 1) []) fuel 0 m (by omega) (by omega) hf2 (by omega) hw
      rw [hr]
      simp only
      obtain ⟨m2, hr2, g3, g4, g5, g6⟩ := ih
        { vector := l.vector.set l.current (l.vector[l.current]).rewind, current := l.current + 1 }
        (j + 1) m1
        (by rw [← ht]; exact map_elements_set _ _ hc) (by simp [hcur]) (by omega) (by omega)
        (by rw [h4]; exact hes) (by rw [h3]; exact hrows) (by rw [h5, h3, h4]; exact hw)
      rw [hel] at hr2
      refine ⟨m2, hr2, g3.trans h3, g4.trans h4, g5.trans h5, ?_⟩
      intro j2 i2 hi2
      have g7 := g6 j2 i2 (by rw [h4]; exact hi2)
      rw [h4] at g7
      rw [g7, h6]
      have hrr := row_range m.cols j j2 i2 (texts.getD (j + 1) []).length hi2 hf2
      by_cases hc1 : j + 1 ≤ j2 ∧ i2 < (texts.getD (j2 + 1) []).length
      · rw [if_pos hc1, if_pos ⟨by omega, hc1.2⟩]
      · rw [if_neg hc1]
        by_cases hc2 : j2 = j ∧ i2 < (texts.getD (j + 1) []).length
        · rw [if_pos (hrr.mpr hc2)]
          obtain ⟨rfl, hc3⟩ := hc2
          rw [if_pos ⟨Nat.le_refl _, hc3⟩]
          simp
        · rw [if_neg (fun h => hc2 (hrr.mp h))]
          rw [if_neg]
          rintro ⟨h7, h8⟩
          by_cases e : j2 = j
          · subst e; exact hc2 ⟨rfl, h8⟩
          · exact hc1 ⟨by omega, h8⟩
    · have hc : l.vector.length ≤ l.current := by omega
      rw [getLine_none l hc]
      refine ⟨m, rfl, rfl, rfl, rfl, ?_⟩
      intro j2 i2 _
      rw [if_neg]
      rintro ⟨h7, h8⟩
      rw [List.getD_eq_getElem?_getD, List.getElem?_eq_none (by omega)] at h8
      simp at h8

theorem vectorSetSize_length {T : Type} [Inhabited T] (a : List T) (n : Nat) :
    (vectorSetSize a n).length = n := by
  simp [vectorSetSize]

theorem loadDTList_spec {T : Type} [Inhabited T] (toLong : String → Nat) (toDouble : String → T)
    (fuel : Nat) (l : XList) (m0 : Matrix T) (tr tc : String) (rowsText : List (List String))
    (hl : l.vector.map (fun line => line.elements) = [tr, tc] :: rowsText)
    (hsz : toLong tr * toLong tc < 2 ^ 64)
    (hfuel : rowsText.length < fuel)
    (hrows : rowsText.length ≤ toLong tr)
    (hes : ∀ es, es ∈ rowsText → es.length < fuel ∧ es.length ≤ toLong tc) :
    ∃ m1, loadDTList toLong toDouble fuel l m0 = some (.ok m1) ∧
      m1.rows = toLong tr ∧ m1.cols = toLong tc ∧ m1.array.length = toLong tr * toLong tc ∧
      ∀ j i, i < toLong tc → m1.array[j * toLong tc + i]? =
        if i < (rowsText.getD j []).length then ((rowsText.getD j [])[i]?).map toDouble
        else (vectorSetSize m0.array (toLong tr * toLong tc))[j * toLong tc + i]? := by
  obtain ⟨v, cur⟩ := l
  cases v with
  | nil => simp at hl
  | cons line0 rest =>
    simp only [List.map_cons, List.cons.injEq] at hl
    obtain ⟨h0, hrest⟩ := hl
    have hmod : (toLong tc * toLong tr) % 2 ^ 64 = toLong tr * toLong tc := by
      rw [Nat.mul_comm]
      exact Nat.mod_eq_of_lt hsz
    have hmod2 : (toLong tc * toLong tr) % 18446744073709551616 = toLong tr * toLong tc := hmod
    obtain ⟨m1, hr, h3, h4, h5, h6⟩ := loadDTLines_spec toDouble fuel ([tr, tc] :: rowsText) fuel
      (XList.getLine (XList.rewind
        { vector := (line0.rewind :: rest).set 0 (line0.rewind).rewind, current := 0 })).1 0
      (m0.setDimensions (toLong tr) (toLong tc))
      (by simp [XList.getLine, XList.rewind, XLine.rewind, h0, hrest])
      (by simp [XList.getLine, XList.rewind])
      (by simp) (by simp; omega)
      (by simpa [Matrix.setDimensions] using hes)
      (by simpa [Matrix.setDimensions] using hrows)
      (by simp [Matrix.setDimensions, vectorSetSize_length, hmod2])
    refine ⟨m1, ?_, h3, h4, ?_, ?_⟩
    · rw [← hr]
      simp [loadDTList, XList.getLineAt, XLine.getElementAt, XLine.rewind, h0]
    · rw [h5]
      simp [Matrix.setDimensions, vectorSetSize_length, hmod2]
    · intro j i hi
      have := h6 j i hi
      simpa [Matrix.setDimensions, hmod2] using this

theorem takeWhile_nonempty (es : List String) (h : ∀ t, t ∈ es → t ≠ "") :
    es.takeWhile (fun t => t ≠ "") = es := by
  induction es with
  | nil => rfl
  | cons a t ih =>
    have ha : a ≠ "" := h a (by simp)
    rw [List.takeWhile_cons]
    simp only [ne_eq, ha, not_false_eq_true, decide_True, if_true]
    rw [ih (fun x hx => h x (by simp [hx]))]

theorem rawAt_mem {T : Type} [Inhabited T] (a : List T) (k : Nat) (h : k < a.length) :
    rawAt a k ∈ a := by
  have : rawAt a k = a[k] := by
    simp [rawAt, List.getD_eq_getElem?_getD, List.getElem?_eq_getElem h]
  rw [this]
  exact List.getElem_mem _

theorem load_tokens (fuel : Nat) (file : List TextLine) (hf : file.length < fuel)
    (hl : ∀ s, s ∈ file → s.length ≤ fuel) :
    ∃ l, XList.load fuel file = some (.ok l) ∧
      l.vector.map (fun line => line.elements) =
        file.filterMap (fun s => if getToken s 0 = "" then none
          else some (s.takeWhile (fun t => t ≠ ""))) := by
  have he := readList_eof fuel { pending := file.map .ok, closed := false }
    { vector := [], current := 0 } file [] (by simp) (.inl rfl) hf hl
  unfold XList.load
  rw [he]
  refine ⟨_, rfl, ?_⟩
  simp only [List.map_filterMap]
  apply List.filterMap_congr
  intro s _
  by_cases hs : getToken s 0 = "" <;> simp [hs]

theorem tokens_kept (rows : List TextLine)
    (h : ∀ s, s ∈ rows → getToken s 0 ≠ "" ∧ ∀ t, t ∈ s → t ≠ "") :
    rows.filterMap (fun s => if getToken s 0 = "" then none
      else some (s.takeWhile (fun t => t ≠ ""))) = rows := by
  induction rows with
  | nil => rfl
  | cons s rows ih =>
    obtain ⟨h1, h2⟩ := h s (by simp)
    rw [List.filterMap_cons]
    simp only [if_neg h1]
    rw [takeWhile_nonempty s h2, ih (fun x hx => h x (by simp [hx]))]

theorem tokens_dropped (rows : List TextLine) (h : ∀ s, s ∈ rows → getToken s 0 = "") :
    rows.filterMap (fun s => if getToken s 0 = "" then none
      else some (s.takeWhile (fun t => t ≠ ""))) = [] := by
  induction rows with
  | nil => rfl
  | cons s rows ih =>
    rw [List.filterMap_cons]
    simp only [if_pos (h s (by simp))]
    exact ih (fun x hx => h x (by simp [hx]))

theorem load_saved {T : Type} [Inhabited T] (valueOfLong : Nat → String) (valueOf : T → String)
    (m : Matrix T) (h : m.wf) (fuel : Nat)
    (hr : valueOfLong m.rows ≠ "") (hc : valueOfLong m.cols ≠ "")
    (hv : ∀ x, x ∈ m.array → valueOf x ≠ "")
    (hf1 : m.rows + 2 ≤ fuel) (hf2 : m.cols + 2 ≤ fuel) :
    ∃ l, XList.load fuel
        ([valueOfLong m.rows, valueOfLong m.cols] ::
          (List.range m.rows).map (fun j =>
            (List.range m.cols).map (fun i => valueOf (rawAt m.array (j * m.cols + i))))) =
        some (.ok l) ∧
      l.vector.map (fun line => line.elements) =
        [valueOfLong m.rows, valueOfLong m.cols] ::
          (if m.cols = 0 then [] else (List.range m.rows).map (fun j =>
            (List.range m.cols).map (fun i => valueOf (rawAt m.array (j * m.cols + i))))) := by
  obtain ⟨l, h1, h2⟩ := load_tokens fuel
    ([valueOfLong m.rows, valueOfLong m.cols] ::
      (List.range m.rows).map (fun j =>
        (List.range m.cols).map (fun i => valueOf (rawAt m.array (j * m.cols + i)))))
    (by simp; omega)
    (by
      intro s hs
      simp only [List.mem_cons, List.mem_map, List.mem_range] at hs
      rcases hs with rfl | ⟨j, _, rfl⟩
      · simp; omega
      · simp; omega)
  refine ⟨l, h1, ?_⟩
  rw [h2, List.filterMap_cons]
  have h0 : getToken [valueOfLong m.rows, valueOfLong m.cols] 0 ≠ "" := by
    simpa [getToken] using hr
  simp only [if_neg h0]
  rw [takeWhile_nonempty _ (by
    intro t ht
    simp only [List.mem_cons, List.mem_singleton, List.not_mem_nil, or_false] at ht
    rcases ht with rfl | rfl
    · exact hr
    · exact hc)]
  congr 1
  by_cases hz : m.cols = 0
  · rw [if_pos hz]
    apply tokens_dropped
    intro s hs
    simp only [List.mem_map, List.mem_range] at hs
    obtain ⟨j, _, rfl⟩ := hs
    simp [hz, getToken]
  · rw [if_neg hz]
    apply tokens_kept
    intro s hs
    simp only [List.mem_map, List.mem_range] at hs
    obtain ⟨j, hj, rfl⟩ := hs
    have hall : ∀ t, t ∈ (List.range m.cols).map
        (fun i => valueOf (rawAt m.array (j * m.cols + i))) → t ≠ "" := by
      intro t ht
      simp only [List.mem_map, List.mem_range] at ht
      obtain ⟨i, hi, rfl⟩ := ht
      apply hv
      apply rawAt_mem
      rw [h, Nat.add_comm]
      exact pos_lt _ _ _ _ hi hj
    refine ⟨?_, hall⟩
    have hpos : 0 < m.cols := by omega
    apply hall
    simp only [getToken, List.getD_eq_getElem?_getD, List.mem_map, List.mem_range]
    exact ⟨0, hpos, by simp [List.getElem?_range, hpos]⟩

theorem div_mod_pos (k c : Nat) : k / c * c + k % c = k := by
  rw [Nat.mul_comm]
  exact Nat.div_add_mod k c

/-- C18: for every `r x c` matrix `m` whose array holds its elements, `saveDT`
builds a list of `r + 1` lines whose first line holds the texts of `r` and `c`
and whose line `j + 1` holds the texts of the `c` elements of row `j` in column
order.  `loadDT` applied to a list of `r + 1` lines whose first line holds
texts of `r` and `c` and whose other lines hold `c` elements each yields, with
enough fuel for its loops, an `r x c` matrix whose element `(j, i)` is the value
parsed from element `i` of line `j + 1`.  When the conversions are exact on the
dimensions and the elements of `m` and give no empty text, `loadDT` on the file
that `saveDT` wrote reproduces `m`, whatever the matrix held before. -/
theorem saveDT_loadDT {T : Type} [Inhabited T] (valueOfLong : Nat → String)
    (valueOf : T → String) (toLong : String → Nat) (toDouble : String → T)
    (m : Matrix T) (h : m.wf) :
    (∃ l, saveDTList valueOfLong valueOf m = .ok l ∧ l.vector.length = m.rows + 1 ∧
      (∃ line, l.vector.get? 0 = some line ∧
        line.elements = [valueOfLong m.rows, valueOfLong m.cols]) ∧
      ∀ j, j < m.rows → ∃ line, l.vector.get? (j + 1) = some line ∧
        line.elements.length = m.cols ∧
        ∀ i, i < m.cols → ∃ v, m.get j i = .ok v ∧ line.elements.get? i = some (valueOf v)) ∧
    (∀ (fuel : Nat) (l : XList) (m0 : Matrix T) (tr tc : String) (rowsText : List (List String)),
      l.vector.map (fun line => line.elements) = [tr, tc] :: rowsText →
      rowsText.length = toLong tr → (∀ es, es ∈ rowsText → es.length = toLong tc) →
      toLong tr * toLong tc < 2 ^ 64 → toLong tr < fuel → toLong tc < fuel →
      ∃ res, loadDTList toLong toDouble fuel l m0 = some (.ok res) ∧
        res.rows = toLong tr ∧ res.cols = toLong tc ∧ res.wf ∧
        ∀ j i, j < toLong tr → i < toLong tc →
          ∃ line s, l.vector.get? (j + 1) = some line ∧ line.elements.get? i = some s ∧
            res.get j i = .ok (toDouble s)) ∧
    (∀ (fuel : Nat) (m0 : Matrix T),
      m.array.length < 2 ^ 64 →
      toLong (valueOfLong m.rows) = m.rows → toLong (valueOfLong m.cols) = m.cols →
      valueOfLong m.rows ≠ "" → valueOfLong m.cols ≠ "" →
      (∀ x, x ∈ m.array → valueOf x ≠ "" ∧ toDouble (valueOf x) = x) →
      m.rows + 2 ≤ fuel → m.cols + 2 ≤ fuel →
      ∃ file, saveDT valueOfLong valueOf m = .ok file ∧
        loadDT toLong toDouble fuel file m0 = some (.ok m)) := by
  obtain ⟨l, hl, hv⟩ := saveDTList_spec valueOfLong valueOf m h
  refine ⟨?_, ?_, ?_⟩
  · refine ⟨l, hl, by simp [hv],
      ⟨XLine.mk [valueOfLong m.rows, valueOfLong m.cols] 0, by simp [hv], rfl⟩, ?_⟩
    intro j hj
    refine ⟨XLine.mk ((List.range m.cols).map
        (fun i => valueOf (rawAt m.array (j * m.cols + i)))) 0,
      by simp [hv, List.getElem?_range, hj], by simp, ?_⟩
    intro i hi
    exact ⟨_, get_ok m h j i hj hi, by simp [List.getElem?_range, hi]⟩
  · intro fuel l m0 tr tc rowsText hlv hlen hes hsz hf1 hf2
    obtain ⟨m1, hr, h3, h4, h5, h6⟩ := loadDTList_spec toLong toDouble fuel l m0 tr tc rowsText
      hlv hsz (by omega) (by omega) (fun es he => by rw [hes es he]; exact ⟨hf2, Nat.le_refl _⟩)
    refine ⟨m1, hr, h3, h4, by show m1.array.length = m1.rows * m1.cols; rw [h5, h3, h4], ?_⟩
    intro j i hj hi
    have hjl : j < rowsText.length := by omega
    have hline : ∃ line, l.vector.get? (j + 1) = some line ∧ line.elements = rowsText[j] := by
      have hlen2 : l.vector.length = rowsText.length + 1 := by
        have := congrArg List.length hlv
        simpa using this
      have hj1 : j + 1 < l.vector.length := by omega
      refine ⟨l.vector[j + 1], by simp [List.getElem?_eq_getElem hj1], ?_⟩
      have := congrArg (fun t => t[j + 1]?) hlv
      simp only [List.getElem?_map, List.getElem?_eq_getElem hj1, Option.map_some',
        List.getElem?_cons_succ, List.getElem?_eq_getElem hjl] at this
      exact Option.some.inj this
    obtain ⟨line, hg, hel⟩ := hline
    have hil : i < rowsText[j].length := by
      rw [hes _ (List.getElem_mem _)]
      exact hi
    refine ⟨line, rowsText[j][i], hg, by rw [hel]; simp [List.getElem?_eq_getElem hil], ?_⟩
    rw [get_eq m1 j i (by omega) (by omega)]
    apply vectorAt_ok
    have := h6 j i hi
    rw [List.getD_eq_getElem?_getD, List.getElem?_eq_getElem hjl] at this
    simp only [Option.getD_some, if_pos hil, List.getElem?_eq_getElem hil, Option.map_some'] at this
    rw [h4]
    simpa using this
  · intro fuel m0 hsz htr htc hnr hnc hconv hf1 hf2
    have hfile : l.save = [valueOfLong m.rows, valueOfLong m.cols] ::
        (List.range m.rows).map (fun j =>
          (List.range m.cols).map (fun i => valueOf (rawAt m.array (j * m.cols + i)))) := by
      rw [save_eq, hv]
      simp [List.map_map, Function.comp]
    refine ⟨l.save, by simp [saveDT, hl], ?_⟩
    obtain ⟨l2, hload, hl2⟩ := load_saved valueOfLong valueOf m h fuel hnr hnc
      (fun x hx => (hconv x hx).1) hf1 hf2
    have hwf : m.array.length = m.rows * m.cols := h
    obtain ⟨m1, hr, h3, h4, h5, h6⟩ := loadDTList_spec toLong toDouble fuel l2 m0
      (valueOfLong m.rows) (valueOfLong m.cols) _ hl2
      (by rw [htr, htc, ← hwf]; exact hsz)
      (by split <;> simp <;> omega)
      (by rw [htr]; split <;> simp)
      (by
        intro es he
        rw [htc]
        split at he
        · simp at he
        · simp only [List.mem_map, List.mem_range] at he
          obtain ⟨j, _, rfl⟩ := he
          simp
          omega)
    unfold loadDT
    rw [hfile, hload]
    simp only
    rw [hr]
    congr 2
    rw [htr] at h3 h5 h6
    rw [htc] at h4 h5 h6
    obtain ⟨mc, mr, ma⟩ := m
    obtain ⟨c1, r1, a1⟩ := m1
    simp only at h3 h4 h5 h6 hwf hconv
    subst h3 h4
    simp only [Matrix.mk.injEq, true_and]
    apply List.ext_getElem?
    intro k
    by_cases hk : k < r1 * c1
    · have hcpos : 0 < c1 := by
        rcases Nat.eq_zero_or_pos c1 with h0 | h0
        · rw [h0] at hk; simp at hk
        · exact h0
      have hi : k % c1 < c1 := Nat.mod_lt _ hcpos
      have hj : k / c1 < r1 := by
        rw [Nat.div_lt_iff_lt_mul hcpos]
        exact hk
      have hne : ¬ c1 = 0 := by omega
      have := h6 (k / c1) (k % c1) hi
      rw [div_mod_pos] at this
      have hka : k < ma.length := by rw [hwf]; exact hk
      simp only [if_neg hne, List.getD_eq_getElem?_getD, List.getElem?_map, List.getElem?_range,
        hj, hi, Option.map_some', Option.getD_some, List.length_map, List.length_range, if_true,
        div_mod_pos] at this
      rw [this, (hconv _ (rawAt_mem ma k hka)).2]
      exact (rawAt_get? ma k hka).symm.trans (by simp)
    · rw [List.getElem?_eq_none (by omega), List.getElem?_eq_none (by omega)]

theorem saveDT_loadDT_witness :
    exampleMatrixN.wf ∧
      saveDT strokesOf strokesOf exampleMatrixN =
        .ok [["111", "1111"], ["11", "111", "1111"], ["11111", "111111", "1111111"]] ∧
      ∃ file, saveDT strokesOf strokesOf exampleMatrixN = .ok file ∧
        loadDT strokesValue strokesValue 5 file { cols := 1, rows := 1, array := [9] } =
          some (.ok exampleMatrixN) :=
  ⟨by decide, by decide,
    (saveDT_loadDT strokesOf strokesOf strokesValue strokesValue exampleMatrixN (by decide)).2.2
      5 { cols := 1, rows := 1, array := [9] } (by decide) (by decide) (by decide) (by decide)
      (by decide) (by decide) (by decide) (by decide)⟩

/-! ## The constructor from a square matrix -/

theorem ofDoubleSquareMatrixInner_never {T : Type} (M : DoubleSquareMatrix T)
    (rows cols : Nat) (hc : 0 < cols) :
    ∀ (fuel i : Nat) (array : List T) (r : Nat × List T),
      ofDoubleSquareMatrixInner M rows cols 0 fuel i array ≠ some (.ok r) := by
  intro fuel
  induction fuel with
  | zero => intro i array r h; simp [ofDoubleSquareMatrixInner] at h
  | succ fuel ih =>
    intro i array r h
    unfold ofDoubleSquareMatrixInner at h
    rw [if_pos hc] at h
    split at h
    · simp at h
    · split at h
      · simp at h
      · exact ih _ _ _ h

theorem ofDoubleSquareMatrix_never {T : Type} (M : DoubleSquareMatrix T) (hs : 0 < M.size)
    (fuel : Nat) (array0 : List T) (m : Matrix T) :
    Matrix.ofDoubleSquareMatrix fuel M array0 ≠ some (.ok m) := by
  intro h
  unfold Matrix.ofDoubleSquareMatrix at h
  cases fuel with
  | zero => simp [ofDoubleSquareMatrixOuter] at h
  | succ n =>
    unfold ofDoubleSquareMatrixOuter at h
    rw [if_pos hs] at h
    have hin := ofDoubleSquareMatrixInner_never M M.size M.size hs (n + 1) 0 array0
    revert h
    cases hres : ofDoubleSquareMatrixInner M M.size M.size 0 (n + 1) 0 array0 with
    | none => simp
    | some res =>
      cases res with
      | error e => simp
      | ok r => exact absurd hres (hin r)

/-- C17, evaluated on the square matrix of size 1 that holds 5: the
constructor raises `IndexOutOfBoundsException` on the array without element
that it starts from, and whatever array it starts from and however long it
runs it never returns a matrix (its inner loop increments `i` instead of
`j`). -/
theorem ofDoubleSquareMatrix_fails :
    Matrix.ofDoubleSquareMatrix 3 exampleSquareMatrix [] =
        some (.error .IndexOutOfBoundsException) ∧
      Matrix.ofDoubleSquareMatrix 3 exampleSquareMatrix [0] =
        some (.error .IndexOutOfBoundsException) ∧
      ∀ (fuel : Nat) (array0 : List Int) (m : Matrix Int),
        Matrix.ofDoubleSquareMatrix fuel exampleSquareMatrix array0 ≠ some (.ok m) :=
  ⟨by decide, by decide,
    fun fuel array0 m => ofDoubleSquareMatrix_never exampleSquareMatrix (by decide) fuel array0 m⟩

/-! ## Inversion of a matrix -/

/-- C15: `invert()` on a matrix whose number of columns differs from its number
of rows raises `Exception` and leaves the matrix, dimensions and array,
unchanged. -/
theorem invert_nonsquare {T : Type} [LinearOrderedField T] (m : Matrix T)
    (h : m.cols ≠ m.rows) :
    m.invert = (m, .error .Exception) ∧ m.invert.1.rows = m.rows ∧
      m.invert.1.cols = m.cols ∧ m.invert.1.array = m.array := by
  have : m.invert = (m, .error .Exception) := by
    unfold Matrix.invert
    rw [if_pos h]
  rw [this]
  exact ⟨rfl, rfl, rfl, rfl⟩

theorem invert_nonsquare_witness :
    exampleMatrixQ.cols ≠ exampleMatrixQ.rows ∧
      exampleMatrixQ.invert = (exampleMatrixQ, .error .Exception) :=
  ⟨by decide, (invert_nonsquare exampleMatrixQ (by decide)).1⟩

/-! ## Cursor of a list of lines -/

theorem getLines_spec :
    ∀ (k : Nat) (l : XList), l.current ≤ l.vector.length →
      (getLines k l).2 = (List.range k).map
        (fun i => (l.vector.get? (l.current + i)).map XLine.rewind) ∧
      (getLines k l).1.current = min (l.current + k) l.vector.length ∧
      (getLines k l).1.vector.length = l.vector.length ∧
      (getLines k l).1.vector.map (fun line => line.elements) =
        l.vector.map (fun line => line.elements) := by
  intro k
  induction k with
  | zero => intro l h; simp [getLines]; omega
  | succ k ih =>
    intro l h
    by_cases hc : l.current < l.vector.length
    · have hg := getLine_some l hc
      obtain ⟨h1, h2, h3, h4⟩ := ih l.getLine.1 (by rw [hg]; simp; omega)
      simp only [getLines]
      rw [h1, h2, h3, h4, hg]
      refine ⟨?_, by simp; omega, by simp, map_elements_set _ _ hc⟩
      rw [List.range_succ_eq_map, List.map_cons, List.map_map]
      simp only [Nat.add_zero, List.get?_eq_getElem?, List.getElem?_eq_getElem hc,
        Option.map_some', List.cons.injEq, true_and]
      apply List.map_congr_left
      intro i _
      simp only [Function.comp, List.getElem?_set]
      have e : l.current + 1 + i = l.current + (i + 1) := by omega
      rw [if_neg (by omega), e]
    · have hg := getLine_none l (by omega)
      obtain ⟨h1, h2, h3, h4⟩ := ih l.getLine.1 (by rw [hg]; exact h)
      simp only [getLines]
      rw [h1, h2, h3, h4, hg]
      refine ⟨?_, by simp; omega, rfl, rfl⟩
      rw [List.range_succ_eq_map, List.map_cons, List.map_map]
      have hn : ∀ j, l.vector.length ≤ j → l.vector[j]? = none :=
        fun j hj => List.getElem?_eq_none hj
      simp only [Nat.add_zero, List.get?_eq_getElem?, hn _ (by omega : l.vector.length ≤ l.current),
        Option.map_none', List.cons.injEq, true_and]
      apply List.map_congr_left
      intro i _
      simp only [Function.comp]
      rw [hn _ (by omega), hn _ (by omega)]

/-- C21: for every `XList` with `n` lines, after `rewind()` the results of `k`
successive calls of the argument-less `getLine()` are, in order, the lines of
index 0, 1, ..., each rewound to its first element, for the first `n` calls and
`NULL` for every later call; after the calls the cursor is at `min k n`, so it
stays at `n` once `NULL` was returned, and the lines hold the elements they
held. -/
theorem getLine_sequence (l : XList) (k : Nat) :
    (getLines k l.rewind).2 =
        (List.range k).map (fun i => (l.vector.get? i).map XLine.rewind) ∧
      (∀ i, i < k → i < l.vector.length →
        ∃ line, l.vector.get? i = some line ∧
          (getLines k l.rewind).2.get? i = some (some line.rewind) ∧ line.rewind.current = 0 ∧
          line.rewind.elements = line.elements) ∧
      (∀ i, i < k → l.vector.length ≤ i → (getLines k l.rewind).2.get? i = some none) ∧
      (getLines k l.rewind).1.current = min k l.vector.length ∧
      (getLines k l.rewind).1.vector.map (fun line => line.elements) =
        l.vector.map (fun line => line.elements) := by
  obtain ⟨h1, h2, _, h4⟩ := getLines_spec k l.rewind (by simp [XList.rewind])
  have h1b : (getLines k l.rewind).2 =
      (List.range k).map (fun i => (l.vector.get? i).map XLine.rewind) := by
    rw [h1]
    simp [XList.rewind]
  refine ⟨h1b, ?_, ?_, by simpa [XList.rewind] using h2, by simpa [XList.rewind] using h4⟩
  · intro i hi hn
    refine ⟨l.vector[i], by simp [List.getElem?_eq_getElem hn], ?_, rfl, rfl⟩
    rw [h1b]
    simp [List.getElem?_range, hi, List.getElem?_eq_getElem hn]
  · intro i hi hn
    rw [h1b]
    simp [List.getElem?_range, hi, List.getElem?_eq_none hn]

/-- C22: for every `XList` with `n` lines, `getLine(i)` raises
`IndexOutOfBoundsException` exactly when `i >= n`, and the list, with its
cursor, is then unchanged; otherwise it returns the line `i` rewound to its
first element and sets the cursor to `i`, so that the next argument-less
`getLine()` returns that same line. -/
theorem getLineAt_spec (l : XList) (i : Nat) :
    ((l.getLineAtState i).2 = .error .IndexOutOfBoundsException ↔ l.vector.length ≤ i) ∧
      (l.vector.length ≤ i → (l.getLineAtState i).1 = l) ∧
      (i < l.vector.length →
        ∃ line, l.vector.get? i = some line ∧
          (l.getLineAtState i).2 = .ok line.rewind ∧
          (l.getLineAtState i).1.current = i ∧
          (l.getLineAtState i).1.vector.map (fun line => line.elements) =
            l.vector.map (fun line => line.elements) ∧
          ((l.getLineAtState i).1.getLine).2 = some line.rewind) := by
  by_cases h : i < l.vector.length
  · have hg : l.vector.get? i = some l.vector[i] := by simp [List.getElem?_eq_getElem h]
    have hs : l.getLineAtState i =
        ({ vector := l.vector.set i (l.vector[i]).rewind, current := i },
          .ok (l.vector[i]).rewind) := by
      simp only [XList.getLineAtState, XList.getLineAt, hg]
    rw [hs]
    refine ⟨⟨(fun e => by cases e), (fun e => by omega)⟩, (fun e => by omega), fun _ => ?_⟩
    refine ⟨_, hg, rfl, rfl, map_elements_set _ _ h, ?_⟩
    rw [getLine_some _ (by simpa using h)]
    simp [XLine.rewind]
  · have hg : l.vector.get? i = none := by simp [List.getElem?_eq_none (by omega : l.vector.length ≤ i)]
    have hs : l.getLineAtState i = (l, .error .IndexOutOfBoundsException) := by
      simp only [XList.getLineAtState, XList.getLineAt, hg]
    rw [hs]
    exact ⟨⟨(fun _ => by omega), fun _ => rfl⟩, fun _ => rfl, fun e => absurd e h⟩

theorem findLineLoop_spec (l : XList) (key : String) (idx : Nat) :
    ∀ (n i : Nat), i + n = l.vector.length →
      (∀ i2 line2, i2 < i → l.vector.get? i2 = some line2 →
        line2.elements.get? idx ≠ some key) →
      (findLineLoop l key idx n i = .ok (l, none) ∧
        ∀ i2 line2, l.vector.get? i2 = some line2 → line2.elements.get? idx ≠ some key) ∨
      ∃ i3 line, l.vector.get? i3 = some line ∧ idx < line.getElementCount ∧
        line.elements.get? idx = some key ∧
        (∀ i2 line2, i2 < i3 → l.vector.get? i2 = some line2 →
          line2.elements.get? idx ≠ some key) ∧
        findLineLoop l key idx n i = .ok ({ l with current := i3 }, some line) := by
  intro n
  induction n with
  | zero =>
    intro i hi hprev
    left
    refine ⟨rfl, ?_⟩
    intro i2 line2 hg
    have hlt : i2 < l.vector.length := by
      by_contra hge
      rw [List.get?_eq_getElem?, List.getElem?_eq_none (by omega)] at hg
      cases hg
    exact hprev i2 line2 (by omega) hg
  | succ n ih =>
    intro i hi hprev
    have hlt : i < l.vector.length := by omega
    have hg : l.vector.get? i = some l.vector[i] := by simp [List.getElem?_eq_getElem hlt]
    unfold findLineLoop
    rw [hg]
    simp only
    by_cases hc : idx < (l.vector[i]).getElementCount
    · rw [if_pos hc]
      have hc2 : idx < (l.vector[i]).elements.length := hc
      have he : (l.vector[i]).elements.get? idx = some (l.vector[i]).elements[idx] := by
        simp [List.getElem?_eq_getElem hc2]
      simp only [XLine.getElementAt, he]
      by_cases hk : (l.vector[i]).elements[idx] = key
      · rw [if_pos hk]
        right
        exact ⟨i, _, hg, hc, by rw [he, hk], hprev, rfl⟩
      · rw [if_neg hk]
        apply ih (i + 1) (by omega)
        intro i2 line2 h2 hg2
        by_cases e : i2 = i
        · subst e
          rw [hg] at hg2
          cases hg2
          rw [he]
          intro heq
          exact hk (Option.some.inj heq)
        · exact hprev i2 line2 (by omega) hg2
    · rw [if_neg hc]
      apply ih (i + 1) (by omega)
      intro i2 line2 h2 hg2
      by_cases e : i2 = i
      · subst e
        rw [hg] at hg2
        cases hg2
        have : (l.vector[i2]).elements.length ≤ idx := by
          have : ¬ idx < (l.vector[i2]).elements.length := hc
          omega
        rw [List.get?_eq_getElem?, List.getElem?_eq_none this]
        intro heq
        cases heq
      · exact hprev i2 line2 (by omega) hg2

/-- C23: `findLine(key, idx)` never raises.  Either no line has an element
`idx` equal to `key`: then it returns `NULL` and the list, with its cursor, is
unchanged.  Or it returns the line of lowest index that has more than `idx`
elements and whose element `idx` equals `key`, and sets the cursor to the index
of that line; a line with at most `idx` elements has no element `idx`, so it is
not matched. -/
theorem findLine_spec (l : XList) (key : String) (idx : Nat) :
    (l.findLine key idx = .ok (l, none) ∧
        ∀ i2 line2, l.vector.get? i2 = some line2 → line2.elements.get? idx ≠ some key) ∨
      ∃ i line, l.vector.get? i = some line ∧ idx < line.getElementCount ∧
        line.elements.get? idx = some key ∧
        (∀ i2 line2, i2 < i → l.vector.get? i2 = some line2 →
          line2.elements.get? idx ≠ some key) ∧
        l.findLine key idx = .ok ({ l with current := i }, some line) := by
  unfold XList.findLine
  exact findLineLoop_spec l key idx l.vector.length 0 (by omega) (fun i2 _ h => by omega)

/-! ## Construction of matrices and the size of their array -/

theorem transpose_length {T : Type} [Inhabited T] (m : Matrix T) :
    m.transpose.array.length = m.array.length := by
  unfold Matrix.transpose
  have h := loop_inv
    (fun r (st : List T × Nat) =>
        ((loop (fun c (st2 : List T × Nat) =>
            (st2.1.set (r + st2.2) (rawAt m.array (c + st.2)), st2.2 + m.rows))
          0 m.cols (st.1, 0)).1, st.2 + m.cols))
    (fun _ st => st.1.length = m.array.length) m.rows 0 (m.array, 0) rfl
    (by
      intro r st _ _ hl
      beta_reduce
      have h2 := loop_inv
        (fun c (st2 : List T × Nat) =>
            (st2.1.set (r + st2.2) (rawAt m.array (c + st.2)), st2.2 + m.rows))
        (fun _ st2 => st2.1.length = m.array.length) m.cols 0 (st.1, 0) hl
        (by
          intro c st2 _ _ hl2
          beta_reduce
          simpa using hl2)
      exact h2)
  exact h

theorem mul_length {T : Type} [Inhabited T] [Zero T] [Add T] [Mul T] (a m r : Matrix T)
    (h : a.mul m = .ok r) :
    r.rows = a.rows ∧ r.cols = m.cols ∧ r.array.length = (a.rows * m.cols) % 2 ^ 64 := by
  unfold Matrix.mul at h
  split at h
  · cases h
  · injection h with h
    subst h
    refine ⟨rfl, rfl, ?_⟩
    have hl := loop_inv
      (fun _ (st : List T × Nat × Nat) =>
        (loop (fun j (pTmp : List T) =>
          (loop (fun k (st3 : List T × Nat) =>
            (st3.1.set (st.2.2 + j)
              (rawAt st3.1 (st.2.2 + j) + rawAt a.array (st.2.1 + k) * rawAt m.array (st3.2 + j)),
              st3.2 + m.cols))
            0 a.cols (pTmp, 0)).1)
          0 m.cols st.1, st.2.1 + a.cols, st.2.2 + m.cols))
      (fun _ st => st.1.length = (a.rows * m.cols) % 2 ^ 64) a.rows 0
      (List.replicate ((a.rows * m.cols) % 2 ^ 64) 0, 0, 0) (by simp)
      (by
        intro i st _ _ hl
        beta_reduce
        have h2 := loop_inv
          (fun j (pTmp : List T) =>
            (loop (fun k (st3 : List T × Nat) =>
              (st3.1.set (st.2.2 + j)
                (rawAt st3.1 (st.2.2 + j) + rawAt a.array (st.2.1 + k) * rawAt m.array (st3.2 + j)),
                st3.2 + m.cols))
              0 a.cols (pTmp, 0)).1)
          (fun _ p => p.length = (a.rows * m.cols) % 2 ^ 64) m.cols 0 st.1 hl
          (by
            intro j p _ _ hp
            beta_reduce
            have h3 := loop_inv
              (fun k (st3 : List T × Nat) =>
                (st3.1.set (st.2.2 + j)
                  (rawAt st3.1 (st.2.2 + j) + rawAt a.array (st.2.1 + k) * rawAt m.array (st3.2 + j)),
                  st3.2 + m.cols))
              (fun _ st3 => st3.1.length = (a.rows * m.cols) % 2 ^ 64) a.cols 0 (p, 0) hp
              (by
                intro k st3 _ _ h3
                beta_reduce
                simpa using h3)
            exact h3)
        exact h2)
    exact hl

theorem ofFeature_length {T : Type} [Inhabited T] (f : List T) :
    (Matrix.ofFeature f).array.length = f.length := by
  unfold Matrix.ofFeature
  have h := loop_inv (fun i (array : List T) => array.set i (rawAt f i))
    (fun _ array => array.length = f.length) f.length 0 (vectorSetSize [] f.length)
    (vectorSetSize_length _ _)
    (by
      intro i array _ _ h
      beta_reduce
      simpa using h)
  exact h

/-- C26: every matrix obtained from the constructors `Matrix(rows, cols)`,
`Matrix(RealVector)` and `Matrix(Feature)` by any sequence of `setDimensions`,
`operator=`, `transpose`, `operator*`, `operator*=`, `operator+=`,
`operator-=` and multiplications by a scalar has an array that holds exactly
`rows() * cols()` elements, the product being the one the program computes, on
`unsigned long` (64 bits); it is the exact product whenever that is below
`2 ^ 64`. -/
theorem obtained_size {T : Type} [Inhabited T] [Zero T] [Add T] [Sub T] [Mul T]
    (m : Matrix T) (h : Obtained m) :
    m.array.length = (m.rows * m.cols) % 2 ^ 64 ∧ (m.rows * m.cols < 2 ^ 64 → m.wf) := by
  have key : m.array.length = (m.rows * m.cols) % 2 ^ 64 := by
    induction h with
    | create rows cols => simp [Matrix.create]
    | ofVector v hv =>
      show v.length = (1 * v.length) % 2 ^ 64
      rw [Nat.one_mul, Nat.mod_eq_of_lt hv]
    | ofFeature f hf =>
      rw [ofFeature_length]
      show f.length = (1 * f.length) % 2 ^ 64
      rw [Nat.one_mul, Nat.mod_eq_of_lt hf]
    | setDimensions m rows cols _ _ =>
      show (vectorSetSize m.array ((cols * rows) % 2 ^ 64)).length = (rows * cols) % 2 ^ 64
      rw [vectorSetSize_length, Nat.mul_comm]
    | copy a m _ _ _ ihm => exact ihm
    | transpose m _ ih =>
      rw [transpose_length, ih]
      show (m.rows * m.cols) % 2 ^ 64 = (m.cols * m.rows) % 2 ^ 64
      rw [Nat.mul_comm]
    | mul a m r _ _ hr _ _ =>
      obtain ⟨h1, h2, h3⟩ := mul_length a m r hr
      rw [h3, h1, h2]
    | mulAssign a m _ _ iha _ =>
      unfold Matrix.mulAssign
      cases hr : a.mul m with
      | error e => exact iha
      | ok r =>
        obtain ⟨h1, h2, h3⟩ := mul_length a m r hr
        show r.array.length = (r.rows * r.cols) % 2 ^ 64
        rw [h3, h1, h2]
    | addAssign a m _ _ iha ihm =>
      unfold Matrix.addAssign
      by_cases hd : a.cols ≠ m.cols ∨ a.rows ≠ m.rows
      · rw [if_pos hd]; exact iha
      · rw [if_neg hd]
        have hc : a.cols = m.cols := by omega
        have hr : a.rows = m.rows := by omega
        show (vectorAdd a.array m.array).length = (a.rows * a.cols) % 2 ^ 64
        simp only [vectorAdd, List.length_zipWith, iha, ihm, hc, hr, Nat.min_self]
    | subAssign a m _ _ iha ihm =>
      unfold Matrix.subAssign
      by_cases hd : a.cols ≠ m.cols ∨ a.rows ≠ m.rows
      · rw [if_pos hd]; exact iha
      · rw [if_neg hd]
        have hc : a.cols = m.cols := by omega
        have hr : a.rows = m.rows := by omega
        show (vectorSub a.array m.array).length = (a.rows * a.cols) % 2 ^ 64
        simp only [vectorSub, List.length_zipWith, iha, ihm, hc, hr, Nat.min_self]
    | scaleAssign a v _ ih =>
      show (vectorScale a.array v).length = (a.rows * a.cols) % 2 ^ 64
      simp only [vectorScale, List.length_map, ih]
    | scale a v _ ih =>
      show (vectorScale a.array v).length = (a.rows * a.cols) % 2 ^ 64
      simp only [vectorScale, List.length_map, ih]
  refine ⟨key, fun hlt => ?_⟩
  show m.array.length = m.rows * m.cols
  rw [key, Nat.mod_eq_of_lt hlt]

theorem obtained_size_witness :
    Obtained ((Matrix.create 2 3 : Matrix Int).transpose) ∧
      ((Matrix.create 2 3 : Matrix Int).transpose).array.length = 6 ∧
      ((Matrix.create 2 3 : Matrix Int).transpose).array.length =
        (((Matrix.create 2 3 : Matrix Int).transpose).rows *
          ((Matrix.create 2 3 : Matrix Int).transpose).cols) % 2 ^ 64 :=
  ⟨.transpose _ (.create 2 3), by decide,
    (obtained_size _ (.transpose _ (.create 2 3))).1⟩

/-- C27, evaluated on a `2 x 3` matrix `a` and a `3 x 2` matrix `m`: `a += m`
raises `Exception` and leaves `a` unchanged, whereas `a + m`, which does not
compare the dimensions, raises nothing and returns a `2 x 3` matrix holding
the sums of the arrays. -/
theorem add_unchecked :
    exampleMatrixA.rows ≠ exampleMatrixB.rows ∧
      exampleMatrixA.addAssign exampleMatrixB = (exampleMatrixA, .error .Exception) ∧
      exampleMatrixA.add exampleMatrixB =
        .ok { cols := 3, rows := 2, array := [8, 10, 12, 14, 16, 18] } := by
  decide

/-! ## Inversion of a nonsingular matrix -/

theorem loop_sub_sum {T : Type} [LinearOrderedField T] (f : Nat → T) :
    ∀ (n lo : Nat) (s : T),
      loop (fun k (sum : T) => sum - f k) lo n s = s - ∑ k in Finset.Ico lo (lo + n), f k := by
  intro n
  induction n with
  | zero => intro lo s; simp [loop]
  | succ n ih =>
    intro lo s
    rw [loop, ih]
    have e : lo + 1 + n = lo + (n + 1) := by omega
    rw [e, Finset.sum_eq_sum_Ico_succ_bot (by omega : lo < lo + (n + 1))]
    ring

theorem loopDown_inv {σ : Type} (body : Nat → σ → σ) (P : Nat → σ → Prop) :
    ∀ (n hi : Nat) (s : σ), n ≤ hi → P hi s →
      (∀ i s, hi - n < i → i ≤ hi → P i s → P (i - 1) (body i s)) →
      P (hi - n) (loopDown body hi n s) := by
  intro n
  induction n with
  | zero => intro hi s _ h _; simpa [loopDown] using h
  | succ n ih =>
    intro hi s hn h hstep
    have h1 := hstep hi s (by omega) (Nat.le_refl _) h
    have := ih (hi - 1) (body hi s) (by omega) h1
      (fun i s hi1 hi2 hp => hstep i s (by omega) (by omega) hp)
    have e : hi - 1 - n = hi - (n + 1) := by omega
    rw [e] at this
    simpa [loopDown] using this

theorem set1_same {α : Type} (b : Nat → α) (i : Nat) (v : α) : set1 b i v i = v := by
  simp [set1]

theorem set1_other {α : Type} (b : Nat → α) (i k : Nat) (v : α) (h : k ≠ i) :
    set1 b i v k = b k := by
  simp [set1, h]

theorem set2_same {α : Type} (a : Nat → Nat → α) (i j : Nat) (v : α) : set2 a i j v i j = v := by
  simp [set2]

theorem set2_other {α : Type} (a : Nat → Nat → α) (i j r c : Nat) (v : α)
    (h : r ≠ i ∨ c ≠ j) : set2 a i j v r c = a r c := by
  unfold set2
  rw [if_neg]
  rintro ⟨h1, h2⟩
  rcases h with h | h
  · exact h h1
  · exact h h2

theorem swapIdx_self (p i : Nat) : swapIdx p p i = i := by
  unfold swapIdx
  by_cases h : i = p
  · simp [h]
  · simp [h]

theorem swapIdx_fix (p q i : Nat) (h1 : i ≠ p) (h2 : i ≠ q) : swapIdx p q i = i := by
  simp [swapIdx, h1, h2]

theorem swapIdx_swapIdx (p q i : Nat) : swapIdx p q (swapIdx p q i) = i := by
  unfold swapIdx
  by_cases h1 : i = p
  · by_cases h2 : q = p <;> simp [h1, h2]
  · by_cases h2 : i = q
    · simp [h1, h2]
    · simp [h1, h2]

theorem swapIdx_range (p q i lo hi : Nat) (hp : lo ≤ p ∧ p ≤ hi) (hq : lo ≤ q ∧ q ≤ hi)
    (h : lo ≤ i ∧ i ≤ hi) : lo ≤ swapIdx p q i ∧ swapIdx p q i ≤ hi := by
  unfold swapIdx
  split
  · exact hq
  · split
    · exact hp
    · exact h

theorem rowOrigin_congr (indx indx2 : Nat → Nat) :
    ∀ (p : Nat), (∀ c, 1 ≤ c → c ≤ p → indx c = indx2 c) →
      ∀ i, rowOrigin indx p i = rowOrigin indx2 p i := by
  intro p
  induction p with
  | zero => intro _ i; rfl
  | succ p ih =>
    intro h i
    simp only [rowOrigin]
    rw [h (p + 1) (by omega) (Nat.le_refl _)]
    exact ih (fun c h1 h2 => h c h1 (by omega)) _

theorem rowOrigin_low (indx : Nat → Nat) :
    ∀ (p q : Nat), (∀ c, q < c → c ≤ p → c ≤ indx c) →
      q ≤ p → ∀ i, i ≤ q → rowOrigin indx p i = rowOrigin indx q i := by
  intro p
  induction p with
  | zero => intro q _ hq i _; have : q = 0 := by omega
            subst this; rfl
  | succ p ih =>
    intro q h hq i hi
    by_cases e : q = p + 1
    · subst e; rfl
    · simp only [rowOrigin]
      have := h (p + 1) (by omega) (Nat.le_refl _)
      rw [swapIdx_fix _ _ _ (by omega) (by omega)]
      exact ih q (fun c h1 h2 => h c h1 (by omega)) (by omega) i hi

theorem rowOrigin_range (indx : Nat → Nat) (n : Nat) :
    ∀ (p : Nat), p ≤ n → (∀ c, 1 ≤ c → c ≤ p → c ≤ indx c ∧ indx c ≤ n) →
      ∀ i, 1 ≤ i → i ≤ n → 1 ≤ rowOrigin indx p i ∧ rowOrigin indx p i ≤ n := by
  intro p
  induction p with
  | zero => intro _ _ i h1 h2; exact ⟨h1, h2⟩
  | succ p ih =>
    intro hp h i h1 h2
    simp only [rowOrigin]
    have hr := h (p + 1) (by omega) (Nat.le_refl _)
    have := swapIdx_range (p + 1) (indx (p + 1)) i 1 n ⟨by omega, hp⟩ ⟨by omega, hr.2⟩ ⟨h1, h2⟩
    exact ih (by omega) (fun c c1 c2 => h c c1 (by omega)) _ this.1 this.2

theorem rowOrigin_surj (indx : Nat → Nat) (n : Nat) :
    ∀ (p : Nat), p ≤ n → (∀ c, 1 ≤ c → c ≤ p → c ≤ indx c ∧ indx c ≤ n) →
      ∀ r, 1 ≤ r → r ≤ n → ∃ i, 1 ≤ i ∧ i ≤ n ∧ rowOrigin indx p i = r := by
  intro p
  induction p with
  | zero => intro _ _ r h1 h2; exact ⟨r, h1, h2, rfl⟩
  | succ p ih =>
    intro hp h r h1 h2
    obtain ⟨i, hi1, hi2, hi3⟩ := ih (by omega) (fun c c1 c2 => h c c1 (by omega)) r h1 h2
    have hr := h (p + 1) (by omega) (Nat.le_refl _)
    have := swapIdx_range (p + 1) (indx (p + 1)) i 1 n ⟨by omega, hp⟩ ⟨by omega, hr.2⟩ ⟨hi1, hi2⟩
    refine ⟨swapIdx (p + 1) (indx (p + 1)) i, this.1, this.2, ?_⟩
    simp only [rowOrigin]
    rw [swapIdx_swapIdx]
    exact hi3

theorem ludcmpUpper_spec {T : Type} [LinearOrderedField T] (j : Nat) (a : Nat → Nat → T)
    (hj : 1 ≤ j) :
    (∀ r c, c ≠ j → ludcmpUpper j a r c = a r c) ∧
      (∀ r, j ≤ r → ludcmpUpper j a r j = a r j) ∧
      ∀ r, 1 ≤ r → r < j →
        ludcmpUpper j a r j + ∑ k in Finset.Ico 1 r, a r k * ludcmpUpper j a k j = a r j := by
  have h := loop_inv
    (fun i (a : Nat → Nat → T) =>
      set2 a i j (loop (fun k (sum : T) => sum - a i k * a k j) 1 (i - 1) (a i j)))
    (fun i a1 => (∀ r c, c ≠ j → a1 r c = a r c) ∧ (∀ r, i ≤ r → a1 r j = a r j) ∧
      ∀ r, 1 ≤ r → r < i → a1 r j + ∑ k in Finset.Ico 1 r, a r k * a1 k j = a r j)
    (j - 1) 1 a ⟨fun _ _ _ => rfl, fun _ _ => rfl, fun r h1 h2 => by omega⟩
    (by
      intro i a1 hi1 hi2 ⟨h1, h2, h3⟩
      beta_reduce
      have hval : loop (fun k (sum : T) => sum - a1 i k * a1 k j) 1 (i - 1) (a1 i j) =
          a i j - ∑ k in Finset.Ico 1 i, a i k * a1 k j := by
        rw [loop_sub_sum (fun k => a1 i k * a1 k j), h2 i (Nat.le_refl _)]
        have e : 1 + (i - 1) = i := by omega
        rw [e]
        congr 1
        apply Finset.sum_congr rfl
        intro k hk
        rw [Finset.mem_Ico] at hk
        rw [h1 i k (by omega)]
      refine ⟨?_, ?_, ?_⟩
      · intro r c hc
        rw [set2_other _ _ _ _ _ _ (.inr hc)]
        exact h1 r c hc
      · intro r hr
        rw [set2_other _ _ _ _ _ _ (.inl (by omega))]
        exact h2 r (by omega)
      · intro r hr1 hr2
        have hsum : ∀ r2, r2 ≤ i → ∑ k in Finset.Ico 1 r2, a r k *
            set2 a1 i j (loop (fun k (sum : T) => sum - a1 i k * a1 k j) 1 (i - 1) (a1 i j)) k j =
            ∑ k in Finset.Ico 1 r2, a r k * a1 k j := by
          intro r2 hr2
          apply Finset.sum_congr rfl
          intro k hk
          rw [Finset.mem_Ico] at hk
          rw [set2_other _ _ _ _ _ _ (.inl (by omega))]
        rw [hsum r (by omega)]
        by_cases e : r = i
        · subst e
          rw [set2_same, hval]
          ring
        · rw [set2_other _ _ _ _ _ _ (.inl e)]
          exact h3 r hr1 (by omega))
  have e : 1 + (j - 1) = j := by omega
  rw [e] at h
  exact h

theorem ludcmpLower_spec {T : Type} [LinearOrderedField T] (n j : Nat) (st : LUState T)
    (hj : 1 ≤ j) (hjn : j ≤ n) (hbig : st.big = 0) (hvv : 0 ≤ st.vv j) :
    (ludcmpLower n j st).vv = st.vv ∧ (ludcmpLower n j st).indx = st.indx ∧
      (∀ r c, c ≠ j → (ludcmpLower n j st).a r c = st.a r c) ∧
      (∀ r, r < j → (ludcmpLower n j st).a r j = st.a r j) ∧
      (∀ i, j ≤ i → i ≤ n → (ludcmpLower n j st).a i j =
        st.a i j - ∑ k in Finset.Ico 1 j, st.a i k * st.a k j) ∧
      (j ≤ (ludcmpLower n j st).imax ∧ (ludcmpLower n j st).imax ≤ n) ∧
      ∀ i, j ≤ i → i ≤ n → st.vv i * |(ludcmpLower n j st).a i j| ≤
        st.vv (ludcmpLower n j st).imax *
          |(ludcmpLower n j st).a (ludcmpLower n j st).imax j| := by
  unfold ludcmpLower
  have h := loop_inv
    (fun i (s : LUState T) =>
      if s.vv i * |loop (fun k (sum : T) => sum - s.a i k * s.a k j) 1 (j - 1) (s.a i j)| ≥ s.big
      then
        { s with
          a := set2 s.a i j (loop (fun k (sum : T) => sum - s.a i k * s.a k j) 1 (j - 1) (s.a i j)),
          big := s.vv i * |loop (fun k (sum : T) => sum - s.a i k * s.a k j) 1 (j - 1) (s.a i j)|,
          imax := i }
      else
        { s with
          a := set2 s.a i j
            (loop (fun k (sum : T) => sum - s.a i k * s.a k j) 1 (j - 1) (s.a i j)) })
    (fun i s => s.vv = st.vv ∧ s.indx = st.indx ∧
      (∀ r c, c ≠ j → s.a r c = st.a r c) ∧
      (∀ r, (r < j ∨ i ≤ r) → s.a r j = st.a r j) ∧
      (∀ r, j ≤ r → r < i → s.a r j = st.a r j - ∑ k in Finset.Ico 1 j, st.a r k * st.a k j) ∧
      (i = j → s.big = 0) ∧
      (j < i → (j ≤ s.imax ∧ s.imax < i) ∧ s.big = st.vv s.imax * |s.a s.imax j|) ∧
      ∀ r, j ≤ r → r < i → st.vv r * |s.a r j| ≤ s.big)
    (n + 1 - j) j st
    ⟨rfl, rfl, fun _ _ _ => rfl, fun _ _ => rfl, fun r h1 h2 => by omega, fun _ => hbig,
      fun h => by omega, fun r h1 h2 => by omega⟩
    (by
      intro i s hi1 hi2 ⟨h1, h2, h3, h4, h5, h6, h7, h8⟩
      beta_reduce
      have hval : loop (fun k (sum : T) => sum - s.a i k * s.a k j) 1 (j - 1) (s.a i j) =
          st.a i j - ∑ k in Finset.Ico 1 j, st.a i k * st.a k j := by
        rw [loop_sub_sum (fun k => s.a i k * s.a k j), h4 i (.inr (Nat.le_refl _))]
        have e : 1 + (j - 1) = j := by omega
        rw [e]
        congr 1
        apply Finset.sum_congr rfl
        intro k hk
        rw [Finset.mem_Ico] at hk
        rw [h3 i k (by omega), h4 k (.inl hk.2)]
      rw [hval]
      have ha3 : ∀ r c, c ≠ j →
          set2 s.a i j (st.a i j - ∑ k in Finset.Ico 1 j, st.a i k * st.a k j) r c = st.a r c := by
        intro r c hc
        rw [set2_other _ _ _ _ _ _ (.inr hc)]
        exact h3 r c hc
      have ha4 : ∀ r, (r < j ∨ i + 1 ≤ r) →
          set2 s.a i j (st.a i j - ∑ k in Finset.Ico 1 j, st.a i k * st.a k j) r j = st.a r j := by
        intro r hr
        rw [set2_other _ _ _ _ _ _ (.inl (by omega))]
        exact h4 r (by omega)
      have ha5 : ∀ r, j ≤ r → r < i + 1 →
          set2 s.a i j (st.a i j - ∑ k in Finset.Ico 1 j, st.a i k * st.a k j) r j =
            st.a r j - ∑ k in Finset.Ico 1 j, st.a r k * st.a k j := by
        intro r hr1 hr2
        by_cases e : r = i
        · subst e
          rw [set2_same]
        · rw [set2_other _ _ _ _ _ _ (.inl e)]
          exact h5 r hr1 (by omega)
      have hother : ∀ r, r ≠ i →
          set2 s.a i j (st.a i j - ∑ k in Finset.Ico 1 j, st.a i k * st.a k j) r j = s.a r j := by
        intro r hr
        rw [set2_other _ _ _ _ _ _ (.inl hr)]
      by_cases hc : s.vv i * |st.a i j - ∑ k in Finset.Ico 1 j, st.a i k * st.a k j| ≥ s.big
      · rw [if_pos hc]
        dsimp only
        refine ⟨h1, h2, ha3, ha4, ha5, fun h => by omega, fun _ => ⟨⟨by omega, by omega⟩, ?_⟩, ?_⟩
        · simp only [set2_same, h1]
        · intro r hr1 hr2
          by_cases e : r = i
          · subst e
            rw [set2_same, h1]
          · rw [hother r e]
            exact le_trans (h8 r hr1 (by omega)) hc
      · rw [if_neg hc]
        have hji : j < i := by
          rcases Nat.lt_or_ge j i with h | h
          · exact h
          · exfalso
            have e : i = j := by omega
            apply hc
            rw [h6 e, e, h1]
            exact mul_nonneg hvv (abs_nonneg _)
        dsimp only
        obtain ⟨⟨g1, g2⟩, g3⟩ := h7 hji
        refine ⟨h1, h2, ha3, ha4, ha5, fun h => by omega, fun _ => ⟨⟨g1, by omega⟩, ?_⟩, ?_⟩
        · rw [hother _ (by omega)]
          exact g3
        · intro r hr1 hr2
          by_cases e : r = i
          · subst e
            rw [set2_same]
            rw [h1] at hc
            exact le_of_lt (not_le.mp hc)
          · rw [hother r e]
            exact h8 r hr1 (by omega))
  have e : j + (n + 1 - j) = n + 1 := by omega
  rw [e] at h
  obtain ⟨h1, h2, h3, h4, h5, _, h7, h8⟩ := h
  obtain ⟨⟨g1, g2⟩, g3⟩ := h7 (by omega)
  refine ⟨h1, h2, h3, fun r hr => h4 r (.inl hr), fun i hi1 hi2 => h5 i hi1 (by omega),
    ⟨g1, by omega⟩, ?_⟩
  intro i hi1 hi2
  have := h8 i hi1 (by omega)
  rw [g3] at this
  exact this

theorem swap_rows {T : Type} (a : Nat → Nat → T) (p q n : Nat) (hpq : p ≠ q) :
    ∀ r c, 1 ≤ c → c ≤ n →
      loop (fun k (a : Nat → Nat → T) => set2 (set2 a q k (a p k)) p k (a q k)) 1 n a r c =
        a (swapIdx p q r) c := by
  have h := loop_inv
    (fun k (a : Nat → Nat → T) => set2 (set2 a q k (a p k)) p k (a q k))
    (fun k a1 => ∀ r c, (1 ≤ c → c < k → a1 r c = a (swapIdx p q r) c) ∧
      (k ≤ c → a1 r c = a r c))
    n 1 a (fun r c => ⟨fun h1 h2 => by omega, fun _ => rfl⟩)
    (by
      intro k a1 hk1 hk2 h r c
      beta_reduce
      constructor
      · intro hc1 hc2
        by_cases hck : c = k
        · subst hck
          by_cases hrp : r = p
          · subst hrp
            rw [set2_same, (h q c).2 (Nat.le_refl _)]
            simp [swapIdx]
          · rw [set2_other _ _ _ _ _ _ (.inl hrp)]
            by_cases hrq : r = q
            · subst hrq
              rw [set2_same, (h p c).2 (Nat.le_refl _)]
              simp [swapIdx, hrp]
            · rw [set2_other _ _ _ _ _ _ (.inl hrq), (h r c).2 (Nat.le_refl _),
                swapIdx_fix _ _ _ hrp hrq]
        · rw [set2_other _ _ _ _ _ _ (.inr hck), set2_other _ _ _ _ _ _ (.inr hck)]
          exact (h r c).1 hc1 (by omega)
      · intro hc
        rw [set2_other _ _ _ _ _ _ (.inr (by omega)), set2_other _ _ _ _ _ _ (.inr (by omega))]
        exact (h r c).2 (by omega))
  intro r c hc1 hc2
  exact (h r c).1 hc1 (by omega)

theorem ludcmpSwap_spec {T : Type} [LinearOrderedField T] (n j : Nat) (st : LUState T) :
    (ludcmpSwap n j st).indx = st.indx ∧ (ludcmpSwap n j st).imax = st.imax ∧
      (∀ r c, 1 ≤ c → c ≤ n → (ludcmpSwap n j st).a r c = st.a (swapIdx j st.imax r) c) ∧
      ∀ i, (ludcmpSwap n j st).vv i = st.vv i ∨ (ludcmpSwap n j st).vv i = st.vv j := by
  unfold ludcmpSwap
  by_cases h : j ≠ st.imax
  · rw [if_pos h]
    refine ⟨rfl, rfl, ?_, ?_⟩
    · intro r c hc1 hc2
      exact swap_rows st.a j st.imax n h r c hc1 hc2
    · intro i
      dsimp only
      by_cases e : i = st.imax
      · right; rw [e, set1_same]
      · left; rw [set1_other _ _ _ _ e]
  · rw [if_neg h]
    have e : j = st.imax := by
      by_contra hne
      exact h hne
    refine ⟨rfl, rfl, ?_, fun i => .inl rfl⟩
    intro r c _ _
    rw [← e, swapIdx_self]

theorem ludcmpDivide_spec {T : Type} [LinearOrderedField T] (n j : Nat) (st : LUState T)
    (hjn : j ≤ n) (hp : st.a j j ≠ 0) :
    (ludcmpDivide n j st).indx = set1 st.indx j st.imax ∧ (ludcmpDivide n j st).vv = st.vv ∧
      (∀ r c, (c ≠ j ∨ r ≤ j) → (ludcmpDivide n j st).a r c = st.a r c) ∧
      ∀ i, j < i → i ≤ n → (ludcmpDivide n j st).a i j = st.a i j * (1 / st.a j j) := by
  unfold ludcmpDivide
  by_cases h : j ≠ n
  · rw [if_pos h, if_neg hp]
    have hl := loop_inv
      (fun i (a : Nat → Nat → T) => set2 a i j (a i j * (1 / st.a j j)))
      (fun i a1 => (∀ r c, (c ≠ j ∨ r ≤ j ∨ i ≤ r) → a1 r c = st.a r c) ∧
        ∀ r, j < r → r < i → a1 r j = st.a r j * (1 / st.a j j))
      (n - j) (j + 1) st.a ⟨fun _ _ _ => rfl, fun r h1 h2 => by omega⟩
      (by
        intro i a1 hi1 hi2 ⟨h1, h2⟩
        beta_reduce
        constructor
        · intro r c hrc
          rw [set2_other _ _ _ _ _ _ (by omega)]
          exact h1 r c (by omega)
        · intro r hr1 hr2
          by_cases e : r = i
          · subst e
            rw [set2_same, h1 r j (.inr (.inr (Nat.le_refl _)))]
          · rw [set2_other _ _ _ _ _ _ (.inl e)]
            exact h2 r hr1 (by omega))
    have e : j + 1 + (n - j) = n + 1 := by omega
    rw [e] at hl
    refine ⟨rfl, rfl, ?_, ?_⟩
    · intro r c hrc
      exact hl.1 r c (by omega)
    · intro i hi1 hi2
      exact hl.2 i hi1 (by omega)
  · rw [if_neg h, if_neg hp]
    refine ⟨rfl, rfl, fun _ _ _ => rfl, ?_⟩
    intro i hi1 hi2
    have : j = n := by
      by_contra hne
      exact h hne
    omega

theorem sum_split3 {T : Type} [LinearOrderedField T] (f : Nat → T) (m p : Nat) (h1 : 1 ≤ m)
    (h2 : m ≤ p) :
    ∑ k in Finset.Ico 1 (p + 1), f k =
      ∑ k in Finset.Ico 1 m, f k + f m + ∑ k in Finset.Ico (m + 1) (p + 1), f k := by
  rw [← Finset.sum_Ico_consecutive f h1 (by omega : m ≤ p + 1),
    Finset.sum_eq_sum_Ico_succ_bot (by omega : m < p + 1)]
  ring

theorem backsub_spec {T : Type} [LinearOrderedField T] (a : Nat → Nat → T) (n : Nat)
    (b0 : Nat → T) (hp : ∀ k, 1 ≤ k → k ≤ n → a k k ≠ 0) :
    ∀ k, 1 ≤ k → k ≤ n →
      ∑ c in Finset.Ico k (n + 1), a k c *
        loopDown (fun i (b : Nat → T) =>
          set1 b i (loop (fun j (sum : T) => sum - a i j * b j) (i + 1) (n - i) (b i) / a i i))
          n n b0 c = b0 k := by
  have h := loopDown_inv
    (fun i (b : Nat → T) =>
      set1 b i (loop (fun j (sum : T) => sum - a i j * b j) (i + 1) (n - i) (b i) / a i i))
    (fun i b => (∀ k, k ≤ i → b k = b0 k) ∧
      ∀ k, i < k → k ≤ n → ∑ c in Finset.Ico k (n + 1), a k c * b c = b0 k)
    n n b0 (Nat.le_refl _) ⟨fun _ _ => rfl, fun k h1 h2 => by omega⟩
    (by
      intro i b hi1 hi2 ⟨h1, h2⟩
      beta_reduce
      have hi0 : 1 ≤ i := by omega
      rw [loop_sub_sum (fun j => a i j * b j)]
      have e : i + 1 + (n - i) = n + 1 := by omega
      rw [e, h1 i (Nat.le_refl _)]
      constructor
      · intro k hk
        rw [set1_other _ _ _ _ (by omega)]
        exact h1 k (by omega)
      · intro k hk1 hk2
        by_cases hki : k = i
        · subst hki
          rw [Finset.sum_eq_sum_Ico_succ_bot (by omega : k < n + 1), set1_same]
          have hs : ∑ c in Finset.Ico (k + 1) (n + 1), a k c *
              set1 b k ((b0 k - ∑ k_1 in Finset.Ico (k + 1) (n + 1), a k k_1 * b k_1) / a k k) c =
              ∑ c in Finset.Ico (k + 1) (n + 1), a k c * b c := by
            apply Finset.sum_congr rfl
            intro c hc
            rw [Finset.mem_Ico] at hc
            rw [set1_other _ _ _ _ (by omega)]
          rw [hs, mul_div_cancel₀ _ (hp k hi0 hi2)]
          ring
        · have hs : ∑ c in Finset.Ico k (n + 1), a k c *
              set1 b i ((b0 i - ∑ k_1 in Finset.Ico (i + 1) (n + 1), a i k_1 * b k_1) / a i i) c =
              ∑ c in Finset.Ico k (n + 1), a k c * b c := by
            apply Finset.sum_congr rfl
            intro c hc
            rw [Finset.mem_Ico] at hc
            rw [set1_other _ _ _ _ (by omega)]
          rw [hs]
          exact h2 k (by omega) hk2)
  intro k hk1 hk2
  exact h.2 k (by omega) hk2

theorem upperFactor_sum {T : Type} [LinearOrderedField T] (a : Nat → Nat → T) (n k : Nat)
    (x : Nat → T) (hk1 : 1 ≤ k) (hk2 : k ≤ n) :
    ∑ c in Finset.Ico 1 (n + 1), upperFactor a k c * x c =
      ∑ c in Finset.Ico k (n + 1), a k c * x c := by
  rw [← Finset.sum_Ico_consecutive _ hk1 (by omega : k ≤ n + 1)]
  have h1 : ∑ c in Finset.Ico 1 k, upperFactor a k c * x c = 0 := by
    apply Finset.sum_eq_zero
    intro c hc
    rw [Finset.mem_Ico] at hc
    simp [upperFactor, not_le.mpr hc.2]
  have h2 : ∑ c in Finset.Ico k (n + 1), upperFactor a k c * x c =
      ∑ c in Finset.Ico k (n + 1), a k c * x c := by
    apply Finset.sum_congr rfl
    intro c hc
    rw [Finset.mem_Ico] at hc
    simp [upperFactor, hc.1]
  rw [h1, h2, zero_add]

theorem lowerFactor_sum {T : Type} [LinearOrderedField T] (a : Nat → Nat → T) (n i : Nat)
    (y : Nat → T) (hi1 : 1 ≤ i) (hi2 : i ≤ n) :
    ∑ k in Finset.Ico 1 (n + 1), lowerFactor a i k * y k =
      y i + ∑ k in Finset.Ico 1 i, a i k * y k := by
  rw [sum_split3 _ i n hi1 hi2]
  have h1 : ∑ k in Finset.Ico 1 i, lowerFactor a i k * y k =
      ∑ k in Finset.Ico 1 i, a i k * y k := by
    apply Finset.sum_congr rfl
    intro k hk
    rw [Finset.mem_Ico] at hk
    simp [lowerFactor, hk.2]
  have h2 : ∑ k in Finset.Ico (i + 1) (n + 1), lowerFactor a i k * y k = 0 := by
    apply Finset.sum_eq_zero
    intro k hk
    rw [Finset.mem_Ico] at hk
    have e1 : ¬ k < i := by omega
    have e2 : ¬ k = i := by omega
    simp [lowerFactor, e1, e2]
  rw [h1, h2]
  simp [lowerFactor]
  ring

theorem upper_solve {T : Type} [LinearOrderedField T] (a : Nat → Nat → T) (p : Nat)
    (hp : ∀ k, 1 ≤ k → k ≤ p → a k k ≠ 0) (u : Nat → T) :
    ∃ w : Nat → T, ∀ k, 1 ≤ k → k ≤ p →
      ∑ c in Finset.Ico 1 (p + 1), upperFactor a k c * w c = u k := by
  refine ⟨loopDown (fun i (b : Nat → T) =>
      set1 b i (loop (fun j (sum : T) => sum - a i j * b j) (i + 1) (p - i) (b i) / a i i))
      p p u, fun k hk1 hk2 => ?_⟩
  rw [upperFactor_sum a p k _ hk1 hk2]
  exact backsub_spec a p u hp k hk1 hk2

theorem LUInv.factors {T : Type} [LinearOrderedField T] {n : Nat} {A0 : Nat → Nat → T} {p : Nat}
    {st : LUState T} (h : LUInv n A0 p st) :
    ∀ i c, 1 ≤ i → i ≤ n → 1 ≤ c → c ≤ p →
      ∑ k in Finset.Ico 1 (p + 1), lowerFactor st.a i k * upperFactor st.a k c =
        A0 (rowOrigin st.indx p i) c := by
  intro i c hi1 hi2 hc1 hc2
  by_cases hic : i ≤ c
  · rw [sum_split3 _ i p hi1 (by omega), ← h.upper i c hi1 hic hc2]
    have h1 : ∑ k in Finset.Ico 1 i, lowerFactor st.a i k * upperFactor st.a k c =
        ∑ k in Finset.Ico 1 i, st.a i k * st.a k c := by
      apply Finset.sum_congr rfl
      intro k hk
      rw [Finset.mem_Ico] at hk
      have e : k ≤ c := by omega
      simp [lowerFactor, upperFactor, hk.2, e]
    have h2 : ∑ k in Finset.Ico (i + 1) (p + 1), lowerFactor st.a i k * upperFactor st.a k c = 0 := by
      apply Finset.sum_eq_zero
      intro k hk
      rw [Finset.mem_Ico] at hk
      have e1 : ¬ k < i := by omega
      have e2 : ¬ k = i := by omega
      simp [lowerFactor, e1, e2]
    rw [h1, h2]
    simp [lowerFactor, upperFactor, hic]
    ring
  · have hci : c < i := by omega
    rw [sum_split3 _ c p hc1 hc2, ← h.lower i c hc1 hci hi2 hc2]
    have h1 : ∑ k in Finset.Ico 1 c, lowerFactor st.a i k * upperFactor st.a k c =
        ∑ k in Finset.Ico 1 c, st.a i k * st.a k c := by
      apply Finset.sum_congr rfl
      intro k hk
      rw [Finset.mem_Ico] at hk
      have e : k ≤ c := by omega
      have e2 : k < i := by omega
      simp [lowerFactor, upperFactor, e, e2]
    have h2 : ∑ k in Finset.Ico (c + 1) (p + 1), lowerFactor st.a i k * upperFactor st.a k c = 0 := by
      apply Finset.sum_eq_zero
      intro k hk
      rw [Finset.mem_Ico] at hk
      have e1 : ¬ k ≤ c := by omega
      simp [upperFactor, e1]
    rw [h1, h2]
    simp [lowerFactor, upperFactor, hci]

theorem pivot_exists {T : Type} [LinearOrderedField T] (n p : Nat) (hpn : p < n)
    (A0 : Nat → Nat → T) (σ : Nat → Nat) (a : Nat → Nat → T) (u : Nat → T)
    (hsurj : ∀ r, 1 ≤ r → r ≤ n → ∃ i, 1 ≤ i ∧ i ≤ n ∧ σ i = r)
    (hfac : ∀ i c, 1 ≤ i → i ≤ n → 1 ≤ c → c ≤ p →
      ∑ k in Finset.Ico 1 (p + 1), lowerFactor a i k * upperFactor a k c = A0 (σ i) c)
    (hpiv : ∀ c, 1 ≤ c → c ≤ p → a c c ≠ 0)
    (hcol : ∀ i, 1 ≤ i → i ≤ n →
      ∑ k in Finset.Ico 1 (p + 1), lowerFactor a i k * u k = A0 (σ i) (p + 1))
    (hker : ∀ v : Nat → T,
      (∀ r, 1 ≤ r → r ≤ n → ∑ c in Finset.Ico 1 (n + 1), A0 r c * v c = 0) →
      ∀ c, 1 ≤ c → c ≤ n → v c = 0) : False := by
  obtain ⟨w, hw⟩ := upper_solve a p hpiv u
  have hv := hker (fun c => if c ≤ p then w c else if c = p + 1 then -1 else 0)
    (by
      intro r hr1 hr2
      obtain ⟨i, hi1, hi2, rfl⟩ := hsurj r hr1 hr2
      rw [sum_split3 _ (p + 1) n (by omega) (by omega)]
      beta_reduce
      have h1 : ∑ c in Finset.Ico 1 (p + 1), A0 (σ i) c *
          (if c ≤ p then w c else if c = p + 1 then -1 else 0) =
          ∑ k in Finset.Ico 1 (p + 1), lowerFactor a i k * u k := by
        have e1 : ∑ c in Finset.Ico 1 (p + 1), A0 (σ i) c *
            (if c ≤ p then w c else if c = p + 1 then -1 else 0) =
            ∑ c in Finset.Ico 1 (p + 1),
              ∑ k in Finset.Ico 1 (p + 1), lowerFactor a i k * (upperFactor a k c * w c) := by
          apply Finset.sum_congr rfl
          intro c hc
          rw [Finset.mem_Ico] at hc
          rw [if_pos (by omega), ← hfac i c hi1 hi2 hc.1 (by omega), Finset.sum_mul]
          apply Finset.sum_congr rfl
          intro k _
          ring
        rw [e1, Finset.sum_comm]
        apply Finset.sum_congr rfl
        intro k hk
        rw [Finset.mem_Ico] at hk
        rw [← Finset.mul_sum, hw k hk.1 (by omega)]
      have h2 : ∑ c in Finset.Ico (p + 1 + 1) (n + 1), A0 (σ i) c *
          (if c ≤ p then w c else if c = p + 1 then -1 else 0) = 0 := by
        apply Finset.sum_eq_zero
        intro c hc
        rw [Finset.mem_Ico] at hc
        rw [if_neg (by omega), if_neg (by omega), mul_zero]
      rw [h1, h2, if_neg (by omega), if_pos rfl, hcol i hi1 hi2]
      ring)
    (p + 1) (by omega) (by omega)
  beta_reduce at hv
  rw [if_neg (by omega), if_pos rfl] at hv
  have : (1 : T) = 0 := by linarith
  exact one_ne_zero this

theorem pivot_ne_zero {T : Type} [LinearOrderedField T] (n p : Nat) (A0 : Nat → Nat → T)
    (st : LUState T) (a1 a2 : Nat → Nat → T) (imax : Nat)
    (hpn : p < n) (h : LUInv n A0 p st)
    (hker : ∀ v : Nat → T,
      (∀ r, 1 ≤ r → r ≤ n → ∑ c in Finset.Ico 1 (n + 1), A0 r c * v c = 0) →
      ∀ c, 1 ≤ c → c ≤ n → v c = 0)
    (F3 : ∀ r, 1 ≤ r → r < p + 1 →
      a1 r (p + 1) + ∑ k in Finset.Ico 1 r, st.a r k * a1 k (p + 1) = st.a r (p + 1))
    (G5 : ∀ i, p + 1 ≤ i → i ≤ n →
      a2 i (p + 1) = st.a i (p + 1) - ∑ k in Finset.Ico 1 (p + 1), st.a i k * a1 k (p + 1))
    (G7 : ∀ i, p + 1 ≤ i → i ≤ n →
      st.vv i * |a2 i (p + 1)| ≤ st.vv imax * |a2 imax (p + 1)|) :
    a2 imax (p + 1) ≠ 0 := by
  intro hz
  have hzero : ∀ i, p + 1 ≤ i → i ≤ n → a2 i (p + 1) = 0 := by
    intro i hi1 hi2
    have h1 := G7 i hi1 hi2
    rw [hz, abs_zero, mul_zero] at h1
    have hv := h.scale i (by omega) hi2
    have h2 : |a2 i (p + 1)| ≤ 0 := by
      by_contra hc
      have hpos : 0 < |a2 i (p + 1)| := not_le.mp hc
      have := mul_pos hv hpos
      linarith
    exact abs_eq_zero.mp (le_antisymm h2 (abs_nonneg _))
  apply pivot_exists n p hpn A0 (rowOrigin st.indx p) st.a (fun k => a1 k (p + 1))
    (rowOrigin_surj st.indx n p (by omega) h.indx_range) h.factors h.pivot ?_ hker
  intro i hi1 hi2
  rw [← h.todo i (p + 1) hi1 hi2 (by omega) (by omega)]
  by_cases hip : i ≤ p
  · rw [lowerFactor_sum st.a p i (fun k => a1 k (p + 1)) hi1 hip]
    exact F3 i hi1 (by omega)
  · have hs : ∑ k in Finset.Ico 1 (p + 1), lowerFactor st.a i k * (fun k => a1 k (p + 1)) k =
        ∑ k in Finset.Ico 1 (p + 1), st.a i k * a1 k (p + 1) := by
      apply Finset.sum_congr rfl
      intro k hk
      rw [Finset.mem_Ico] at hk
      have e : k < i := by omega
      simp [lowerFactor, e]
    rw [hs]
    have := G5 i (by omega) hi2
    rw [hzero i (by omega) hi2] at this
    linarith


theorem column_step {T : Type} [LinearOrderedField T] (n p : Nat) (A0 : Nat → Nat → T)
    (st st4 : LUState T) (a1 a2 a3 : Nat → Nat → T) (imax : Nat)
    (hpn : p < n) (h : LUInv n A0 p st)
    (F1 : ∀ r c, c ≠ p + 1 → a1 r c = st.a r c)
    (F3 : ∀ r, 1 ≤ r → r < p + 1 →
      a1 r (p + 1) + ∑ k in Finset.Ico 1 r, st.a r k * a1 k (p + 1) = st.a r (p + 1))
    (G3 : ∀ r c, c ≠ p + 1 → a2 r c = a1 r c)
    (G4 : ∀ r, r < p + 1 → a2 r (p + 1) = a1 r (p + 1))
    (G5 : ∀ i, p + 1 ≤ i → i ≤ n →
      a2 i (p + 1) = st.a i (p + 1) - ∑ k in Finset.Ico 1 (p + 1), st.a i k * a1 k (p + 1))
    (G6 : p + 1 ≤ imax ∧ imax ≤ n)
    (H1 : ∀ r c, 1 ≤ c → c ≤ n → a3 r c = a2 (swapIdx (p + 1) imax r) c)
    (H2 : ∀ i, p + 1 < i → i ≤ n → 0 < st4.vv i)
    (D1 : st4.indx = set1 st.indx (p + 1) imax)
    (D2 : ∀ r c, (c ≠ p + 1 ∨ r ≤ p + 1) → st4.a r c = a3 r c)
    (D3 : ∀ i, p + 1 < i → i ≤ n → st4.a i (p + 1) = a3 i (p + 1) * (1 / a3 (p + 1) (p + 1)))
    (hpiv : a3 (p + 1) (p + 1) ≠ 0) :
    LUInv n A0 (p + 1) st4 := by
  have hsw_low : ∀ r, r < p + 1 → swapIdx (p + 1) imax r = r :=
    fun r hr => swapIdx_fix _ _ _ (by omega) (by omega)
  have hsw_j : swapIdx (p + 1) imax (p + 1) = imax := by simp [swapIdx]
  have hsw_range : ∀ i, p + 1 ≤ i → i ≤ n →
      p + 1 ≤ swapIdx (p + 1) imax i ∧ swapIdx (p + 1) imax i ≤ n :=
    fun i h1 h2 => swapIdx_range _ _ _ _ _ ⟨Nat.le_refl _, by omega⟩ G6 ⟨h1, h2⟩
  have hsw_all : ∀ i, 1 ≤ i → i ≤ n →
      1 ≤ swapIdx (p + 1) imax i ∧ swapIdx (p + 1) imax i ≤ n :=
    fun i h1 h2 => swapIdx_range _ _ _ _ _ ⟨by omega, by omega⟩ ⟨by omega, G6.2⟩ ⟨h1, h2⟩
  have hrow : ∀ i, rowOrigin st4.indx (p + 1) i =
      rowOrigin st.indx p (swapIdx (p + 1) imax i) := by
    intro i
    simp only [rowOrigin]
    rw [D1, set1_same]
    apply rowOrigin_congr
    intro c _ hc2
    rw [set1_other _ _ _ _ (by omega)]
  -- the elements of the array after the column
  have E_other : ∀ r c, 1 ≤ c → c ≤ n → c ≠ p + 1 →
      st4.a r c = st.a (swapIdx (p + 1) imax r) c := by
    intro r c hc1 hc2 hc
    rw [D2 r c (.inl hc), H1 r c hc1 hc2, G3 _ c hc, F1 _ c hc]
  have E_up : ∀ r, r < p + 1 → st4.a r (p + 1) = a1 r (p + 1) := by
    intro r hr
    rw [D2 r _ (.inr (by omega)), H1 r _ (by omega) (by omega), hsw_low r hr, G4 r hr]
  have E_diag : st4.a (p + 1) (p + 1) = a3 (p + 1) (p + 1) := D2 _ _ (.inr (Nat.le_refl _))
  have E_piv : a3 (p + 1) (p + 1) =
      st.a imax (p + 1) - ∑ k in Finset.Ico 1 (p + 1), st.a imax k * a1 k (p + 1) := by
    rw [H1 _ _ (by omega) (by omega), hsw_j, G5 imax G6.1 G6.2]
  have E_below : ∀ i, p + 1 < i → i ≤ n →
      st4.a i (p + 1) * st4.a (p + 1) (p + 1) =
        st.a (swapIdx (p + 1) imax i) (p + 1) -
          ∑ k in Finset.Ico 1 (p + 1), st.a (swapIdx (p + 1) imax i) k * a1 k (p + 1) := by
    intro i hi1 hi2
    have hr := hsw_range i (by omega) hi2
    rw [D3 i hi1 hi2, E_diag, mul_assoc, one_div, inv_mul_cancel₀ hpiv, mul_one,
      H1 _ _ (by omega) (by omega), G5 _ hr.1 hr.2]
  refine ⟨?_, ?_, ?_, ?_, ?_, ?_⟩
  · -- indx_range
    intro c hc1 hc2
    rw [D1]
    by_cases e : c = p + 1
    · subst e
      rw [set1_same]
      exact G6
    · rw [set1_other _ _ _ _ e]
      exact h.indx_range c hc1 (by omega)
  · -- todo
    intro i c hi1 hi2 hc1 hc2
    rw [hrow, E_other i c (by omega) hc2 (by omega)]
    have hr := hsw_all i hi1 hi2
    exact h.todo _ c hr.1 hr.2 (by omega) hc2
  · -- upper
    intro i c hi1 hic hc
    rw [hrow]
    by_cases hcp : c ≤ p
    · rw [hsw_low i (by omega)]
      have e1 : st4.a i c = st.a i c := by
        rw [E_other i c (by omega) (by omega) (by omega), hsw_low i (by omega)]
      have e2 : ∑ k in Finset.Ico 1 i, st4.a i k * st4.a k c =
          ∑ k in Finset.Ico 1 i, st.a i k * st.a k c := by
        apply Finset.sum_congr rfl
        intro k hk
        rw [Finset.mem_Ico] at hk
        rw [E_other i k hk.1 (by omega) (by omega), hsw_low i (by omega),
          E_other k c (by omega) (by omega) (by omega), hsw_low k (by omega)]
      rw [e1, e2]
      exact h.upper i c hi1 hic hcp
    · have hcj : c = p + 1 := by omega
      subst hcj
      by_cases hij : i < p + 1
      · rw [hsw_low i hij, E_up i hij]
        have e2 : ∑ k in Finset.Ico 1 i, st4.a i k * st4.a k (p + 1) =
            ∑ k in Finset.Ico 1 i, st.a i k * a1 k (p + 1) := by
          apply Finset.sum_congr rfl
          intro k hk
          rw [Finset.mem_Ico] at hk
          rw [E_other i k hk.1 (by omega) (by omega), hsw_low i hij, E_up k (by omega)]
        rw [e2, F3 i hi1 hij]
        exact h.todo i (p + 1) hi1 (by omega) (by omega) (by omega)
      · have hi : i = p + 1 := by omega
        subst hi
        rw [hsw_j, E_diag, E_piv]
        have e2 : ∑ k in Finset.Ico 1 (p + 1), st4.a (p + 1) k * st4.a k (p + 1) =
            ∑ k in Finset.Ico 1 (p + 1), st.a imax k * a1 k (p + 1) := by
          apply Finset.sum_congr rfl
          intro k hk
          rw [Finset.mem_Ico] at hk
          rw [E_other (p + 1) k hk.1 (by omega) (by omega), hsw_j, E_up k hk.2]
        rw [e2, sub_add_cancel]
        exact h.todo imax (p + 1) (by omega) G6.2 (by omega) (by omega)
  · -- lower
    intro i c hc1 hci hi2 hc
    rw [hrow]
    have hr := hsw_all i (by omega) hi2
    by_cases hcp : c ≤ p
    · have hlt : c < swapIdx (p + 1) imax i := by
        by_cases hij : i < p + 1
        · rw [hsw_low i hij]; exact hci
        · have := hsw_range i (by omega) hi2
          omega
      have e1 : ∑ k in Finset.Ico 1 c, st4.a i k * st4.a k c =
          ∑ k in Finset.Ico 1 c, st.a (swapIdx (p + 1) imax i) k * st.a k c := by
        apply Finset.sum_congr rfl
        intro k hk
        rw [Finset.mem_Ico] at hk
        rw [E_other i k hk.1 (by omega) (by omega),
          E_other k c (by omega) (by omega) (by omega), hsw_low k (by omega)]
      rw [e1, E_other i c hc1 (by omega) (by omega),
        E_other c c hc1 (by omega) (by omega), hsw_low c (by omega)]
      exact h.lower _ c hc1 hlt hr.2 hcp
    · have hcj : c = p + 1 := by omega
      subst hcj
      have e1 : ∑ k in Finset.Ico 1 (p + 1), st4.a i k * st4.a k (p + 1) =
          ∑ k in Finset.Ico 1 (p + 1), st.a (swapIdx (p + 1) imax i) k * a1 k (p + 1) := by
        apply Finset.sum_congr rfl
        intro k hk
        rw [Finset.mem_Ico] at hk
        rw [E_other i k hk.1 (by omega) (by omega), E_up k hk.2]
      rw [e1, E_below i hci hi2, add_sub_cancel]
      exact h.todo _ (p + 1) hr.1 hr.2 (by omega) (by omega)
  · -- pivot
    intro c hc1 hc2
    by_cases hcp : c ≤ p
    · rw [E_other c c hc1 (by omega) (by omega), hsw_low c (by omega)]
      exact h.pivot c hc1 hcp
    · have hcj : c = p + 1 := by omega
      subst hcj
      rw [E_diag]
      exact hpiv
  · -- scale
    exact H2


theorem ludcmpColumn_inv {T : Type} [LinearOrderedField T] (n p : Nat) (A0 : Nat → Nat → T)
    (st : LUState T) (hpn : p < n) (h : LUInv n A0 p st)
    (hker : ∀ v : Nat → T,
      (∀ r, 1 ≤ r → r ≤ n → ∑ c in Finset.Ico 1 (n + 1), A0 r c * v c = 0) →
      ∀ c, 1 ≤ c → c ≤ n → v c = 0) :
    LUInv n A0 (p + 1) (ludcmpColumn n (p + 1) st) := by
  unfold ludcmpColumn
  obtain ⟨F1, F2, F3⟩ := ludcmpUpper_spec (p + 1) st.a (by omega)
  obtain ⟨G1, G2, G3, G4, G5, G6, G7⟩ := ludcmpLower_spec n (p + 1)
    { st with a := ludcmpUpper (p + 1) st.a, big := 0 } (by omega) (by omega) rfl
    (le_of_lt (h.scale (p + 1) (by omega) (by omega)))
  obtain ⟨H0, Himax, H1, Hvv⟩ := ludcmpSwap_spec n (p + 1)
    (ludcmpLower n (p + 1) { st with a := ludcmpUpper (p + 1) st.a, big := 0 })
  have G5b : ∀ i, p + 1 ≤ i → i ≤ n →
      (ludcmpLower n (p + 1) { st with a := ludcmpUpper (p + 1) st.a, big := 0 }).a i (p + 1) =
        st.a i (p + 1) -
          ∑ k in Finset.Ico 1 (p + 1), st.a i k * ludcmpUpper (p + 1) st.a k (p + 1) := by
    intro i hi1 hi2
    rw [G5 i hi1 hi2]
    dsimp only
    rw [F2 i hi1]
    congr 1
    apply Finset.sum_congr rfl
    intro k hk
    rw [Finset.mem_Ico] at hk
    rw [F1 i k (by omega)]
  have hpiv0 := pivot_ne_zero n p A0 st (ludcmpUpper (p + 1) st.a)
    (ludcmpLower n (p + 1) { st with a := ludcmpUpper (p + 1) st.a, big := 0 }).a
    (ludcmpLower n (p + 1) { st with a := ludcmpUpper (p + 1) st.a, big := 0 }).imax
    hpn h hker F3 G5b
    (by
      intro i hi1 hi2
      have := G7 i hi1 hi2
      exact this)
  have hpiv : (ludcmpSwap n (p + 1)
      (ludcmpLower n (p + 1) { st with a := ludcmpUpper (p + 1) st.a, big := 0 })).a
      (p + 1) (p + 1) ≠ 0 := by
    rw [H1 _ _ (by omega) (by omega)]
    have e : swapIdx (p + 1)
        (ludcmpLower n (p + 1) { st with a := ludcmpUpper (p + 1) st.a, big := 0 }).imax (p + 1) =
        (ludcmpLower n (p + 1) { st with a := ludcmpUpper (p + 1) st.a, big := 0 }).imax := by
      simp [swapIdx]
    rw [e]
    exact hpiv0
  obtain ⟨D1, Dvv, D2, D3⟩ := ludcmpDivide_spec n (p + 1)
    (ludcmpSwap n (p + 1)
      (ludcmpLower n (p + 1) { st with a := ludcmpUpper (p + 1) st.a, big := 0 }))
    (by omega) hpiv
  exact column_step n p A0 st _ (ludcmpUpper (p + 1) st.a)
    (ludcmpLower n (p + 1) { st with a := ludcmpUpper (p + 1) st.a, big := 0 }).a
    (ludcmpSwap n (p + 1)
      (ludcmpLower n (p + 1) { st with a := ludcmpUpper (p + 1) st.a, big := 0 })).a
    (ludcmpLower n (p + 1) { st with a := ludcmpUpper (p + 1) st.a, big := 0 }).imax
    hpn h F1 F3 G3 G4 G5b G6 H1
    (by
      intro i hi1 hi2
      rw [Dvv]
      rcases Hvv i with e | e
      · rw [e, G1]
        exact h.scale i (by omega) hi2
      · rw [e, G1]
        exact h.scale (p + 1) (by omega) (by omega))
    (by rw [D1, H0, Himax, G2])
    D2 D3 hpiv

theorem ludcmpScaling_pos {T : Type} [LinearOrderedField T] (a : Nat → Nat → T) (n : Nat)
    (hrow : ∀ i, 1 ≤ i → i ≤ n → ∃ c, 1 ≤ c ∧ c ≤ n ∧ a i c ≠ 0) :
    ∀ i, 1 ≤ i → i ≤ n → 0 < ludcmpScaling a n i := by
  have hmax : ∀ i, ∀ c, 1 ≤ c → c ≤ n →
      |a i c| ≤ loop (fun j (big : T) => if |a i j| > big then |a i j| else big) 1 n 0 := by
    intro i
    have h := loop_inv (fun j (big : T) => if |a i j| > big then |a i j| else big)
      (fun j big => ∀ c, 1 ≤ c → c < j → |a i c| ≤ big) n 1 0
      (fun c h1 h2 => by omega)
      (by
        intro j big _ _ h c hc1 hc2
        beta_reduce
        by_cases hb : |a i j| > big
        · rw [if_pos hb]
          by_cases e : c = j
          · rw [e]
          · exact le_trans (h c hc1 (by omega)) (le_of_lt hb)
        · rw [if_neg hb]
          by_cases e : c = j
          · rw [e]; exact not_lt.mp hb
          · exact h c hc1 (by omega))
    intro c hc1 hc2
    exact h c hc1 (by omega)
  unfold ludcmpScaling
  have h := loop_inv
    (fun i (vv : Nat → T) =>
      set1 vv i (1 / loop (fun j (big : T) => if |a i j| > big then |a i j| else big) 1 n 0))
    (fun i vv => ∀ r, 1 ≤ r → r < i → 0 < vv r) n 1 (fun _ => 0)
    (fun r h1 h2 => by omega)
    (by
      intro i vv hi1 hi2 h r hr1 hr2
      beta_reduce
      by_cases e : r = i
      · subst e
        rw [set1_same]
        obtain ⟨c, hc1, hc2, hc3⟩ := hrow r hr1 (by omega)
        have : 0 < |a r c| := abs_pos.mpr hc3
        exact one_div_pos.mpr (lt_of_lt_of_le this (hmax r c hc1 hc2))
      · rw [set1_other _ _ _ _ e]
        exact h r hr1 (by omega))
  intro i hi1 hi2
  exact h i hi1 (by omega)

theorem ludcmp_inv {T : Type} [LinearOrderedField T] (A0 : Nat → Nat → T) (n : Nat)
    (indx : Nat → Nat)
    (hrow : ∀ i, 1 ≤ i → i ≤ n → ∃ c, 1 ≤ c ∧ c ≤ n ∧ A0 i c ≠ 0)
    (hker : ∀ v : Nat → T,
      (∀ r, 1 ≤ r → r ≤ n → ∑ c in Finset.Ico 1 (n + 1), A0 r c * v c = 0) →
      ∀ c, 1 ≤ c → c ≤ n → v c = 0) :
    LUInv n A0 n (ludcmp A0 n indx) := by
  unfold ludcmp
  have h := loop_inv (ludcmpColumn n) (fun j st => LUInv n A0 (j - 1) st) n 1
    { a := A0, indx := indx, d := 1, vv := ludcmpScaling A0 n, imax := 0, big := 0 }
    ⟨fun c h1 h2 => by omega, fun i c _ _ _ _ => rfl, fun i c h1 h2 h3 => by omega,
      fun i c h1 h2 h3 h4 => by omega, fun c h1 h2 => by omega,
      fun i h1 h2 => ludcmpScaling_pos A0 n hrow i (by omega) h2⟩
    (by
      intro j st hj1 hj2 hinv
      obtain ⟨p, rfl⟩ : ∃ p, j = p + 1 := ⟨j - 1, by omega⟩
      exact ludcmpColumn_inv n p A0 st (by omega) hinv hker)
  beta_reduce at h
  have e : 1 + n - 1 = n := by omega
  rw [e] at h
  exact h

theorem lubksbForward_spec {T : Type} [LinearOrderedField T] (a : Nat → Nat → T) (n : Nat)
    (indx : Nat → Nat) (b0 : Nat → T)
    (hindx : ∀ c, 1 ≤ c → c ≤ n → c ≤ indx c ∧ indx c ≤ n) :
    ∀ r, 1 ≤ r → r ≤ n →
      (lubksbForward a n indx b0).1 r +
          ∑ k in Finset.Ico 1 r, a r k * (lubksbForward a n indx b0).1 k =
        b0 (rowOrigin indx n r) := by
  unfold lubksbForward
  have h := loop_inv
    (fun i (s : (Nat → T) × Nat) =>
      if s.2 ≠ 0 then
        (set1 (set1 s.1 (indx i) (s.1 i)) i
          (loop (fun j (sum : T) => sum - a i j * (set1 s.1 (indx i) (s.1 i)) j)
            s.2 (i - s.2) (s.1 (indx i))), s.2)
      else if s.1 (indx i) ≠ 0 then (set1 (set1 s.1 (indx i) (s.1 i)) i (s.1 (indx i)), i)
      else (set1 (set1 s.1 (indx i) (s.1 i)) i (s.1 (indx i)), s.2))
    (fun i s =>
      (∀ r, 1 ≤ r → r < i →
        s.1 r + ∑ k in Finset.Ico 1 r, a r k * s.1 k = b0 (rowOrigin indx (i - 1) r)) ∧
      (∀ r, i ≤ r → r ≤ n → s.1 r = b0 (rowOrigin indx (i - 1) r)) ∧
      (s.2 = 0 → ∀ r, 1 ≤ r → r < i → s.1 r = 0) ∧
      (s.2 ≠ 0 → 1 ≤ s.2 ∧ s.2 < i ∧ ∀ r, 1 ≤ r → r < s.2 → s.1 r = 0))
    n 1 (b0, 0)
    ⟨fun r h1 h2 => by omega, fun r _ _ => rfl, fun _ r h1 h2 => by omega,
      fun hne => absurd rfl hne⟩
    (by
      intro i s hi1 hi2 ⟨ha, hb, hc, hd⟩
      obtain ⟨b, ii⟩ := s
      simp only at ha hb hc hd
      obtain ⟨p, rfl⟩ : ∃ p, i = p + 1 := ⟨i - 1, by omega⟩
      have hip := hindx (p + 1) (by omega) (by omega)
      simp only [Nat.add_sub_cancel] at ha hb ⊢
      -- the array once `b[ip] = b[i]` is done
      have hb1_low : ∀ k, k < p + 1 → set1 b (indx (p + 1)) (b (p + 1)) k = b k := by
        intro k hk
        rw [set1_other _ _ _ _ (by omega)]
      have hb1_hi : ∀ r, p + 1 < r → r ≤ n →
          set1 b (indx (p + 1)) (b (p + 1)) r =
            b0 (rowOrigin indx (p + 1) r) := by
        intro r hr1 hr2
        simp only [rowOrigin]
        by_cases e : r = indx (p + 1)
        · have hsw : swapIdx (p + 1) (indx (p + 1)) (indx (p + 1)) = p + 1 := by
            unfold swapIdx
            rw [if_neg (by omega), if_pos rfl]
          rw [e, set1_same, hb (p + 1) (Nat.le_refl _) (by omega), hsw]
        · rw [set1_other _ _ _ _ e, hb r (by omega) hr2, swapIdx_fix _ _ _ (by omega) e]
      have hrow_low : ∀ r, r < p + 1 → rowOrigin indx (p + 1) r = rowOrigin indx p r := by
        intro r hr
        simp only [rowOrigin]
        rw [swapIdx_fix _ _ _ (by omega) (by omega)]
      have hrow_i : rowOrigin indx (p + 1) (p + 1) = rowOrigin indx p (indx (p + 1)) := by
        simp only [rowOrigin]
        congr 1
        simp [swapIdx]
      -- the value stored in `b[i]`
      have hsum : ∀ v : T, (v = b (indx (p + 1)) - ∑ k in Finset.Ico 1 (p + 1), a (p + 1) k * b k) →
          ∀ ii2 : Nat,
          ((∀ r, 1 ≤ r → r < p + 1 + 1 →
            set1 (set1 b (indx (p + 1)) (b (p + 1))) (p + 1) v r +
              ∑ k in Finset.Ico 1 r, a r k *
                set1 (set1 b (indx (p + 1)) (b (p + 1))) (p + 1) v k =
              b0 (rowOrigin indx (p + 1) r)) ∧
          (∀ r, p + 1 + 1 ≤ r → r ≤ n →
            set1 (set1 b (indx (p + 1)) (b (p + 1))) (p + 1) v r =
              b0 (rowOrigin indx (p + 1) r))) := by
        intro v hv _
        have hnew_low : ∀ k, k < p + 1 →
            set1 (set1 b (indx (p + 1)) (b (p + 1))) (p + 1) v k = b k := by
          intro k hk
          rw [set1_other _ _ _ _ (by omega), hb1_low k hk]
        constructor
        · intro r hr1 hr2
          have hs : ∑ k in Finset.Ico 1 r, a r k *
              set1 (set1 b (indx (p + 1)) (b (p + 1))) (p + 1) v k =
              ∑ k in Finset.Ico 1 r, a r k * b k := by
            apply Finset.sum_congr rfl
            intro k hk
            rw [Finset.mem_Ico] at hk
            rw [hnew_low k (by omega)]
          rw [hs]
          by_cases e : r = p + 1
          · subst e
            rw [set1_same, hv, hrow_i, ← hb (indx (p + 1)) hip.1 hip.2]
            ring
          · rw [hnew_low r (by omega), hrow_low r (by omega)]
            exact ha r hr1 (by omega)
        · intro r hr1 hr2
          rw [set1_other _ _ _ _ (by omega)]
          exact hb1_hi r (by omega) hr2
      by_cases hii : ii ≠ 0
      · rw [if_pos hii]
        obtain ⟨d1, d2, d3⟩ := hd hii
        have hv : loop (fun j (sum : T) => sum - a (p + 1) j * set1 b (indx (p + 1)) (b (p + 1)) j)
            ii (p + 1 - ii) (b (indx (p + 1))) =
            b (indx (p + 1)) - ∑ k in Finset.Ico 1 (p + 1), a (p + 1) k * b k := by
          rw [loop_sub_sum (fun j => a (p + 1) j * set1 b (indx (p + 1)) (b (p + 1)) j)]
          have e : ii + (p + 1 - ii) = p + 1 := by omega
          rw [e, ← Finset.sum_Ico_consecutive (fun k => a (p + 1) k * b k) d1 (by omega : ii ≤ p + 1)]
          have hz : ∑ k in Finset.Ico 1 ii, a (p + 1) k * b k = 0 := by
            apply Finset.sum_eq_zero
            intro k hk
            rw [Finset.mem_Ico] at hk
            rw [d3 k hk.1 hk.2, mul_zero]
          rw [hz, zero_add]
          congr 1
          apply Finset.sum_congr rfl
          intro k hk
          rw [Finset.mem_Ico] at hk
          rw [hb1_low k hk.2]
        obtain ⟨g1, g2⟩ := hsum _ hv ii
        refine ⟨g1, g2, fun h0 => absurd h0 hii, fun _ => ⟨d1, by omega, ?_⟩⟩
        intro r hr1 hr2
        simp only
        rw [set1_other _ _ _ _ (by omega), hb1_low r (by omega)]
        exact d3 r hr1 hr2
      · rw [if_neg hii]
        have hii0 : ii = 0 := by
          by_contra hne
          exact hii hne
        have hzero := hc hii0
        have hv : b (indx (p + 1)) =
            b (indx (p + 1)) - ∑ k in Finset.Ico 1 (p + 1), a (p + 1) k * b k := by
          have hz : ∑ k in Finset.Ico 1 (p + 1), a (p + 1) k * b k = 0 := by
            apply Finset.sum_eq_zero
            intro k hk
            rw [Finset.mem_Ico] at hk
            rw [hzero k hk.1 hk.2, mul_zero]
          rw [hz, sub_zero]
        obtain ⟨g1, g2⟩ := hsum _ hv ii
        by_cases hs : b (indx (p + 1)) ≠ 0
        · rw [if_pos hs]
          refine ⟨g1, g2, fun h0 => by simp at h0, fun _ => ⟨by simp, by simp, ?_⟩⟩
          intro r hr1 hr2
          simp only at hr2 ⊢
          rw [set1_other _ _ _ _ (by omega), hb1_low r (by omega)]
          exact hzero r hr1 hr2
        · rw [if_neg hs]
          have hs0 : b (indx (p + 1)) = 0 := by
            by_contra hne
            exact hs hne
          refine ⟨g1, g2, fun _ => ?_, fun hne => absurd hii0 hne⟩
          intro r hr1 hr2
          simp only
          by_cases e : r = p + 1
          · subst e
            rw [set1_same, hs0]
          · rw [set1_other _ _ _ _ e, hb1_low r (by omega)]
            exact hzero r hr1 (by omega))
  intro r hr1 hr2
  have := h.1 r hr1 (by omega)
  simpa using this

theorem lubksb_spec {T : Type} [LinearOrderedField T] (n : Nat) (A0 : Nat → Nat → T)
    (st : LUState T) (h : LUInv n A0 n st) (b0 : Nat → T) :
    ∀ r, 1 ≤ r → r ≤ n →
      ∑ c in Finset.Ico 1 (n + 1), A0 r c * lubksb st.a n st.indx b0 c = b0 r := by
  have hfwd := lubksbForward_spec st.a n st.indx b0 h.indx_range
  have hback := backsub_spec st.a n (lubksbForward st.a n st.indx b0).1 h.pivot
  have hmain : ∀ i, 1 ≤ i → i ≤ n →
      ∑ c in Finset.Ico 1 (n + 1), A0 (rowOrigin st.indx n i) c * lubksb st.a n st.indx b0 c =
        b0 (rowOrigin st.indx n i) := by
    intro i hi1 hi2
    have e1 : ∑ c in Finset.Ico 1 (n + 1),
        A0 (rowOrigin st.indx n i) c * lubksb st.a n st.indx b0 c =
        ∑ c in Finset.Ico 1 (n + 1), ∑ k in Finset.Ico 1 (n + 1),
          lowerFactor st.a i k * (upperFactor st.a k c * lubksb st.a n st.indx b0 c) := by
      apply Finset.sum_congr rfl
      intro c hc
      rw [Finset.mem_Ico] at hc
      rw [← h.factors i c hi1 hi2 hc.1 (by omega), Finset.sum_mul]
      apply Finset.sum_congr rfl
      intro k _
      ring
    rw [e1, Finset.sum_comm]
    have e2 : ∑ k in Finset.Ico 1 (n + 1), ∑ c in Finset.Ico 1 (n + 1),
        lowerFactor st.a i k * (upperFactor st.a k c * lubksb st.a n st.indx b0 c) =
        ∑ k in Finset.Ico 1 (n + 1),
          lowerFactor st.a i k * (lubksbForward st.a n st.indx b0).1 k := by
      apply Finset.sum_congr rfl
      intro k hk
      rw [Finset.mem_Ico] at hk
      rw [← Finset.mul_sum, upperFactor_sum st.a n k _ hk.1 (by omega)]
      congr 1
      exact hback k hk.1 (by omega)
    rw [e2, lowerFactor_sum st.a n i _ hi1 hi2]
    exact hfwd i hi1 hi2
  intro r hr1 hr2
  obtain ⟨i, hi1, hi2, rfl⟩ := rowOrigin_surj st.indx n n (Nat.le_refl _) h.indx_range r hr1 hr2
  exact hmain i hi1 hi2

theorem invertColumns_spec {T : Type} [LinearOrderedField T] (n : Nat) (A0 : Nat → Nat → T)
    (st : LUState T) (h : LUInv n A0 n st) :
    ∀ r j, 1 ≤ r → r ≤ n → 1 ≤ j → j ≤ n →
      ∑ c in Finset.Ico 1 (n + 1), A0 r c * (invertColumns st.a n st.indx).2 c j =
        if r = j then 1 else 0 := by
  unfold invertColumns
  have hl := loop_inv
    (fun j (s : (Nat → T) × (Nat → Nat → T)) =>
      (lubksb st.a n st.indx (set1 (loop (fun i (col : Nat → T) => set1 col i 0) 1 n s.1) j 1),
        loop (fun i (y : Nat → Nat → T) =>
            set2 y i j
              (lubksb st.a n st.indx
                (set1 (loop (fun i (col : Nat → T) => set1 col i 0) 1 n s.1) j 1) i))
          1 n s.2))
    (fun j s => ∀ r j2, 1 ≤ r → r ≤ n → 1 ≤ j2 → j2 < j →
      ∑ c in Finset.Ico 1 (n + 1), A0 r c * s.2 c j2 = if r = j2 then 1 else 0)
    n 1 (fun _ => 0, fun _ _ => 0) (fun r j2 _ _ h1 h2 => by omega)
    (by
      intro j s hj1 hj2 hprev r j2 hr1 hr2 hj21 hj22
      beta_reduce
      have hzero : ∀ k, 1 ≤ k → k ≤ n →
          loop (fun i (col : Nat → T) => set1 col i 0) 1 n s.1 k = 0 := by
        have hz := loop_inv (fun i (col : Nat → T) => set1 col i 0)
          (fun i col => ∀ k, 1 ≤ k → k < i → col k = 0) n 1 s.1 (fun k h1 h2 => by omega)
          (by
            intro i col _ _ hcol k hk1 hk2
            beta_reduce
            by_cases e : k = i
            · rw [e, set1_same]
            · rw [set1_other _ _ _ _ e]
              exact hcol k hk1 (by omega))
        intro k hk1 hk2
        exact hz k hk1 (by omega)
      have hy : ∀ c j3, 1 ≤ c → c ≤ n →
          loop (fun i (y : Nat → Nat → T) =>
            set2 y i j
              (lubksb st.a n st.indx
                (set1 (loop (fun i (col : Nat → T) => set1 col i 0) 1 n s.1) j 1) i))
            1 n s.2 c j3 =
          if j3 = j then lubksb st.a n st.indx
              (set1 (loop (fun i (col : Nat → T) => set1 col i 0) 1 n s.1) j 1) c
          else s.2 c j3 := by
        have hz := loop_inv
          (fun i (y : Nat → Nat → T) =>
            set2 y i j
              (lubksb st.a n st.indx
                (set1 (loop (fun i (col : Nat → T) => set1 col i 0) 1 n s.1) j 1) i))
          (fun i y => ∀ c j3, (1 ≤ c → c < i → j3 = j → y c j3 = lubksb st.a n st.indx
              (set1 (loop (fun i (col : Nat → T) => set1 col i 0) 1 n s.1) j 1) c) ∧
            (j3 ≠ j → y c j3 = s.2 c j3))
          n 1 s.2 (fun c j3 => ⟨fun h1 h2 => by omega, fun _ => rfl⟩)
          (by
            intro i y _ _ hyp c j3
            beta_reduce
            constructor
            · intro hc1 hc2 hj3
              subst hj3
              by_cases e : c = i
              · subst e
                rw [set2_same]
              · rw [set2_other _ _ _ _ _ _ (.inl e)]
                exact (hyp c j3).1 hc1 (by omega) rfl
            · intro hj3
              rw [set2_other _ _ _ _ _ _ (.inr hj3)]
              exact (hyp c j3).2 hj3)
        intro c j3 hc1 hc2
        by_cases e : j3 = j
        · rw [if_pos e]
          exact (hz c j3).1 hc1 (by omega) e
        · rw [if_neg e]
          exact (hz c j3).2 e
      have hs : ∑ c in Finset.Ico 1 (n + 1), A0 r c *
          loop (fun i (y : Nat → Nat → T) =>
            set2 y i j
              (lubksb st.a n st.indx
                (set1 (loop (fun i (col : Nat → T) => set1 col i 0) 1 n s.1) j 1) i))
            1 n s.2 c j2 =
          ∑ c in Finset.Ico 1 (n + 1), A0 r c *
            (if j2 = j then lubksb st.a n st.indx
              (set1 (loop (fun i (col : Nat → T) => set1 col i 0) 1 n s.1) j 1) c
            else s.2 c j2) := by
        apply Finset.sum_congr rfl
        intro c hc
        rw [Finset.mem_Ico] at hc
        rw [hy c j2 hc.1 (by omega)]
      rw [hs]
      by_cases e : j2 = j
      · subst e
        simp only [if_true]
        rw [lubksb_spec n A0 st h _ r hr1 hr2]
        by_cases e2 : r = j2
        · rw [e2, set1_same, if_pos rfl]
        · rw [set1_other _ _ _ _ e2, if_neg e2]
          exact hzero r hr1 hr2
      · simp only [if_neg e]
        exact hprev r j2 hr1 hr2 hj21 (by omega))
  intro r j hr1 hr2 hj1 hj2
  exact hl r j hr1 hr2 hj1 (by omega)

theorem invert_load {T : Type} [LinearOrderedField T] [Inhabited T] (m : Matrix T)
    (hwf : m.wf) (hsq : m.cols = m.rows) :
    ∃ a : Nat → Nat → T,
      loopE (fun j (a : Nat → Nat → T) =>
        loopE (fun i (a : Nat → Nat → T) =>
            (m.get (i - 1) (j - 1)).map (fun v => set2 a i j v))
          1 m.cols a)
        1 m.cols (fun _ _ => 0) = .ok a ∧
      ∀ i j, 1 ≤ i → i ≤ m.cols → 1 ≤ j → j ≤ m.cols →
        a i j = rawAt m.array ((i - 1) * m.cols + (j - 1)) := by
  have h := loopE_inv
    (fun j (a : Nat → Nat → T) =>
      loopE (fun i (a : Nat → Nat → T) =>
          (m.get (i - 1) (j - 1)).map (fun v => set2 a i j v))
        1 m.cols a)
    (fun j a => ∀ i c, 1 ≤ i → i ≤ m.cols → 1 ≤ c → c < j →
      a i c = rawAt m.array ((i - 1) * m.cols + (c - 1)))
    m.cols 1 (fun _ _ => 0) (fun i c _ _ h1 h2 => by omega)
    (by
      intro j a hj1 hj2 ha
      have h2 := loopE_inv
        (fun i (a : Nat → Nat → T) =>
          (m.get (i - 1) (j - 1)).map (fun v => set2 a i j v))
        (fun i a2 => (∀ r c, c ≠ j → a2 r c = a r c) ∧
          ∀ r, 1 ≤ r → r < i → a2 r j = rawAt m.array ((r - 1) * m.cols + (j - 1)))
        m.cols 1 a ⟨fun _ _ _ => rfl, fun r h1 h2 => by omega⟩
        (by
          intro i a2 hi1 hi2 ⟨g1, g2⟩
          beta_reduce
          rw [get_ok m hwf (i - 1) (j - 1) (by omega) (by omega)]
          refine ⟨set2 a2 i j (rawAt m.array ((i - 1) * m.cols + (j - 1))), rfl, ?_, ?_⟩
          · intro r c hc
            rw [set2_other _ _ _ _ _ _ (.inr hc)]
            exact g1 r c hc
          · intro r hr1 hr2
            by_cases e : r = i
            · subst e
              rw [set2_same]
            · rw [set2_other _ _ _ _ _ _ (.inl e)]
              exact g2 r hr1 (by omega))
      obtain ⟨a2, e2, g1, g2⟩ := h2
      refine ⟨a2, e2, ?_⟩
      intro i c hi1 hi2 hc1 hc2
      by_cases e : c = j
      · subst e
        exact g2 i hi1 (by omega)
      · rw [g1 i c e]
        exact ha i c hi1 hi2 hc1 (by omega))
  obtain ⟨a, e, ha⟩ := h
  exact ⟨a, e, fun i j hi1 hi2 hj1 hj2 => ha i j hi1 hi2 hj1 (by omega)⟩

theorem invert_store {T : Type} [LinearOrderedField T] (m : Matrix T)
    (hwf : m.wf) (hsq : m.cols = m.rows) (y : Nat → Nat → T) :
    ∃ m1 : Matrix T,
      loopE (fun j (m1 : Matrix T) =>
        loopE (fun i (m1 : Matrix T) => m1.assign (i - 1) (j - 1) (y i j)) 1 m.cols m1)
        1 m.cols m = .ok m1 ∧
      m1.rows = m.rows ∧ m1.cols = m.cols ∧ m1.array.length = m.array.length ∧
      ∀ i j, 1 ≤ i → i ≤ m.cols → 1 ≤ j → j ≤ m.cols →
        m1.array[(i - 1) * m.cols + (j - 1)]? = some (y i j) := by
  have hlen : m.array.length = m.rows * m.cols := hwf
  have h := loopE_inv
    (fun j (m1 : Matrix T) =>
      loopE (fun i (m1 : Matrix T) => m1.assign (i - 1) (j - 1) (y i j)) 1 m.cols m1)
    (fun j m1 => m1.rows = m.rows ∧ m1.cols = m.cols ∧ m1.array.length = m.array.length ∧
      ∀ i c, 1 ≤ i → i ≤ m.cols → 1 ≤ c → c < j →
        m1.array[(i - 1) * m.cols + (c - 1)]? = some (y i c))
    m.cols 1 m ⟨rfl, rfl, rfl, fun i c _ _ h1 h2 => by omega⟩
    (by
      intro j m1 hj1 hj2 ⟨k1, k2, k3, k4⟩
      have h2 := loopE_inv
        (fun i (m2 : Matrix T) => m2.assign (i - 1) (j - 1) (y i j))
        (fun i m2 => m2.rows = m.rows ∧ m2.cols = m.cols ∧ m2.array.length = m.array.length ∧
          (∀ r c, 1 ≤ r → r ≤ m.cols → 1 ≤ c → c < j →
            m2.array[(r - 1) * m.cols + (c - 1)]? = some (y r c)) ∧
          ∀ r, 1 ≤ r → r < i → m2.array[(r - 1) * m.cols + (j - 1)]? = some (y r j))
        m.cols 1 m1 ⟨k1, k2, k3, k4, fun r h1 h2 => by omega⟩
        (by
          intro i m2 hi1 hi2 ⟨g1, g2, g3, g4, g5⟩
          beta_reduce
          rw [assign_ok m2 (i - 1) (j - 1) _ (by omega) (by omega) (by rw [g3, g1, g2]; exact hlen)]
          have hpos : (i - 1) * m.cols + (j - 1) < m2.array.length := by
            rw [g3, hlen, Nat.add_comm]
            exact pos_lt _ _ _ _ (by omega) (by omega)
          refine ⟨_, rfl, g1, g2, by simpa using g3, ?_, ?_⟩
          · intro r c hr1 hr2 hc1 hc2
            simp only [g2, List.getElem?_set]
            have hne : ¬ ((i - 1) * m.cols + (j - 1) = (r - 1) * m.cols + (c - 1)) := by
              intro e
              rw [Nat.add_comm ((i - 1) * m.cols), Nat.add_comm ((r - 1) * m.cols)] at e
              have := pos_inj _ _ _ _ _ (by omega) (by omega) e
              omega
            rw [if_neg hne]
            exact g4 r c hr1 hr2 hc1 hc2
          · intro r hr1 hr2
            simp only [g2, List.getElem?_set]
            by_cases e : r = i
            · subst e
              rw [if_pos rfl, if_pos hpos]
            · have hne : ¬ ((i - 1) * m.cols + (j - 1) = (r - 1) * m.cols + (j - 1)) := by
                intro e2
                rw [Nat.add_comm ((i - 1) * m.cols), Nat.add_comm ((r - 1) * m.cols)] at e2
                have := pos_inj _ _ _ _ _ (by omega) (by omega) e2
                omega
              rw [if_neg hne]
              exact g5 r hr1 (by omega))
      obtain ⟨m2, e2, g1, g2, g3, g4, g5⟩ := h2
      refine ⟨m2, e2, g1, g2, g3, ?_⟩
      intro i c hi1 hi2 hc1 hc2
      by_cases e : c = j
      · subst e
        exact g5 i hi1 (by omega)
      · exact g4 i c hi1 hi2 hc1 (by omega))
  obtain ⟨m1, e, k1, k2, k3, k4⟩ := h
  exact ⟨m1, e, k1, k2, k3, fun i j hi1 hi2 hj1 hj2 => k4 i j hi1 hi2 hj1 (by omega)⟩

theorem sum_Ico_fin {T : Type} [LinearOrderedField T] (n : Nat) (f : Nat → T) :
    ∑ c in Finset.Ico 1 (n + 1), f c = ∑ k : Fin n, f (k.val + 1) := by
  rw [Finset.sum_Ico_eq_sum_range, Fin.sum_univ_eq_sum_range (fun k => f (k + 1)) n]
  apply Finset.sum_congr
  · simp
  · intro k _
    rw [Nat.add_comm]

theorem kernel_of_det {T : Type} [LinearOrderedField T] (n : Nat) (A : Nat → Nat → T)
    (hdet : (Matrix.of fun (i j : Fin n) => A (i.val + 1) (j.val + 1)).det ≠ 0) :
    ∀ v : Nat → T,
      (∀ r, 1 ≤ r → r ≤ n → ∑ c in Finset.Ico 1 (n + 1), A r c * v c = 0) →
      ∀ c, 1 ≤ c → c ≤ n → v c = 0 := by
  intro v hv c hc1 hc2
  have hmv : (Matrix.of fun (i j : Fin n) => A (i.val + 1) (j.val + 1)).mulVec
      (fun k : Fin n => v (k.val + 1)) = 0 := by
    funext i
    simp only [Matrix.mulVec, Matrix.dotProduct, Matrix.of_apply, Pi.zero_apply]
    rw [← sum_Ico_fin n (fun c => A (i.val + 1) c * v c)]
    exact hv (i.val + 1) (by omega) (by have := i.isLt; omega)
  have hz := Matrix.eq_zero_of_mulVec_eq_zero hdet hmv
  have := congrFun hz ⟨c - 1, by omega⟩
  simp only [Pi.zero_apply] at this
  have e : c - 1 + 1 = c := by omega
  rw [e] at this
  exact this

theorem row_of_det {T : Type} [LinearOrderedField T] (n : Nat) (A : Nat → Nat → T)
    (hdet : (Matrix.of fun (i j : Fin n) => A (i.val + 1) (j.val + 1)).det ≠ 0) :
    ∀ i, 1 ≤ i → i ≤ n → ∃ c, 1 ≤ c ∧ c ≤ n ∧ A i c ≠ 0 := by
  intro i hi1 hi2
  by_contra hno
  apply hdet
  apply Matrix.det_eq_zero_of_row_eq_zero ⟨i - 1, by omega⟩
  intro j
  simp only [Matrix.of_apply]
  by_contra hne
  apply hno
  have e : i - 1 + 1 = i := by omega
  rw [e] at hne
  exact ⟨j.val + 1, by omega, by have := j.isLt; omega, hne⟩

theorem left_inverse_of_right {T : Type} [LinearOrderedField T] (n : Nat) (A Y : Nat → Nat → T)
    (h : ∀ r j, 1 ≤ r → r ≤ n → 1 ≤ j → j ≤ n →
      ∑ c in Finset.Ico 1 (n + 1), A r c * Y c j = if r = j then 1 else 0) :
    ∀ r j, 1 ≤ r → r ≤ n → 1 ≤ j → j ≤ n →
      ∑ c in Finset.Ico 1 (n + 1), Y r c * A c j = if r = j then 1 else 0 := by
  have hAY : (Matrix.of fun (i j : Fin n) => A (i.val + 1) (j.val + 1)) *
      (Matrix.of fun (i j : Fin n) => Y (i.val + 1) (j.val + 1)) = 1 := by
    ext i j
    simp only [Matrix.mul_apply, Matrix.of_apply, Matrix.one_apply]
    rw [← sum_Ico_fin n (fun c => A (i.val + 1) c * Y c (j.val + 1)),
      h (i.val + 1) (j.val + 1) (by omega) (by have := i.isLt; omega) (by omega)
        (by have := j.isLt; omega)]
    by_cases e : i = j
    · subst e; simp
    · have : ¬ (i.val + 1 = j.val + 1) := by
        intro e2
        apply e
        exact Fin.ext (by omega)
      simp [e, this]
  have hYA := Matrix.mul_eq_one_comm.mp hAY
  intro r j hr1 hr2 hj1 hj2
  have := congrFun (congrFun hYA ⟨r - 1, by omega⟩) ⟨j - 1, by omega⟩
  simp only [Matrix.mul_apply, Matrix.of_apply, Matrix.one_apply] at this
  rw [← sum_Ico_fin n (fun c => Y (r - 1 + 1) c * A c (j - 1 + 1))] at this
  have e1 : r - 1 + 1 = r := by omega
  have e2 : j - 1 + 1 = j := by omega
  rw [e1, e2] at this
  rw [this]
  by_cases e : r = j
  · subst e; simp
  · have : ¬ ((⟨r - 1, by omega⟩ : Fin n) = ⟨j - 1, by omega⟩) := by
      intro e3
      apply e
      have := congrArg Fin.val e3
      simp only at this
      omega
    simp [e, this]

theorem foldl_add_sum {T : Type} [LinearOrderedField T] (f : Nat → T) (n : Nat) :
    (List.range n).foldl (fun acc k => acc + f k) 0 = ∑ k in Finset.range n, f k := by
  induction n with
  | zero => simp
  | succ n ih =>
    rw [List.range_succ, List.foldl_append, ih, Finset.sum_range_succ]
    rfl

theorem mul_entries {T : Type} [Inhabited T] [Zero T] [Add T] [Mul T] (a m : Matrix T)
    (hc : a.cols = m.rows) (hsz : a.rows * m.cols < 2 ^ 64) :
    ∃ res, a.mul m = .ok res ∧ res.rows = a.rows ∧ res.cols = m.cols ∧ res.wf ∧
      ∀ i j, i < a.rows → j < m.cols →
        res.get i j = .ok ((List.range a.cols).foldl
          (fun acc k => acc + rawAt a.array (i * a.cols + k) * rawAt m.array (k * m.cols + j))
          0) := by
  obtain ⟨hlen, hel⟩ := mul_array a m
  unfold Matrix.mul
  rw [if_neg (by simpa using hc), Nat.mod_eq_of_lt hsz]
  refine ⟨_, rfl, rfl, rfl, hlen, ?_⟩
  intro i j hi hj
  rw [get_eq _ i j (by exact hi) (by exact hj)]
  apply vectorAt_ok
  have := hel i j hi hj
  rw [Nat.add_comm] at this
  simpa using this

/-- C13: over an ordered field (exact arithmetic, the rationals for one), for
every square `n x n` matrix `A` whose array holds its elements, with `n` below
`2 ^ 31` (it is stored in an `int`), and which is nonsingular (its determinant
is not zero), `invert()` raises nothing and replaces `A` by an `n x n` matrix
whose product with the original `A`, as `operator*` computes it, is the
identity matrix. -/
theorem invert_spec {T : Type} [LinearOrderedField T] [Inhabited T] (m : Matrix T)
    (hwf : m.wf) (hsq : m.cols = m.rows) (hn : m.rows < 2 ^ 31)
    (hdet : (Matrix.of fun (i j : Fin m.rows) =>
      rawAt m.array (i.val * m.cols + j.val)).det ≠ 0) :
    m.invert.2 = .ok () ∧ m.invert.1.rows = m.rows ∧ m.invert.1.cols = m.cols ∧
      m.invert.1.wf ∧
      ∃ res, m.invert.1.mul m = .ok res ∧ res.rows = m.rows ∧ res.cols = m.cols ∧
        ∀ i j, i < m.rows → j < m.cols →
          res.get i j = .ok (if i = j then 1 else 0) := by
  obtain ⟨n, mr, arr⟩ := m
  dsimp only at hsq hn hdet ⊢
  subst hsq
  have hlen : arr.length = n * n := hwf
  obtain ⟨a, hload, ha⟩ := invert_load ⟨n, n, arr⟩ hwf rfl
  dsimp only at hload ha
  have hdet2 : (Matrix.of fun (i j : Fin n) => a (i.val + 1) (j.val + 1)).det ≠ 0 := by
    have e : (Matrix.of fun (i j : Fin n) => a (i.val + 1) (j.val + 1)) =
        Matrix.of fun (i j : Fin n) => rawAt arr (i.val * n + j.val) := by
      ext i j
      simp only [Matrix.of_apply]
      rw [ha (i.val + 1) (j.val + 1) (by omega) (by have := i.isLt; omega) (by omega)
        (by have := j.isLt; omega)]
      simp
    rw [e]
    exact hdet
  have hlu := ludcmp_inv a n (fun _ => 0) (row_of_det n a hdet2) (kernel_of_det n a hdet2)
  have hYA := left_inverse_of_right n a _
    (invertColumns_spec n a (ludcmp a n (fun _ => 0)) hlu)
  obtain ⟨m1, hstore, k1, k2, k3, k4⟩ := invert_store ⟨n, n, arr⟩ hwf rfl
    (invertColumns (ludcmp a n (fun _ => 0)).a n (ludcmp a n (fun _ => 0)).indx).2
  dsimp only at hstore k1 k2 k3 k4
  have hinv : (Matrix.mk n n arr).invert = (m1, .ok ()) := by
    unfold Matrix.invert
    dsimp only
    rw [if_neg (by simp), hload]
    dsimp only
    rw [hstore]
  rw [hinv]
  have hwf1 : m1.wf := by
    show m1.array.length = m1.rows * m1.cols
    rw [k3, k1, k2, hlen]
  refine ⟨rfl, k1, k2, hwf1, ?_⟩
  have hsz : m1.rows * n < 2 ^ 64 := by
    rw [k1]
    have h1 : n * n < 2 ^ 31 * 2 ^ 31 := Nat.mul_lt_mul'' hn hn
    have h2 : 2 ^ 31 * 2 ^ 31 < 2 ^ 64 := by norm_num
    omega
  obtain ⟨res, hres, r1, r2, _, r4⟩ := mul_entries m1 ⟨n, n, arr⟩ k2 hsz
  refine ⟨res, hres, r1.trans k1, r2, ?_⟩
  intro i j hi hj
  rw [r4 i j (by rw [k1]; exact hi) hj, k2]
  congr 1
  dsimp only
  rw [foldl_add_sum (fun k => rawAt m1.array (i * n + k) * rawAt arr (k * n + j)) n]
  have hterm : ∀ k, k ∈ Finset.range n →
      rawAt m1.array (i * n + k) * rawAt arr (k * n + j) =
        (invertColumns (ludcmp a n (fun _ => 0)).a n (ludcmp a n (fun _ => 0)).indx).2
          (i + 1) (k + 1) * a (k + 1) (j + 1) := by
    intro k hk
    rw [Finset.mem_range] at hk
    have h1 := k4 (i + 1) (k + 1) (by omega) (by omega) (by omega) (by omega)
    simp only [Nat.add_sub_cancel] at h1
    have h2 := ha (k + 1) (j + 1) (by omega) (by omega) (by omega) (by omega)
    simp only [Nat.add_sub_cancel] at h2
    rw [h2]
    congr 1
    simp only [rawAt, List.getD_eq_getElem?_getD, h1, Option.getD_some]
  rw [Finset.sum_congr rfl hterm]
  have hs := hYA (i + 1) (j + 1) (by omega) (by omega) (by omega) (by omega)
  rw [Finset.sum_Ico_eq_sum_range] at hs
  have e : n + 1 - 1 = n := by omega
  rw [e] at hs
  have hs2 : ∑ k in Finset.range n,
      (invertColumns (ludcmp a n (fun _ => 0)).a n (ludcmp a n (fun _ => 0)).indx).2
        (i + 1) (k + 1) * a (k + 1) (j + 1) =
      ∑ k in Finset.range n,
        (invertColumns (ludcmp a n (fun _ => 0)).a n (ludcmp a n (fun _ => 0)).indx).2
          (i + 1) (1 + k) * a (1 + k) (j + 1) := by
    apply Finset.sum_congr rfl
    intro k _
    rw [Nat.add_comm k 1]
  rw [hs2, hs]
  by_cases e2 : i = j
  · subst e2; simp
  · have : ¬ (i + 1 = j + 1) := by omega
    simp [e2, this]

theorem invert_spec_witness :
    exampleSquareQ.wf ∧ exampleSquareQ.cols = exampleSquareQ.rows ∧
      exampleSquareQ.rows < 2 ^ 31 ∧
      (∃ res, exampleSquareQ.invert.1.mul exampleSquareQ = .ok res ∧
        res.rows = exampleSquareQ.rows ∧ res.cols = exampleSquareQ.cols ∧
        ∀ i j, i < exampleSquareQ.rows → j < exampleSquareQ.cols →
          res.get i j = .ok (if i = j then 1 else 0)) :=
  ⟨by decide, by decide, by decide,
    (invert_spec exampleSquareQ (by decide) (by decide) (by decide)
      (by simp [Matrix.det_fin_two, exampleSquareQ, rawAt]; norm_num)).2.2.2.2⟩

end alize
